import Mathlib

/-!
# write-order-file.from-fastq.to-fasta.single.common

A shallow embedding of `src/write-order-file.from-fastq.to-fasta.single.common.cpp`
and a verification of its two passes:

* the first pass reads the original fastq file and builds `map_read_order`,
  a table from read identifiers to their 1-based position;
* the second pass reads the file to be reordered and writes, for every header,
  the position stored in the table.

Conventions of the embedding.

* A file is the list of its characters (`Str`); a `Char` stands for one `char`.
* An input stream is its unread characters together with `eofbit` and `failbit`.
  `getline`, `operator>>` on strings and `std::ws` follow the C++ standard library:
  a read on a stream that is not `good()` sets `failbit` and leaves its target alone.
* `std::cout` is the list of the messages written, one per output statement;
  `Msg.text` gives the characters of each.
* `exit(EXIT_FAILURE)` is `Except.error` carrying the variables at the time of the
  call; the process status is then `1`. Falling off the end of `main` is status `0`.
* The two `while` loops take a fuel argument; `main` supplies the length of the file
  plus one, and `build_index_total` / `resolve_order_total` show this always suffices.
* `num_reads` is a `std::size_t`. On the path that keeps running it is equal to the
  number of entries held by `map_read_order`, which is bounded by the address space,
  so it never wraps and is modelled by an unbounded natural number.
* The three command-line paths are assumed to name three different files and
  `argc = 4` (the usage branch is not modelled).
-/

namespace WriteOrder

/-- A `std::string`: the list of its characters. -/
abbrev Str := List Char

/-! ## The pieces of the standard library that the program uses -/

/-- The function `std::isspace` in the classic locale: space, `\t`, `\n`, `\v`, `\f`, `\r`. -/
def isspace (c : Char) : Bool :=
  c == ' ' || c == '\t' || c == '\n' || c == Char.ofNat 11 || c == Char.ofNat 12 || c == '\r'

/-- An input stream (`std::ifstream`, `std::istringstream`): unread characters and
the two state bits the program can observe. -/
structure IStream where
  buf : Str
  eofbit : Bool
  failbit : Bool
deriving DecidableEq, Repr

namespace IStream

/-- A freshly opened stream over `content`. -/
def mk_open (content : Str) : IStream := ⟨content, false, false⟩

/-- The member `good()`. -/
def good (s : IStream) : Bool := !s.eofbit && !s.failbit

/-- The member `eof()`. -/
def eof (s : IStream) : Bool := s.eofbit

/-- The member `fail()`. -/
def fail (s : IStream) : Bool := s.failbit

end IStream

/-- The call `getline(s, str)`: when the stream is not good, `failbit` is set and `str`
is untouched. Otherwise `str` is erased and receives the characters up to the next
`\n`, which is consumed and not stored. Reaching the end of the stream before a
`\n` sets `eofbit`, and also `failbit` when nothing at all was extracted. -/
def getline (s : IStream) (str : Str) : IStream × Str :=
  if s.good = false then ({ s with failbit := true }, str)
  else
    let line := s.buf.takeWhile (fun c => c != '\n')
    match s.buf.dropWhile (fun c => c != '\n') with
    | [] => ({ buf := [], eofbit := true, failbit := line.isEmpty }, line)
    | _ :: rest => ({ buf := rest, eofbit := false, failbit := false }, line)

/-- The call `s >> str` for a string target: skip leading whitespace, then take the
characters up to the next whitespace or the end of the stream. When the stream is
not good, or only whitespace is left, `failbit` is set and `str` is untouched. -/
def extract_string (s : IStream) (str : Str) : IStream × Str :=
  if s.good = false then ({ s with failbit := true }, str)
  else
    match s.buf.dropWhile isspace with
    | [] => ({ buf := [], eofbit := true, failbit := true }, str)
    | c :: cs =>
      let word := (c :: cs).takeWhile (fun x => !isspace x)
      let rest := (c :: cs).dropWhile (fun x => !isspace x)
      ({ buf := rest, eofbit := rest.isEmpty, failbit := false }, word)

/-- The manipulator `s >> std::ws`: discard leading whitespace; reaching the end
sets `eofbit` only. -/
def ws (s : IStream) : IStream :=
  if s.good = false then { s with failbit := true }
  else
    match s.buf.dropWhile isspace with
    | [] => { buf := [], eofbit := true, failbit := false }
    | c :: cs => { buf := c :: cs, eofbit := false, failbit := false }

/-- The value of `std::distance(std::istream_iterator<std::string>(s), end)`: the number
of successful string extractions before the first failing one. -/
def istream_distance : Nat → IStream → Nat
  | 0, _ => 0
  | fuel + 1, s =>
    let r := extract_string s []
    if r.1.fail then 0 else 1 + istream_distance fuel r.1

/-- The member `str.erase(pos, len)` for `pos ≤ str.size()`, the only way it is called. -/
def erase (str : Str) (pos len : Nat) : Str :=
  str.take pos ++ str.drop (pos + len)

/-- The table `std::unordered_map<std::string, std::size_t>`, as the list of its entries
in insertion order. -/
abbrev UMap := List (Str × Nat)

namespace UMap

/-- The member `find(k)`: the stored value, `none` standing for `end()`. -/
def find : UMap → Str → Option Nat
  | [], _ => none
  | (k', v) :: m, k => if k' = k then some v else find m k

/-- The member `operator[]` used as a value: an absent key is inserted with the
value `0`. -/
def subscript (m : UMap) (k : Str) : UMap × Nat :=
  match m.find k with
  | some v => (m, v)
  | none => (m ++ [(k, 0)], 0)

/-- The statement `m[k] = v`: overwrite the value of a present key, insert an
absent one. -/
def assign : UMap → Str → Nat → UMap
  | [], k, v => [(k, v)]
  | (k', v') :: m, k, v => if k' = k then (k', v) :: m else (k', v') :: assign m k v

end UMap

/-! ## Messages written to `std::cout` -/

/-- One output statement on `std::cout`. -/
inductive Msg
  | warning
  | cannot_open (path : Str)
  | duplicate (word_1st argv1 : Str)
  | unknown (word_1st argv1 : Str)
deriving DecidableEq, Repr

/-- The characters each statement writes. -/
def Msg.text : Msg → Str
  | .warning =>
    "\nWARNING: Multiple words in the header line_header. Only the 1st word will be used.\n\n".toList
  | .cannot_open path => "\nERROR: Cannot open ".toList ++ path ++ "\n\n".toList
  | .duplicate word_1st argv1 =>
    "\nERROR: ".toList ++ word_1st ++ " exists multiple times in ".toList ++ argv1 ++ "\n\n".toList
  | .unknown word_1st argv1 =>
    "\nERROR: ".toList ++ word_1st ++ " does not exist in ".toList ++ argv1 ++ "\n\n".toList

/-! ## First pass: construct the hash table (source lines 30–85) -/

/-- The value `num_words` of source line 44: the number of words of the header. -/
def num_words (line_header : Str) : Nat :=
  istream_distance (line_header.length + 1) (ws (IStream.mk_open line_header))

/-- The first word of the header (`iss_header >> word_1st`, lines 58–60 and 112–114);
`word_1st` starts out empty. -/
def first_word (line_header : Str) : Str :=
  (extract_string (IStream.mk_open line_header) []).2

/-- The identifier of a header: its first word after `word_1st.erase(0, 1)`
(lines 58–63 and 112–117). -/
def identifier (line_header : Str) : Str :=
  erase (first_word line_header) 0 1

/-- The variables of the first pass other than the stream and `line_header`. -/
structure Builder where
  map_read_order : UMap
  num_reads : Nat
  already_warned : Bool
  cout : List Msg
deriving DecidableEq, Repr

/-- The variables at line 37, before the first pass reads anything. -/
def Builder.init : Builder := ⟨[], 0, false, []⟩

/-- Lines 43–52: the warning, guarded by `already_warned`. -/
def warn_once (line_header : Str) (b : Builder) : Builder :=
  if b.already_warned = false then
    if num_words line_header > 1 then
      { b with cout := b.cout ++ [Msg.warning], already_warned := true }
    else b
  else b

/-- Lines 42–74, the part of the loop body that handles one header. -/
def index_record (argv1 line_header : Str) (b : Builder) : Except Builder Builder :=
  let b := warn_once line_header b
  let num_reads := b.num_reads + 1
  let word_1st := identifier line_header
  if (b.map_read_order.find word_1st).isSome then
    .error { b with num_reads := num_reads, cout := b.cout ++ [Msg.duplicate word_1st argv1] }
  else
    .ok { b with num_reads := num_reads,
                 map_read_order := b.map_read_order.assign word_1st num_reads }

/-- Lines 76–82: three lines are skipped and the next header is read. -/
def next_record4 (f : IStream) (line_header : Str) : IStream × Str :=
  let r1 := getline f line_header
  let r2 := getline r1.1 r1.2
  let r3 := getline r2.1 r2.2
  getline r3.1 r3.2

/-- The loop of lines 41–83; `none` when the fuel runs out. -/
def build_loop (argv1 : Str) : Nat → IStream → Str → Builder →
    Option (Except Builder (Str × Builder))
  | 0, _, _, _ => none
  | fuel + 1, f, line_header, b =>
    if f.eof then some (.ok (line_header, b))
    else
      match index_record argv1 line_header b with
      | .error b' => some (.error b')
      | .ok b' =>
        let r := next_record4 f line_header
        build_loop argv1 fuel r.1 r.2 b'

/-- Lines 30–85 on the content of the original file: on success the final value of
`line_header` and the variables, on `exit(EXIT_FAILURE)` the variables. -/
def build_index (argv1 content : Str) : Option (Except Builder (Str × Builder)) :=
  let r := getline (IStream.mk_open content) []
  build_loop argv1 (content.length + 1) r.1 r.2 Builder.init

/-- The state after `k` complete iterations of the loop of lines 41–83, when the
loop runs that long without leaving and without failing. -/
def build_iterate (argv1 : Str) : Nat → IStream × Str × Builder → Option (IStream × Str × Builder)
  | 0, s => some s
  | k + 1, (f, line_header, b) =>
    if f.eof then none
    else
      match index_record argv1 line_header b with
      | .error _ => none
      | .ok b' =>
        let r := next_record4 f line_header
        build_iterate argv1 k (r.1, r.2, b')

/-- The state on first reaching the loop test of line 41. -/
def build_start (content : Str) : IStream × Str × Builder :=
  let r := getline (IStream.mk_open content) []
  (r.1, r.2, Builder.init)

/-! ## Second pass: write the order file (source lines 108–134) -/

/-- The variables of the second pass other than the stream and `line_header`. -/
structure Resolver where
  map_read_order : UMap
  f_out : Str
  cout : List Msg
deriving DecidableEq, Repr

/-- Lines 111–127, the part of the loop body that handles one header. Every line is
written with `std::endl`, hence flushed before a later `exit`. -/
def resolve_record (argv1 line_header : Str) (r : Resolver) : Except Resolver Resolver :=
  let word_1st := identifier line_header
  if (r.map_read_order.find word_1st).isNone then
    .error { r with cout := r.cout ++ [Msg.unknown word_1st argv1] }
  else
    let e := r.map_read_order.subscript word_1st
    .ok { r with map_read_order := e.1, f_out := r.f_out ++ (Nat.toDigits 10 e.2 ++ ['\n']) }

/-- Lines 129–133: one line is skipped and the next header is read. -/
def next_record2 (f : IStream) (line_header : Str) : IStream × Str :=
  let r1 := getline f line_header
  getline r1.1 r1.2

/-- The loop of lines 110–134; `none` when the fuel runs out. -/
def resolve_loop (argv1 : Str) : Nat → IStream → Str → Resolver →
    Option (Except Resolver Resolver)
  | 0, _, _, _ => none
  | fuel + 1, f, line_header, r =>
    if f.eof then some (.ok r)
    else
      match resolve_record argv1 line_header r with
      | .error r' => some (.error r')
      | .ok r' =>
        let n := next_record2 f line_header
        resolve_loop argv1 fuel n.1 n.2 r'

/-- Lines 108–134 on the content of the second file; `line_header` still holds what
the first pass left in it. -/
def resolve_order (argv1 content line_header : Str) (r : Resolver) :
    Option (Except Resolver Resolver) :=
  let n := getline (IStream.mk_open content) line_header
  resolve_loop argv1 (content.length + 1) n.1 n.2 r

/-! ## The program -/

/-- What a run leaves behind: the exit status, the messages on `std::cout`, the
content of the output file (`none` when it was never opened) and the table. -/
structure Run where
  status : Nat
  cout : List Msg
  f_out : Option Str
  map_read_order : UMap
  num_reads : Nat
deriving DecidableEq, Repr

/-- The function `main` with `argc = 4`. `original` and `aligned` are the contents of
the files named by `argv1` and `argv2` (`none`: cannot be opened), `writable` tells
whether the file named by `argv3` can be opened for writing. -/
def main (argv1 argv2 argv3 : Str) (original aligned : Option Str) (writable : Bool) :
    Option Run :=
  match original with
  | none => some ⟨1, [Msg.cannot_open argv1], none, [], 0⟩
  | some c1 =>
    match build_index argv1 c1 with
    | none => none
    | some (.error b) => some ⟨1, b.cout, none, b.map_read_order, b.num_reads⟩
    | some (.ok (line_header, b)) =>
      match aligned with
      | none =>
        some ⟨1, b.cout ++ [Msg.cannot_open argv2], none, b.map_read_order, b.num_reads⟩
      | some c2 =>
        if writable = false then
          some ⟨1, b.cout ++ [Msg.cannot_open argv3], none, b.map_read_order, b.num_reads⟩
        else
          match resolve_order argv1 c2 line_header ⟨b.map_read_order, [], b.cout⟩ with
          | none => none
          | some (.error r) => some ⟨1, r.cout, some r.f_out, r.map_read_order, b.num_reads⟩
          | some (.ok r) => some ⟨0, r.cout, some r.f_out, r.map_read_order, b.num_reads⟩

/-! ## Vocabulary of the specification -/

/-- The file made of the given lines, each terminated by `\n`. -/
def unlines (lines : List Str) : Str :=
  lines.flatMap (fun l => l ++ ['\n'])

/-- A line of a file holds no line terminator. -/
def IsLine (l : Str) : Prop := '\n' ∉ l

instance (l : Str) : Decidable (IsLine l) := by unfold IsLine; infer_instance

/-- The lines at the 0-based positions 0, 4, 8, ... -/
def ref_headers : List Str → List Str
  | [] => []
  | [h] => [h]
  | [h, _] => [h]
  | [h, _, _] => [h]
  | h :: _ :: _ :: _ :: rest => h :: ref_headers rest

/-- The lines at the 0-based positions 0, 2, 4, ... -/
def sec_headers : List Str → List Str
  | [] => []
  | [h] => [h]
  | h :: _ :: rest => h :: sec_headers rest

/-- The text of an order file holding the given numbers, one per line. -/
def order_lines (vs : List Nat) : Str :=
  vs.flatMap (fun v => Nat.toDigits 10 v ++ ['\n'])

/-- The 1-based position of the first occurrence of `x` in `ids` (one past the end
when there is none). -/
def order_number : List Str → Str → Nat
  | [], _ => 1
  | y :: ys, x => if y = x then 1 else order_number ys x + 1

/-! ## Definitions used in the statements and proofs -/

/-- The first pass seen on the list of headers it handles. -/
def index_headers (argv1 : Str) : List Str → Builder → Except Builder Builder
  | [], b => .ok b
  | h :: hs, b =>
    match index_record argv1 h b with
    | .error b' => .error b'
    | .ok b' => index_headers argv1 hs b'

/-- The second pass seen on the list of headers it handles. -/
def resolve_headers (argv1 : Str) : List Str → Resolver → Except Resolver Resolver
  | [], r => .ok r
  | h :: hs, r =>
    match resolve_record argv1 h r with
    | .error r' => .error r'
    | .ok r' => resolve_headers argv1 hs r'

/-- A good stream positioned before the lines `ls` followed by the unterminated
rest `t`. -/
def at_lines (ls : List Str) (t : Str) : IStream := ⟨unlines ls ++ t, false, false⟩

/-- The table that numbers `ids` from `start` on. -/
def numbered : Nat → List Str → UMap
  | _, [] => []
  | start, x :: xs => (x, start) :: numbered (start + 1) xs

/-- The steps of `main` after the first pass, on the headers of the second file. -/
def finish_headers (argv1 argv2 argv3 : Str) (b : Builder) (aligned : Option (List Str))
    (writable : Bool) : Run :=
  match aligned with
  | none => ⟨1, b.cout ++ [Msg.cannot_open argv2], none, b.map_read_order, b.num_reads⟩
  | some hs =>
    if writable = false then
      ⟨1, b.cout ++ [Msg.cannot_open argv3], none, b.map_read_order, b.num_reads⟩
    else
      match resolve_headers argv1 hs ⟨b.map_read_order, [], b.cout⟩ with
      | .error r => ⟨1, r.cout, some r.f_out, r.map_read_order, b.num_reads⟩
      | .ok r => ⟨0, r.cout, some r.f_out, r.map_read_order, b.num_reads⟩

/-- The function `main` on the headers of the two files. -/
def main_headers (argv1 argv2 argv3 : Str) (original aligned : Option (List Str))
    (writable : Bool) : Run :=
  match original with
  | none => ⟨1, [Msg.cannot_open argv1], none, [], 0⟩
  | some hs =>
    match index_headers argv1 hs Builder.init with
    | .error b => ⟨1, b.cout, none, b.map_read_order, b.num_reads⟩
    | .ok b => finish_headers argv1 argv2 argv3 b aligned writable

/-- The text of a file given as terminated lines and an unterminated rest. -/
def file_text (p : List Str × Str) : Str := unlines p.1 ++ p.2

/-- The warning logic of lines 43–52 applied to a run of headers. -/
def warn_all (hs : List Str) (b : Builder) : Builder :=
  hs.foldl (fun b h => warn_once h b) b

/-- The numbers the table gives for a run of headers. -/
def lookup_all (m : UMap) (hs : List Str) : List Nat :=
  hs.map (fun h => (m.find (identifier h)).getD 0)

/-- A reference file of three records with the identifiers r1, r2, r3. -/
def sample_reference : List Str :=
  ["@r1".toList, "ACGT".toList, "+".toList, "IIII".toList,
   "@r2".toList, "GGCA".toList, "+".toList, "IIII".toList,
   "@r3".toList, "TTAC".toList, "+".toList, "IIII".toList]

/-- A second file of two records with the headers @r3 and @r1. -/
def sample_second : List Str :=
  ["@r3".toList, "TTAC".toList, "@r1".toList, "ACGT".toList]

/-- A reference file of two records that both carry the identifier r1. -/
def sample_duplicate : List Str :=
  ["@r1".toList, "ACGT".toList, "+".toList, "IIII".toList,
   "@r1".toList, "GGCA".toList, "+".toList, "IIII".toList]

/-- A second file of three records whose second header @r9 is not in the reference. -/
def sample_unknown : List Str :=
  ["@r3".toList, "TTAC".toList, "@r9".toList, "AAAA".toList, "@r1".toList, "ACGT".toList]

/-- A reference file of three records whose third header repeats the second. -/
def sample_duplicate_late : List Str :=
  ["@r0".toList, "TTTT".toList, "+".toList, "IIII".toList,
   "@r1".toList, "ACGT".toList, "+".toList, "IIII".toList,
   "@r1".toList, "GGCA".toList, "+".toList, "IIII".toList]

/-- The number of whitespace-delimited words of a text: the number of characters that
are not whitespace and stand at the start or right after a whitespace character. The
Boolean tells whether the scan is at the start or right after whitespace; `true` is
the value for a whole text. -/
def count_words : Bool → Str → Nat
  | _, [] => 0
  | after_space, c :: cs =>
    if isspace c then count_words true cs
    else (if after_space then 1 else 0) + count_words false cs

/-- The headers the first pass handles, `seen` being the identifiers met so far: all
headers up to and including the first one whose identifier was seen before. -/
def processed_headers : List Str → List Str → List Str
  | _, [] => []
  | seen, h :: hs =>
    if identifier h ∈ seen then [h] else h :: processed_headers (identifier h :: seen) hs

/-- A reference file of two records in which every header has several words. -/
def sample_multiword : List Str :=
  ["@r1 length=4".toList, "ACGT".toList, "+".toList, "IIII".toList,
   "@r2 length=4".toList, "GGCA".toList, "+".toList, "IIII".toList]

/-- The messages other than the warning. -/
def no_warning (c : List Msg) : List Msg := c.filter (fun m => decide (m ≠ Msg.warning))

/-- The sample reference file with other payload lines and extra header words. -/
def sample_reference_variant : List Str :=
  ["@r1 length=4".toList, "TTTT".toList, "+r1".toList, "####".toList,
   "@r2\tpair=1".toList, "".toList, "+".toList, "".toList,
   "  @r3".toList, "GATTACA".toList, "+".toList, "IIIIIII".toList]

/-- The sample second file with other payload lines and extra header words. -/
def sample_second_variant : List Str :=
  ["@r3 strand=-".toList, "".toList, "@r1 strand=+".toList, "NNNN".toList]

/-- A second file written in the 4-line format of the reference file. -/
def sample_second_fastq : List Str :=
  ["@r3".toList, "TTAC".toList, "+".toList, "IIII".toList,
   "@r1".toList, "ACGT".toList, "+".toList, "IIII".toList]

/-- A reference file of three records (twelve lines) whose second header repeats the
first. -/
def sample_duplicate_early : List Str :=
  ["@r1".toList, "ACGT".toList, "+".toList, "IIII".toList,
   "@r1".toList, "GGCA".toList, "+".toList, "IIII".toList,
   "@r2".toList, "TTAC".toList, "+".toList, "IIII".toList]

/-- A reference file whose last record is cut after its second line. -/
def sample_truncated : List Str :=
  ["@r1".toList, "ACGT".toList, "+".toList, "IIII".toList,
   "@r2".toList, "GGCA".toList]

/-- A reference file with the headers @r1 and Xr1. -/
def sample_marker : List Str :=
  ["@r1".toList, "ACGT".toList, "+".toList, "IIII".toList,
   "Xr1".toList, "GGCA".toList, "+".toList, "IIII".toList]

/-- A reference file with the headers @r1 and Xr1 after two headers @a. -/
def sample_marker_late : List Str :=
  ["@a".toList, "TTTT".toList, "+".toList, "IIII".toList,
   "@a".toList, "CCCC".toList, "+".toList, "IIII".toList,
   "@r1".toList, "ACGT".toList, "+".toList, "IIII".toList,
   "Xr1".toList, "GGCA".toList, "+".toList, "IIII".toList]

/-- The member `str.erase(pos, len)` with its range check: `none` stands for the
exception `std::out_of_range`, thrown when `pos > str.size()`. -/
def erase_checked (str : Str) (pos len : Nat) : Option Str :=
  if pos ≤ str.length then some (erase str pos len) else none

/-- A reference file with blank lines at its two header positions. -/
def sample_blank : List Str :=
  ["".toList, "ACGT".toList, "+".toList, "IIII".toList,
   "  \t".toList, "GGCA".toList, "+".toList, "IIII".toList]

/-- A reference file with blank lines at two header positions after two headers @a. -/
def sample_blank_late : List Str :=
  ["@a".toList, "TTTT".toList, "+".toList, "IIII".toList,
   "@a".toList, "CCCC".toList, "+".toList, "IIII".toList,
   "".toList, "ACGT".toList, "+".toList, "IIII".toList,
   "".toList, "GGCA".toList, "+".toList, "IIII".toList]

/-- The newline-terminated lines of a text, without their terminators, and the
unterminated rest that follows the last line terminator. -/
def split_lines : Str → List Str × Str
  | [] => ([], [])
  | c :: cs =>
    if c = '\n' then ([] :: (split_lines cs).1, (split_lines cs).2)
    else
      match (split_lines cs).1 with
      | [] => ([], c :: (split_lines cs).2)
      | l :: ls => ((c :: l) :: ls, (split_lines cs).2)

/-- The newline-terminated lines of a text. -/
def terminated_lines (content : Str) : List Str := (split_lines content).1

/-- What follows the last line terminator of a text. -/
def unterminated_rest (content : Str) : Str := (split_lines content).2

/-- All lines of a text: the terminated lines, then the unterminated rest when it is
not empty. -/
def all_lines (content : Str) : List Str :=
  terminated_lines content ++
    (if unterminated_rest content = [] then [] else [unterminated_rest content])

/-- A reference file whose second header `@r1` has no line terminator. -/
def sample_reference_cut : Str := "@r1\nACGT\n+\nIIII\n@r1".toList

/-- A second file whose third header `@r9` has no line terminator. -/
def sample_second_cut : Str := "@r3\nTTAC\n@r1\nACGT\n@r9".toList

/-- A reference file with the headers @r1 and Xr1, the second without line terminator. -/
def sample_marker_cut : Str := "@r1\nACGT\n+\nIIII\nXr1".toList

/-- A reference file with two blank headers, the second without line terminator. -/
def sample_blank_cut : Str := "\nACGT\n+\nIIII\n \t".toList

/-! ## Theorems -/

/-! ## Reading lines -/

theorem unlines_nil : unlines [] = [] := rfl

theorem unlines_cons (l : Str) (ls : List Str) :
    unlines (l :: ls) = l ++ '\n' :: unlines ls := by
  simp [unlines, List.flatMap]

theorem length_le_unlines (ls : List Str) : ls.length ≤ (unlines ls).length := by
  induction ls with
  | nil => simp
  | cons l ls ih => rw [unlines_cons]; simp; omega

theorem takeWhile_line (l rest : Str) (h : IsLine l) :
    (l ++ '\n' :: rest).takeWhile (fun c => c != '\n') = l := by
  induction l with
  | nil => simp [List.takeWhile]
  | cons a l ih =>
    have ha : a ≠ '\n' := fun e => h (by simp [e])
    have hl : IsLine l := fun e => h (List.mem_cons_of_mem _ e)
    have hb : (a != '\n') = true := by simpa using ha
    simp [List.takeWhile_cons, hb, ih hl]

theorem dropWhile_line (l rest : Str) (h : IsLine l) :
    (l ++ '\n' :: rest).dropWhile (fun c => c != '\n') = '\n' :: rest := by
  induction l with
  | nil => simp [List.dropWhile]
  | cons a l ih =>
    have ha : a ≠ '\n' := fun e => h (by simp [e])
    have hl : IsLine l := fun e => h (List.mem_cons_of_mem _ e)
    have hb : (a != '\n') = true := by simpa using ha
    simp [List.dropWhile_cons, hb, ih hl]

theorem takeWhile_last (t : Str) (h : IsLine t) :
    t.takeWhile (fun c => c != '\n') = t := by
  induction t with
  | nil => rfl
  | cons a l ih =>
    have ha : a ≠ '\n' := fun e => h (by simp [e])
    have hl : IsLine l := fun e => h (List.mem_cons_of_mem _ e)
    have hb : (a != '\n') = true := by simpa using ha
    simp [List.takeWhile_cons, hb, ih hl]

theorem dropWhile_last (t : Str) (h : IsLine t) :
    t.dropWhile (fun c => c != '\n') = [] := by
  induction t with
  | nil => rfl
  | cons a l ih =>
    have ha : a ≠ '\n' := fun e => h (by simp [e])
    have hl : IsLine l := fun e => h (List.mem_cons_of_mem _ e)
    have hb : (a != '\n') = true := by simpa using ha
    simp [List.dropWhile_cons, hb, ih hl]

theorem getline_cons (l : Str) (ls : List Str) (t str : Str) (h : IsLine l) :
    getline (at_lines (l :: ls) t) str = (at_lines ls t, l) := by
  simp only [at_lines, unlines_cons, List.append_assoc, List.cons_append, getline, IStream.good]
  simp [takeWhile_line l _ h, dropWhile_line l _ h]

theorem getline_last (t str : Str) (h : IsLine t) :
    getline (at_lines [] t) str = (⟨[], true, t.isEmpty⟩, t) := by
  simp only [at_lines, unlines_nil, List.nil_append, getline, IStream.good]
  simp [takeWhile_last t h, dropWhile_last t h]

theorem getline_eof (s : IStream) (str : Str) (h : s.eofbit = true) :
    getline s str = ({ s with failbit := true }, str) := by
  simp [getline, IStream.good, h]

theorem getline_eof_eofbit (s : IStream) (str : Str) (h : s.eofbit = true) :
    (getline s str).1.eofbit = true := by
  rw [getline_eof s str h]; exact h

/-- Every text is a sequence of terminated lines followed by an unterminated rest. -/
theorem exists_lines (c : Str) :
    ∃ ls t, (∀ l ∈ ls, IsLine l) ∧ IsLine t ∧ c = unlines ls ++ t := by
  induction c with
  | nil => exact ⟨[], [], by simp, by simp [IsLine], rfl⟩
  | cons a c ih =>
    obtain ⟨ls, t, hls, ht, rfl⟩ := ih
    by_cases ha : a = '\n'
    · subst ha
      refine ⟨[] :: ls, t, ?_, ht, by simp [unlines_cons]⟩
      intro l hl
      rcases List.mem_cons.1 hl with rfl | hl
      · simp [IsLine]
      · exact hls l hl
    · cases ls with
      | nil =>
        refine ⟨[], a :: t, by simp, ?_, by simp [unlines_nil]⟩
        intro hm
        rcases List.mem_cons.1 hm with e | e
        · exact ha e.symm
        · exact ht e
      | cons l ls =>
        refine ⟨(a :: l) :: ls, t, ?_, ht, by simp [unlines_cons]⟩
        intro x hx
        rcases List.mem_cons.1 hx with rfl | hx
        · intro hm
          rcases List.mem_cons.1 hm with e | e
          · exact ha e.symm
          · exact hls l (List.mem_cons_self _ _) e
        · exact hls x (List.mem_cons_of_mem _ hx)

theorem next_record4_eof (s : IStream) (str : Str) (h : s.eofbit = true) :
    (next_record4 s str).1.eofbit = true := by
  unfold next_record4
  exact getline_eof_eofbit _ _ (getline_eof_eofbit _ _ (getline_eof_eofbit _ _
    (getline_eof_eofbit _ _ h)))

theorem next_record2_eof (s : IStream) (str : Str) (h : s.eofbit = true) :
    (next_record2 s str).1.eofbit = true := by
  unfold next_record2
  exact getline_eof_eofbit _ _ (getline_eof_eofbit _ _ h)

theorem getline_last_eofbit (t str : Str) (h : IsLine t) :
    (getline (at_lines [] t) str).1.eofbit = true := by
  rw [getline_last t str h]

theorem next_record4_full (a b c : Str) (rest : List Str) (t str : Str)
    (ha : IsLine a) (hb : IsLine b) (hc : IsLine c) :
    next_record4 (at_lines (a :: b :: c :: rest) t) str = getline (at_lines rest t) c := by
  simp only [next_record4, getline_cons _ _ _ _ ha, getline_cons _ _ _ _ hb,
    getline_cons _ _ _ _ hc]

theorem next_record2_full (a : Str) (rest : List Str) (t str : Str) (ha : IsLine a) :
    next_record2 (at_lines (a :: rest) t) str = getline (at_lines rest t) a := by
  simp only [next_record2, getline_cons _ _ _ _ ha]

theorem next_record4_short (ls : List Str) (t str : Str) (hls : ∀ l ∈ ls, IsLine l)
    (ht : IsLine t) (hlen : ls.length < 3) :
    (next_record4 (at_lines ls t) str).1.eofbit = true := by
  unfold next_record4
  match ls, hls, hlen with
  | [], _, _ =>
    exact getline_eof_eofbit _ _ (getline_eof_eofbit _ _ (getline_eof_eofbit _ _
      (getline_last_eofbit t str ht)))
  | [a], hls, _ =>
    rw [getline_cons _ _ _ _ (hls a (by simp))]
    exact getline_eof_eofbit _ _ (getline_eof_eofbit _ _ (getline_last_eofbit t _ ht))
  | [a, b], hls, _ =>
    rw [getline_cons _ _ _ _ (hls a (by simp))]
    simp only
    rw [getline_cons _ _ _ _ (hls b (by simp))]
    exact getline_eof_eofbit _ _ (getline_last_eofbit t _ ht)
  | _ :: _ :: _ :: _, _, h => simp at h; omega

theorem build_loop_eof (argv1 : Str) (fuel : Nat) (f : IStream) (str : Str) (b : Builder)
    (h : f.eofbit = true) :
    build_loop argv1 (fuel + 1) f str b = some (.ok (str, b)) := by
  simp [build_loop, IStream.eof, h]

theorem resolve_loop_eof (argv1 : Str) (fuel : Nat) (f : IStream) (str : Str) (r : Resolver)
    (h : f.eofbit = true) :
    resolve_loop argv1 (fuel + 1) f str r = some (.ok r) := by
  simp [resolve_loop, IStream.eof, h]

/-- The loop of the first pass, started on terminated lines followed by an
unterminated rest, handles exactly the lines at positions 0, 4, 8, ... -/
theorem build_loop_lines (argv1 t : Str) (ht : IsLine t) (ls : List Str) :
    (∀ l ∈ ls, IsLine l) → ∀ (fuel : Nat) (str : Str) (b : Builder), ls.length + 1 ≤ fuel →
      (build_loop argv1 fuel (getline (at_lines ls t) str).1 (getline (at_lines ls t) str).2 b).map
        (Except.map Prod.snd) = some (index_headers argv1 (ref_headers ls) b) := by
  induction ls using ref_headers.induct with
  | case1 =>
    intro _ fuel str b hf
    obtain ⟨f, rfl⟩ : ∃ f, fuel = f + 1 := ⟨fuel - 1, by omega⟩
    rw [build_loop_eof _ _ _ _ _ (getline_last_eofbit t str ht)]
    simp [ref_headers, index_headers, Except.map]
  | case2 h =>
    intro hls fuel str b hf
    obtain ⟨f, rfl⟩ : ∃ f, fuel = f + 2 := ⟨fuel - 2, by simp at hf; omega⟩
    rw [getline_cons _ _ _ _ (hls h (by simp))]
    simp only [build_loop, ref_headers, index_headers]
    have e : (at_lines [] t).eof = false := rfl
    simp only [e]
    cases hrec : index_record argv1 h b with
    | error b' => simp [Except.map]
    | ok b' =>
      simp only
      have := next_record4_short [] t h (by simp) ht (by simp)
      simp [IStream.eof, this, Except.map]
  | case3 h x =>
    intro hls fuel str b hf
    obtain ⟨f, rfl⟩ : ∃ f, fuel = f + 2 := ⟨fuel - 2, by simp at hf; omega⟩
    rw [getline_cons _ _ _ _ (hls h (by simp))]
    simp only [build_loop, ref_headers, index_headers]
    have e : (at_lines [x] t).eof = false := rfl
    simp only [e]
    cases hrec : index_record argv1 h b with
    | error b' => simp [Except.map]
    | ok b' =>
      simp only
      have := next_record4_short [x] t h (fun l hl => hls l (by simp at hl; simp [hl])) ht
        (by simp)
      simp [IStream.eof, this, Except.map]
  | case4 h x y =>
    intro hls fuel str b hf
    obtain ⟨f, rfl⟩ : ∃ f, fuel = f + 2 := ⟨fuel - 2, by simp at hf; omega⟩
    rw [getline_cons _ _ _ _ (hls h (by simp))]
    simp only [build_loop, ref_headers, index_headers]
    have e : (at_lines [x, y] t).eof = false := rfl
    simp only [e]
    cases hrec : index_record argv1 h b with
    | error b' => simp [Except.map]
    | ok b' =>
      simp only
      have := next_record4_short [x, y] t h
        (fun l hl => hls l (by simp at hl; rcases hl with e | e <;> simp [e])) ht (by simp)
      simp [IStream.eof, this, Except.map]
  | case5 h x y z rest ih =>
    intro hls fuel str b hf
    obtain ⟨f, rfl⟩ : ∃ f, fuel = f + 1 := ⟨fuel - 1, by omega⟩
    rw [getline_cons _ _ _ _ (hls h (by simp))]
    simp only [build_loop, ref_headers, index_headers]
    have e : (at_lines (x :: y :: z :: rest) t).eof = false := rfl
    simp only [e]
    cases hrec : index_record argv1 h b with
    | error b' => simp [Except.map]
    | ok b' =>
      simp only
      rw [next_record4_full x y z rest t h (hls x (by simp)) (hls y (by simp)) (hls z (by simp))]
      exact ih (fun l hl => hls l (by simp [hl])) f z b' (by simp at hf; omega)

/-- The loop of the second pass, started on terminated lines followed by an
unterminated rest, handles exactly the lines at positions 0, 2, 4, ... -/
theorem resolve_loop_lines (argv1 t : Str) (ht : IsLine t) (ls : List Str) :
    (∀ l ∈ ls, IsLine l) → ∀ (fuel : Nat) (str : Str) (r : Resolver), ls.length + 1 ≤ fuel →
      resolve_loop argv1 fuel (getline (at_lines ls t) str).1 (getline (at_lines ls t) str).2 r
        = some (resolve_headers argv1 (sec_headers ls) r) := by
  induction ls using sec_headers.induct with
  | case1 =>
    intro _ fuel str r hf
    obtain ⟨f, rfl⟩ : ∃ f, fuel = f + 1 := ⟨fuel - 1, by omega⟩
    rw [resolve_loop_eof _ _ _ _ _ (getline_last_eofbit t str ht)]
    simp [sec_headers, resolve_headers]
  | case2 h =>
    intro hls fuel str r hf
    obtain ⟨f, rfl⟩ : ∃ f, fuel = f + 2 := ⟨fuel - 2, by simp at hf; omega⟩
    rw [getline_cons _ _ _ _ (hls h (by simp))]
    simp only [resolve_loop, sec_headers, resolve_headers]
    have e : (at_lines [] t).eof = false := rfl
    simp only [e]
    cases hrec : resolve_record argv1 h r with
    | error r' => simp
    | ok r' =>
      simp only
      have : (next_record2 (at_lines [] t) h).1.eofbit = true := by
        unfold next_record2
        exact getline_eof_eofbit _ _ (getline_last_eofbit t _ ht)
      simp [IStream.eof, this]
  | case3 h x rest ih =>
    intro hls fuel str r hf
    obtain ⟨f, rfl⟩ : ∃ f, fuel = f + 1 := ⟨fuel - 1, by omega⟩
    rw [getline_cons _ _ _ _ (hls h (by simp))]
    simp only [resolve_loop, sec_headers, resolve_headers]
    have e : (at_lines (x :: rest) t).eof = false := rfl
    simp only [e]
    cases hrec : resolve_record argv1 h r with
    | error r' => simp
    | ok r' =>
      simp only
      rw [next_record2_full x rest t h (hls x (by simp))]
      exact ih (fun l hl => hls l (by simp [hl])) f x r' (by simp at hf; omega)

theorem build_index_lines (argv1 : Str) (ls : List Str) (t : Str)
    (hls : ∀ l ∈ ls, IsLine l) (ht : IsLine t) :
    (build_index argv1 (unlines ls ++ t)).map (Except.map Prod.snd)
      = some (index_headers argv1 (ref_headers ls) Builder.init) := by
  unfold build_index
  have := build_loop_lines argv1 t ht ls hls ((unlines ls ++ t).length + 1) [] Builder.init
    (by have := length_le_unlines ls; simp; omega)
  exact this

theorem resolve_order_lines (argv1 : Str) (ls : List Str) (t str : Str) (r : Resolver)
    (hls : ∀ l ∈ ls, IsLine l) (ht : IsLine t) :
    resolve_order argv1 (unlines ls ++ t) str r
      = some (resolve_headers argv1 (sec_headers ls) r) := by
  unfold resolve_order
  have := resolve_loop_lines argv1 t ht ls hls ((unlines ls ++ t).length + 1) str r
    (by have := length_le_unlines ls; simp; omega)
  exact this

/-- The first pass always comes to an end within the fuel that `main` gives it. -/
theorem build_index_total (argv1 content : Str) : build_index argv1 content ≠ none := by
  obtain ⟨ls, t, hls, ht, rfl⟩ := exists_lines content
  intro h
  have := build_index_lines argv1 ls t hls ht
  rw [h] at this
  exact Option.noConfusion this

/-- The second pass always comes to an end within the fuel that `main` gives it. -/
theorem resolve_order_total (argv1 content str : Str) (r : Resolver) :
    resolve_order argv1 content str r ≠ none := by
  obtain ⟨ls, t, hls, ht, rfl⟩ := exists_lines content
  rw [resolve_order_lines argv1 ls t str r hls ht]
  exact fun h => Option.noConfusion h

/-- A run of `main` is determined by the header lines of its two files. -/
theorem main_lines (argv1 argv2 argv3 : Str) (original aligned : Option (List Str × Str))
    (writable : Bool)
    (h1 : ∀ p, original = some p → (∀ l ∈ p.1, IsLine l) ∧ IsLine p.2)
    (h2 : ∀ p, aligned = some p → (∀ l ∈ p.1, IsLine l) ∧ IsLine p.2) :
    main argv1 argv2 argv3 (original.map file_text) (aligned.map file_text) writable
      = some (main_headers argv1 argv2 argv3 (original.map (fun p => ref_headers p.1))
          (aligned.map (fun p => sec_headers p.1)) writable) := by
  cases original with
  | none => simp [main, main_headers]
  | some p =>
    obtain ⟨hl, ht⟩ := h1 p rfl
    have hb := build_index_lines argv1 p.1 p.2 hl ht
    simp only [Option.map_some', main, main_headers, file_text]
    cases hbi : build_index argv1 (unlines p.1 ++ p.2) with
    | none => rw [hbi] at hb; exact Option.noConfusion hb
    | some e =>
      rw [hbi] at hb
      simp only [Option.map_some', Option.some.injEq] at hb
      rw [← hb]
      cases e with
      | error b => simp [Except.map]
      | ok q =>
        obtain ⟨lh, b⟩ := q
        simp only [Except.map, finish_headers]
        cases aligned with
        | none => simp
        | some p2 =>
          obtain ⟨hl2, ht2⟩ := h2 p2 rfl
          simp only [Option.map_some', file_text]
          rw [resolve_order_lines argv1 p2.1 p2.2 lh _ hl2 ht2]
          by_cases hw : writable = false
          · simp [hw]
          · simp only [hw, if_false]
            cases resolve_headers argv1 (sec_headers p2.1) ⟨b.map_read_order, [], b.cout⟩ <;> rfl

/-- Every file is the text of terminated lines and an unterminated rest. -/
theorem exists_file_text (c : Option Str) :
    ∃ p : Option (List Str × Str), c = p.map file_text ∧
      ∀ q, p = some q → (∀ l ∈ q.1, IsLine l) ∧ IsLine q.2 := by
  cases c with
  | none => exact ⟨none, rfl, by simp⟩
  | some c =>
    obtain ⟨ls, t, hls, ht, rfl⟩ := exists_lines c
    exact ⟨some (ls, t), rfl, by rintro q ⟨⟩; exact ⟨hls, ht⟩⟩

/-- The program terminates on every input. -/
theorem main_total (argv1 argv2 argv3 : Str) (original aligned : Option Str) (writable : Bool) :
    ∃ r, main argv1 argv2 argv3 original aligned writable = some r := by
  obtain ⟨p1, rfl, h1⟩ := exists_file_text original
  obtain ⟨p2, rfl, h2⟩ := exists_file_text aligned
  exact ⟨_, main_lines argv1 argv2 argv3 p1 p2 writable h1 h2⟩

/-! ## The table -/

theorem order_number_pos (ids : List Str) (x : Str) : 1 ≤ order_number ids x := by
  cases ids with
  | nil => simp [order_number]
  | cons y ys => simp only [order_number]; split_ifs <;> omega

theorem find_numbered (ids : List Str) (k : Str) : ∀ start : Nat,
    UMap.find (numbered start ids) k
      = if k ∈ ids then some (start + order_number ids k - 1) else none := by
  induction ids with
  | nil => intro start; simp [numbered, UMap.find]
  | cons x xs ih =>
    intro start
    by_cases hx : x = k
    · subst hx; simp [numbered, UMap.find, order_number]
    · have hx' : k ≠ x := fun e => hx e.symm
      simp only [numbered, UMap.find, hx, if_false, ih, List.mem_cons, hx', false_or,
        order_number]
      by_cases hk : k ∈ xs
      · have := order_number_pos xs k
        simp only [hk, if_true, Option.some.injEq]; omega
      · simp [hk]

theorem order_number_le (ids : List Str) (x : Str) (h : x ∈ ids) :
    order_number ids x ≤ ids.length := by
  induction ids with
  | nil => simp at h
  | cons y ys ih =>
    simp only [order_number, List.length_cons]
    by_cases hy : y = x
    · simp [hy]
    · have : x ∈ ys := by
        rcases List.mem_cons.1 h with e | e
        · exact absurd e.symm hy
        · exact e
      simp only [hy, if_false]
      have := ih this
      omega

theorem order_number_get (ids : List Str) (x : Str) (h : x ∈ ids) :
    ids[order_number ids x - 1]? = some x := by
  induction ids with
  | nil => simp at h
  | cons y ys ih =>
    simp only [order_number]
    by_cases hy : y = x
    · simp [hy]
    · have hx : x ∈ ys := by
        rcases List.mem_cons.1 h with e | e
        · exact absurd e.symm hy
        · exact e
      simp only [hy, if_false, Nat.add_sub_cancel]
      have hp := order_number_pos ys x
      obtain ⟨j, hj⟩ : ∃ j, order_number ys x = j + 1 := ⟨order_number ys x - 1, by omega⟩
      have := ih hx
      rw [hj] at this ⊢
      simpa using this

theorem find_numbered_isSome (ids : List Str) (k : Str) (start : Nat) :
    (UMap.find (numbered start ids) k).isSome = true ↔ k ∈ ids := by
  rw [find_numbered]; by_cases h : k ∈ ids <;> simp [h]

theorem assign_absent (m : UMap) (k : Str) (v : Nat) (h : m.find k = none) :
    m.assign k v = m ++ [(k, v)] := by
  induction m with
  | nil => rfl
  | cons e m ih =>
    obtain ⟨k', v'⟩ := e
    by_cases hk : k' = k
    · simp [UMap.find, hk] at h
    · simp only [UMap.find, hk, if_false] at h
      simp [UMap.assign, hk, ih h]

theorem numbered_append (xs ys : List Str) : ∀ start : Nat,
    numbered start (xs ++ ys) = numbered start xs ++ numbered (start + xs.length) ys := by
  induction xs with
  | nil => intro start; simp [numbered]
  | cons x xs ih =>
    intro start
    show numbered start (x :: (xs ++ ys)) = _
    simp only [numbered, ih, List.length_cons, List.cons_append]
    rw [show start + 1 + xs.length = start + (xs.length + 1) by omega]

theorem length_numbered (xs : List Str) : ∀ start : Nat, (numbered start xs).length = xs.length := by
  induction xs with
  | nil => intro _; rfl
  | cons x xs ih => intro start; simp [numbered, ih]

theorem keys_numbered (xs : List Str) : ∀ start : Nat,
    (numbered start xs).map Prod.fst = xs := by
  induction xs with
  | nil => intro _; rfl
  | cons x xs ih => intro start; simp [numbered, ih]

theorem values_numbered (xs : List Str) : ∀ start : Nat,
    (numbered start xs).map Prod.snd = List.range' start xs.length := by
  induction xs with
  | nil => intro _; rfl
  | cons x xs ih => intro start; simp [numbered, ih, List.range']

theorem subscript_present (m : UMap) (k : Str) (v : Nat) (h : m.find k = some v) :
    m.subscript k = (m, v) := by
  simp [UMap.subscript, h]

/-! ## The warning -/

theorem warn_once_map (h : Str) (b : Builder) :
    (warn_once h b).map_read_order = b.map_read_order := by
  unfold warn_once; split_ifs <;> rfl

theorem warn_once_num_reads (h : Str) (b : Builder) :
    (warn_once h b).num_reads = b.num_reads := by
  unfold warn_once; split_ifs <;> rfl

theorem warn_once_update (h : Str) (b : Builder) (m : UMap) (n : Nat) :
    warn_once h { b with map_read_order := m, num_reads := n }
      = { warn_once h b with map_read_order := m, num_reads := n } := by
  unfold warn_once; split_ifs <;> rfl

theorem warn_all_update (hs : List Str) : ∀ (b : Builder) (m : UMap) (n : Nat),
    warn_all hs { b with map_read_order := m, num_reads := n }
      = { warn_all hs b with map_read_order := m, num_reads := n } := by
  induction hs with
  | nil => intro b m n; rfl
  | cons h hs ih =>
    intro b m n
    simp only [warn_all, List.foldl_cons] at ih ⊢
    rw [warn_once_update, ih]

theorem warn_all_cons (h : Str) (hs : List Str) (b : Builder) :
    warn_all (h :: hs) b = warn_all hs (warn_once h b) := rfl

theorem warn_all_append (hs1 hs2 : List Str) (b : Builder) :
    warn_all (hs1 ++ hs2) b = warn_all hs2 (warn_all hs1 b) := by
  simp [warn_all, List.foldl_append]

/-- A run of headers adds one warning when none was given before and one of the
headers has several words, and nothing otherwise. -/
theorem warn_all_eq (hs : List Str) : ∀ b : Builder,
    warn_all hs b =
      { b with
        already_warned := b.already_warned || hs.any (fun h => decide (1 < num_words h)),
        cout := b.cout ++
          (if b.already_warned = false ∧ hs.any (fun h => decide (1 < num_words h)) = true
           then [Msg.warning] else []) } := by
  induction hs with
  | nil => intro b; simp [warn_all]
  | cons h hs ih =>
    intro b
    rw [warn_all_cons, ih]
    unfold warn_once
    by_cases hw : b.already_warned = false
    · by_cases hn : 1 < num_words h
      · simp [hw, hn]
      · simp [hw, hn]
    · simp at hw
      simp [hw]

/-! ## The first pass on headers -/

theorem index_record_fresh (argv1 h : Str) (b : Builder) (pre : List Str)
    (hm : b.map_read_order = numbered 1 pre) (hn : b.num_reads = pre.length)
    (hf : identifier h ∉ pre) :
    index_record argv1 h b = .ok
      { warn_once h b with
        map_read_order := numbered 1 (pre ++ [identifier h]), num_reads := pre.length + 1 } := by
  have hfind : UMap.find (numbered 1 pre) (identifier h) = none := by
    rw [find_numbered]; simp [hf]
  simp only [index_record, warn_once_map, warn_once_num_reads, hm, hn, hfind, Option.isSome_none,
    Bool.false_eq_true, if_false]
  rw [assign_absent _ _ _ hfind, numbered_append]
  simp [numbered, Nat.add_comm]

theorem index_record_dup (argv1 h : Str) (b : Builder) (pre : List Str)
    (hm : b.map_read_order = numbered 1 pre) (hn : b.num_reads = pre.length)
    (hf : identifier h ∈ pre) :
    index_record argv1 h b = .error
      { warn_once h b with
        num_reads := pre.length + 1,
        cout := (warn_once h b).cout ++ [Msg.duplicate (identifier h) argv1] } := by
  have hfind : (UMap.find (numbered 1 pre) (identifier h)).isSome = true :=
    (find_numbered_isSome _ _ _).2 hf
  simp only [index_record, warn_once_map, warn_once_num_reads, hm, hn, hfind, if_true]

/-- With pairwise distinct fresh identifiers the first pass numbers them in order. -/
theorem index_headers_nodup (argv1 : Str) (hs : List Str) : ∀ (pre : List Str) (b : Builder),
    b.map_read_order = numbered 1 pre → b.num_reads = pre.length →
    (pre ++ hs.map identifier).Nodup →
    index_headers argv1 hs b = .ok
      { warn_all hs b with
        map_read_order := numbered 1 (pre ++ hs.map identifier),
        num_reads := pre.length + hs.length } := by
  induction hs with
  | nil =>
    intro pre b hm hn _
    simp [index_headers, warn_all, ← hm, ← hn]
  | cons h hs ih =>
    intro pre b hm hn hnd
    have hf : identifier h ∉ pre := by
      intro hmem
      have := List.nodup_append.1 hnd
      exact this.2.2 hmem (by simp)
    simp only [index_headers, index_record_fresh argv1 h b pre hm hn hf]
    rw [ih (pre ++ [identifier h]) _ rfl (by simp) (by simpa using hnd)]
    rw [warn_all_update, warn_all_cons]
    simp [Nat.add_assoc, Nat.add_comm 1]

/-- The first pass stops at the first header whose identifier was seen before. -/
theorem index_headers_dup (argv1 : Str) (hs1 : List Str) (h : Str) (hs2 : List Str) :
    ∀ (pre : List Str) (b : Builder),
    b.map_read_order = numbered 1 pre → b.num_reads = pre.length →
    (pre ++ hs1.map identifier).Nodup → identifier h ∈ pre ++ hs1.map identifier →
    index_headers argv1 (hs1 ++ h :: hs2) b = .error
      { warn_all (hs1 ++ [h]) b with
        map_read_order := numbered 1 (pre ++ hs1.map identifier),
        num_reads := pre.length + hs1.length + 1,
        cout := (warn_all (hs1 ++ [h]) b).cout ++ [Msg.duplicate (identifier h) argv1] } := by
  induction hs1 with
  | nil =>
    intro pre b hm hn _ hmem
    simp only [List.map_nil, List.append_nil] at hmem
    simp only [List.nil_append, index_headers, index_record_dup argv1 h b pre hm hn hmem]
    simp [warn_all, warn_once_map, hm]
  | cons x hs1 ih =>
    intro pre b hm hn hnd hmem
    have hf : identifier x ∉ pre := by
      intro hx
      have := List.nodup_append.1 hnd
      exact this.2.2 hx (by simp)
    show index_headers argv1 (x :: (hs1 ++ h :: hs2)) b = _
    simp only [index_headers, index_record_fresh argv1 x b pre hm hn hf]
    rw [ih (pre ++ [identifier x]) _ rfl (by simp) (by simpa using hnd) (by simpa using hmem)]
    rw [warn_all_update]
    have e : warn_all (x :: hs1 ++ [h]) b = warn_all (hs1 ++ [h]) (warn_once x b) := rfl
    rw [e]
    simp [Nat.add_assoc, Nat.add_comm 1]

/-- A list with a repetition splits at the first element seen before. -/
theorem exists_first_dup {α β : Type} [DecidableEq β] (f : α → β) (hs : List α) :
    ¬ (hs.map f).Nodup →
    ∃ hs1 h hs2, hs = hs1 ++ h :: hs2 ∧ (hs1.map f).Nodup ∧ f h ∈ hs1.map f := by
  induction hs using List.reverseRecOn with
  | nil => intro h; exact absurd List.nodup_nil h
  | append_singleton ini x ih =>
    intro hnd
    by_cases hini : (ini.map f).Nodup
    · refine ⟨ini, x, [], rfl, hini, ?_⟩
      by_contra hx
      apply hnd
      rw [List.map_append, List.nodup_append]
      refine ⟨hini, by simp, ?_⟩
      intro a ha hb
      simp at hb
      subst hb
      exact hx ha
    · obtain ⟨hs1, h, hs2, rfl, h1, h2⟩ := ih hini
      exact ⟨hs1, h, hs2 ++ [x], by simp, h1, h2⟩

/-- A list splits at its first element that fails a test, unless all pass. -/
theorem exists_first_failing {α : Type} (p : α → Prop) (l : List α) :
    (∀ x ∈ l, p x) ∨ ∃ l1 x l2, l = l1 ++ x :: l2 ∧ (∀ y ∈ l1, p y) ∧ ¬ p x := by
  induction l with
  | nil => left; simp
  | cons a l ih =>
    by_cases ha : p a
    · rcases ih with h | ⟨l1, x, l2, rfl, h1, h2⟩
      · left
        intro x hx
        rcases List.mem_cons.1 hx with rfl | hx
        · exact ha
        · exact h x hx
      · right
        refine ⟨a :: l1, x, l2, rfl, ?_, h2⟩
        intro y hy
        rcases List.mem_cons.1 hy with rfl | hy
        · exact ha
        · exact h1 y hy
    · right; exact ⟨[], a, l, rfl, by simp, ha⟩

/-! ## The second pass on headers -/

theorem order_lines_append (xs ys : List Nat) :
    order_lines (xs ++ ys) = order_lines xs ++ order_lines ys := by
  simp [order_lines]

theorem order_lines_cons (x : Nat) (xs : List Nat) :
    order_lines (x :: xs) = Nat.toDigits 10 x ++ '\n' :: order_lines xs := by
  simp [order_lines]

theorem resolve_record_found (argv1 h : Str) (r : Resolver) (v : Nat)
    (hv : r.map_read_order.find (identifier h) = some v) :
    resolve_record argv1 h r = .ok { r with f_out := r.f_out ++ (Nat.toDigits 10 v ++ ['\n']) } := by
  simp [resolve_record, hv, subscript_present _ _ _ hv]

theorem resolve_record_missing (argv1 h : Str) (r : Resolver)
    (hv : r.map_read_order.find (identifier h) = none) :
    resolve_record argv1 h r
      = .error { r with cout := r.cout ++ [Msg.unknown (identifier h) argv1] } := by
  simp [resolve_record, hv]

/-- When every header is in the table the second pass writes one number for each. -/
theorem resolve_headers_found (argv1 : Str) (hs : List Str) : ∀ r : Resolver,
    (∀ h ∈ hs, (r.map_read_order.find (identifier h)).isSome = true) →
    resolve_headers argv1 hs r
      = .ok { r with f_out := r.f_out ++ order_lines (lookup_all r.map_read_order hs) } := by
  induction hs with
  | nil => intro r _; simp [resolve_headers, lookup_all, order_lines]
  | cons h hs ih =>
    intro r hall
    obtain ⟨v, hv⟩ := Option.isSome_iff_exists.1 (hall h (by simp))
    simp only [resolve_headers, resolve_record_found argv1 h r v hv]
    rw [ih ⟨r.map_read_order, r.f_out ++ (Nat.toDigits 10 v ++ ['\n']), r.cout⟩
      (fun x hx => hall x (by simp [hx]))]
    simp [lookup_all, order_lines_cons, hv]

/-- The second pass stops at the first header that is not in the table. -/
theorem resolve_headers_missing (argv1 : Str) (hs1 : List Str) (h : Str) (hs2 : List Str) :
    ∀ r : Resolver,
    (∀ x ∈ hs1, (r.map_read_order.find (identifier x)).isSome = true) →
    r.map_read_order.find (identifier h) = none →
    resolve_headers argv1 (hs1 ++ h :: hs2) r
      = .error { r with
          f_out := r.f_out ++ order_lines (lookup_all r.map_read_order hs1),
          cout := r.cout ++ [Msg.unknown (identifier h) argv1] } := by
  induction hs1 with
  | nil =>
    intro r _ hv
    simp [resolve_headers, resolve_record_missing argv1 h r hv, lookup_all, order_lines]
  | cons x hs1 ih =>
    intro r hall hv
    obtain ⟨v, hx⟩ := Option.isSome_iff_exists.1 (hall x (by simp))
    show resolve_headers argv1 (x :: (hs1 ++ h :: hs2)) r = _
    simp only [resolve_headers, resolve_record_found argv1 x r v hx]
    rw [ih ⟨r.map_read_order, r.f_out ++ (Nat.toDigits 10 v ++ ['\n']), r.cout⟩
      (fun y hy => hall y (by simp [hy])) hv]
    simp [lookup_all, order_lines_cons, hx]

theorem lookup_all_numbered (ids : List Str) (hs : List Str)
    (hall : ∀ h ∈ hs, identifier h ∈ ids) :
    lookup_all (numbered 1 ids) hs = hs.map (fun h => order_number ids (identifier h)) := by
  unfold lookup_all
  apply List.map_congr_left
  intro h hh
  rw [find_numbered]
  simp [hall h hh]

/-- When the first pass runs to its end the identifiers are pairwise distinct. -/
theorem index_headers_ok_nodup (argv1 : Str) (hs : List Str) (b : Builder)
    (h : index_headers argv1 hs Builder.init = .ok b) : (hs.map identifier).Nodup := by
  by_contra hnd
  obtain ⟨hs1, x, hs2, rfl, h1, h2⟩ := exists_first_dup identifier hs hnd
  rw [index_headers_dup argv1 hs1 x hs2 [] Builder.init rfl rfl (by simpa using h1)
    (by simpa using h2)] at h
  cases h

theorem index_headers_init (argv1 : Str) (hs : List Str) (hnd : (hs.map identifier).Nodup) :
    index_headers argv1 hs Builder.init = .ok
      { warn_all hs Builder.init with
        map_read_order := numbered 1 (hs.map identifier), num_reads := hs.length } := by
  have := index_headers_nodup argv1 hs [] Builder.init rfl rfl (by simpa using hnd)
  simpa using this

theorem index_headers_init_dup (argv1 : Str) (hs1 : List Str) (h : Str) (hs2 : List Str)
    (hnd : (hs1.map identifier).Nodup) (hmem : identifier h ∈ hs1.map identifier) :
    index_headers argv1 (hs1 ++ h :: hs2) Builder.init = .error
      { warn_all (hs1 ++ [h]) Builder.init with
        map_read_order := numbered 1 (hs1.map identifier),
        num_reads := hs1.length + 1,
        cout := (warn_all (hs1 ++ [h]) Builder.init).cout
          ++ [Msg.duplicate (identifier h) argv1] } := by
  have := index_headers_dup argv1 hs1 h hs2 [] Builder.init rfl rfl (by simpa using hnd)
    (by simpa using hmem)
  simpa using this

/-- The messages of the first pass before any error: at most the warning. -/
theorem warn_all_init_cout (hs : List Str) :
    (warn_all hs Builder.init).cout
      = if hs.any (fun h => decide (1 < num_words h)) = true then [Msg.warning] else [] := by
  rw [warn_all_eq]; simp [Builder.init]

theorem main_of_lines (argv1 argv2 argv3 : Str) (rl sl : List Str) (t1 t2 : Str)
    (writable : Bool) (hrl : ∀ l ∈ rl, IsLine l) (hsl : ∀ l ∈ sl, IsLine l)
    (ht1 : IsLine t1) (ht2 : IsLine t2) :
    main argv1 argv2 argv3 (some (unlines rl ++ t1)) (some (unlines sl ++ t2)) writable
      = some (main_headers argv1 argv2 argv3 (some (ref_headers rl)) (some (sec_headers sl))
          writable) :=
  main_lines argv1 argv2 argv3 (some (rl, t1)) (some (sl, t2)) writable
    (by rintro p ⟨⟩; exact ⟨hrl, ht1⟩) (by rintro p ⟨⟩; exact ⟨hsl, ht2⟩)

theorem isLine_nil : IsLine [] := by simp [IsLine]

theorem order_number_get_nodup (ids : List Str) (hnd : ids.Nodup) (i : Nat) (hi : i < ids.length) :
    order_number ids (ids.get ⟨i, hi⟩) = i + 1 := by
  induction ids generalizing i with
  | nil => simp at hi
  | cons y ys ih =>
    cases i with
    | zero => simp [order_number]
    | succ j =>
      have hj : j < ys.length := by simpa using hi
      have hne : y ≠ ys.get ⟨j, hj⟩ := by
        intro e
        have := (List.nodup_cons.1 hnd).1
        exact this (e ▸ List.get_mem ys j hj)
      simp only [List.get_cons_succ, order_number, hne, if_false]
      rw [ih (List.nodup_cons.1 hnd).2 j hj]

theorem numbered_eq_zip (ids : List Str) : ∀ start : Nat,
    numbered start ids = ids.zip (List.range' start ids.length) := by
  induction ids with
  | nil => intro _; rfl
  | cons x xs ih => intro start; simp [numbered, ih, List.range']

/-- C1 (end-to-end order resolution). For a reference file of newline-terminated lines
whose headers (lines 0, 4, 8, ...) have pairwise distinct identifiers and a second file
of newline-terminated lines whose headers (lines 0, 2, 4, ...) all carry identifiers of
the reference file, the program ends with status 0 and the output file holds one line per
second-file header, the k-th being the decimal rendering of the 1-based position `v`
at which the identifier of the k-th header stands among the reference identifiers. -/
theorem order_resolution (argv1 argv2 argv3 : Str) (rl sl : List Str)
    (hrl : ∀ l ∈ rl, IsLine l) (hsl : ∀ l ∈ sl, IsLine l)
    (hnd : ((ref_headers rl).map identifier).Nodup)
    (hknown : ∀ h ∈ sec_headers sl, identifier h ∈ (ref_headers rl).map identifier) :
    ∃ r vs, main argv1 argv2 argv3 (some (unlines rl)) (some (unlines sl)) true = some r ∧
      r.status = 0 ∧ r.f_out = some (order_lines vs) ∧
      vs.length = (sec_headers sl).length ∧
      ∀ (k : Nat) (h : Str), (sec_headers sl)[k]? = some h →
        ∃ v, vs[k]? = some v ∧ 1 ≤ v ∧
          ((ref_headers rl).map identifier)[v - 1]? = some (identifier h) := by
  have hm := main_of_lines argv1 argv2 argv3 rl sl [] [] true hrl hsl isLine_nil isLine_nil
  simp only [List.append_nil] at hm
  have hfound : ∀ h ∈ sec_headers sl,
      (UMap.find (numbered 1 ((ref_headers rl).map identifier)) (identifier h)).isSome = true :=
    fun h hh => (find_numbered_isSome _ _ _).2 (hknown h hh)
  refine ⟨_, (sec_headers sl).map
    (fun h => order_number ((ref_headers rl).map identifier) (identifier h)), hm, ?_, ?_, ?_, ?_⟩
  · simp only [main_headers, index_headers_init argv1 _ hnd, finish_headers]
    rw [resolve_headers_found argv1 _ _ hfound]
    simp
  · simp only [main_headers, index_headers_init argv1 _ hnd, finish_headers]
    rw [resolve_headers_found argv1 _ _ hfound]
    simp [lookup_all_numbered _ _ hknown]
  · simp
  · intro k h hk
    have hmem : h ∈ sec_headers sl := List.getElem?_mem hk
    refine ⟨order_number ((ref_headers rl).map identifier) (identifier h), ?_,
      order_number_pos _ _, order_number_get _ _ (hknown h hmem)⟩
    simp [hk]

/-- The scenario of the specification: identifiers r1, r2, r3 and second-file headers
@r3, @r1 give the output lines 3 and 1. -/
theorem order_resolution_witness :
    ((∀ l ∈ sample_reference, IsLine l) ∧ (∀ l ∈ sample_second, IsLine l) ∧
      ((ref_headers sample_reference).map identifier).Nodup ∧
      (∀ h ∈ sec_headers sample_second,
        identifier h ∈ (ref_headers sample_reference).map identifier)) ∧
    (∃ r vs, main "ref.fastq".toList "new.fasta".toList "order.txt".toList
        (some (unlines sample_reference)) (some (unlines sample_second)) true = some r ∧
      r.status = 0 ∧ r.f_out = some (order_lines vs) ∧
      vs.length = (sec_headers sample_second).length ∧
      ∀ (k : Nat) (h : Str), (sec_headers sample_second)[k]? = some h →
        ∃ v, vs[k]? = some v ∧ 1 ≤ v ∧
          ((ref_headers sample_reference).map identifier)[v - 1]? = some (identifier h)) ∧
    (main "ref.fastq".toList "new.fasta".toList "order.txt".toList
        (some (unlines sample_reference)) (some (unlines sample_second)) true).map
      (fun r => (r.status, r.f_out)) = some (0, some "3\n1\n".toList) :=
  ⟨⟨by decide, by decide, by decide, by decide⟩,
   order_resolution _ _ _ sample_reference sample_second (by decide) (by decide) (by decide)
     (by decide),
   by decide⟩

/-- C2 (order fidelity of the index). For a reference file of newline-terminated lines
whose headers have pairwise distinct identifiers `ids`, the first pass ends normally and
the table holds exactly the keys `ids`, in order, the i-th (1-based) with the value i;
no other key is present. -/
theorem index_order_fidelity (argv1 : Str) (rl : List Str)
    (hrl : ∀ l ∈ rl, IsLine l) (hnd : ((ref_headers rl).map identifier).Nodup) :
    ∃ line_header b, build_index argv1 (unlines rl) = some (.ok (line_header, b)) ∧
      b.map_read_order.map Prod.fst = (ref_headers rl).map identifier ∧
      b.map_read_order.length = ((ref_headers rl).map identifier).length ∧
      (∀ i (hi : i < ((ref_headers rl).map identifier).length),
        b.map_read_order.find (((ref_headers rl).map identifier).get ⟨i, hi⟩) = some (i + 1)) ∧
      (∀ k, k ∉ (ref_headers rl).map identifier → b.map_read_order.find k = none) ∧
      b.map_read_order = ((ref_headers rl).map identifier).zip
        (List.range' 1 ((ref_headers rl).map identifier).length) := by
  have hb := build_index_lines argv1 rl [] hrl isLine_nil
  rw [List.append_nil, index_headers_init argv1 _ hnd] at hb
  cases hbi : build_index argv1 (unlines rl) with
  | none => rw [hbi] at hb; exact Option.noConfusion hb
  | some e =>
    rw [hbi] at hb
    cases e with
    | error b => simp [Except.map] at hb
    | ok p =>
      obtain ⟨lh, b⟩ := p
      simp only [Option.map_some', Except.map, Option.some.injEq, Except.ok.injEq] at hb
      subst hb
      refine ⟨lh, _, rfl, keys_numbered _ _, ?_, ?_, ?_, numbered_eq_zip _ _⟩
      · simp [length_numbered]
      · intro i hi
        simp only [find_numbered, List.get_mem, if_true]
        rw [order_number_get_nodup _ hnd i hi]
        simp
      · intro k hk
        simp [find_numbered, hk]

/-- The scenario of the specification: identifiers r1, r2, r3 give the index
r1:1, r2:2, r3:3. -/
theorem index_order_fidelity_witness :
    ((∀ l ∈ sample_reference, IsLine l) ∧
      ((ref_headers sample_reference).map identifier).Nodup) ∧
    (∃ line_header b,
      build_index "ref.fastq".toList (unlines sample_reference) = some (.ok (line_header, b)) ∧
      b.map_read_order.map Prod.fst = (ref_headers sample_reference).map identifier ∧
      b.map_read_order.length = ((ref_headers sample_reference).map identifier).length ∧
      (∀ i (hi : i < ((ref_headers sample_reference).map identifier).length),
        b.map_read_order.find (((ref_headers sample_reference).map identifier).get ⟨i, hi⟩)
          = some (i + 1)) ∧
      (∀ k, k ∉ (ref_headers sample_reference).map identifier →
        b.map_read_order.find k = none) ∧
      b.map_read_order = ((ref_headers sample_reference).map identifier).zip
        (List.range' 1 ((ref_headers sample_reference).map identifier).length)) ∧
    (build_index "ref.fastq".toList (unlines sample_reference)).map
        (Except.map (fun p => p.2.map_read_order))
      = some (.ok [("r1".toList, 1), ("r2".toList, 2), ("r3".toList, 3)]) :=
  ⟨⟨by decide, by decide⟩,
   index_order_fidelity _ sample_reference (by decide) (by decide),
   rfl⟩

theorem map_eq_append_cons {α β : Type} (f : α → β) (pre : List β) (w : β) (post : List β) :
    ∀ hs : List α, hs.map f = pre ++ w :: post →
      ∃ hs1 h hs2, hs = hs1 ++ h :: hs2 ∧ hs1.map f = pre ∧ f h = w ∧ hs2.map f = post := by
  induction pre with
  | nil =>
    intro hs h
    cases hs with
    | nil => simp at h
    | cons a hs =>
      simp only [List.map_cons, List.nil_append, List.cons.injEq] at h
      exact ⟨[], a, hs, rfl, rfl, h.1, h.2⟩
  | cons p pre ih =>
    intro hs h
    cases hs with
    | nil => simp at h
    | cons a hs =>
      simp only [List.map_cons, List.cons_append, List.cons.injEq] at h
      obtain ⟨hs1, x, hs2, rfl, h1, h2, h3⟩ := ih hs h.2
      exact ⟨a :: hs1, x, hs2, rfl, by simp [h.1, h1], h2, h3⟩

/-- The run when the reference file repeats an identifier: the first pass stops at the
first repetition, whatever the second file is. -/
theorem main_dup (argv1 argv2 argv3 : Str) (rl : List Str) (t : Str)
    (hrl : ∀ l ∈ rl, IsLine l) (ht : IsLine t) (hs1 : List Str) (h : Str) (hs2 : List Str)
    (hsplit : ref_headers rl = hs1 ++ h :: hs2)
    (hnd : (hs1.map identifier).Nodup) (hmem : identifier h ∈ hs1.map identifier)
    (aligned : Option Str) (writable : Bool) :
    main argv1 argv2 argv3 (some (unlines rl ++ t)) aligned writable
      = some ⟨1, (warn_all (hs1 ++ [h]) Builder.init).cout ++ [Msg.duplicate (identifier h) argv1],
          none, numbered 1 (hs1.map identifier), hs1.length + 1⟩ := by
  obtain ⟨p2, rfl, h2⟩ := exists_file_text aligned
  have hm := main_lines argv1 argv2 argv3 (some (rl, t)) p2 writable
    (by rintro p ⟨⟩; exact ⟨hrl, ht⟩) h2
  simp only [Option.map_some', file_text] at hm
  rw [hm]
  simp only [main_headers, hsplit, index_headers_init_dup argv1 hs1 h hs2 hnd hmem]

/-- The run when the reference identifiers are pairwise distinct: the first pass
numbers them and the rest of `main` follows. -/
theorem main_nodup (argv1 argv2 argv3 : Str) (rl : List Str) (t : Str)
    (hrl : ∀ l ∈ rl, IsLine l) (ht : IsLine t)
    (hnd : ((ref_headers rl).map identifier).Nodup)
    (aligned : Option (List Str × Str)) (writable : Bool)
    (h2 : ∀ p, aligned = some p → (∀ l ∈ p.1, IsLine l) ∧ IsLine p.2) :
    main argv1 argv2 argv3 (some (unlines rl ++ t)) (aligned.map file_text) writable
      = some (finish_headers argv1 argv2 argv3
          { warn_all (ref_headers rl) Builder.init with
            map_read_order := numbered 1 ((ref_headers rl).map identifier),
            num_reads := (ref_headers rl).length }
          (aligned.map (fun p => sec_headers p.1)) writable) := by
  have hm := main_lines argv1 argv2 argv3 (some (rl, t)) aligned writable
    (by rintro p ⟨⟩; exact ⟨hrl, ht⟩) h2
  simp only [Option.map_some', file_text] at hm
  rw [hm]
  simp only [main_headers, index_headers_init argv1 _ hnd]

/-- The second pass either resolves every header or stops at the first unknown one. -/
theorem resolve_headers_cases (argv1 : Str) (hs : List Str) (r : Resolver) :
    ((∀ h ∈ hs, (r.map_read_order.find (identifier h)).isSome = true) ∧
      resolve_headers argv1 hs r
        = .ok { r with f_out := r.f_out ++ order_lines (lookup_all r.map_read_order hs) }) ∨
    (∃ hs1 h hs2, hs = hs1 ++ h :: hs2 ∧
      (∀ x ∈ hs1, (r.map_read_order.find (identifier x)).isSome = true) ∧
      r.map_read_order.find (identifier h) = none ∧
      resolve_headers argv1 hs r
        = .error { r with
            f_out := r.f_out ++ order_lines (lookup_all r.map_read_order hs1),
            cout := r.cout ++ [Msg.unknown (identifier h) argv1] }) := by
  rcases exists_first_failing
    (fun h => (r.map_read_order.find (identifier h)).isSome = true) hs with hall | hex
  · exact Or.inl ⟨hall, resolve_headers_found argv1 hs r hall⟩
  · obtain ⟨hs1, h, hs2, rfl, h1, h2⟩ := hex
    have h2' : r.map_read_order.find (identifier h) = none := by
      simpa using h2
    exact Or.inr ⟨hs1, h, hs2, rfl, h1, h2',
      resolve_headers_missing argv1 hs1 h hs2 r h1 h2'⟩

/-- After a first pass without error, no message of the run reports a duplicate. -/
theorem finish_headers_no_duplicate (argv1 argv2 argv3 : Str) (b : Builder)
    (aligned : Option (List Str)) (writable : Bool) (w p : Str)
    (hb : Msg.duplicate w p ∉ b.cout) :
    Msg.duplicate w p ∉ (finish_headers argv1 argv2 argv3 b aligned writable).cout := by
  unfold finish_headers
  cases aligned with
  | none => simpa using hb
  | some hs =>
    by_cases hw : writable = false
    · simpa [hw] using hb
    · simp only [hw, if_false]
      rcases resolve_headers_cases argv1 hs ⟨b.map_read_order, [], b.cout⟩ with ⟨_, e⟩ | ⟨_, _, _, _, _, _, e⟩
      · rw [e]; simpa using hb
      · rw [e]; simpa using hb

theorem warn_all_no_duplicate (hs : List Str) (w p : Str) :
    Msg.duplicate w p ∉ (warn_all hs Builder.init).cout := by
  rw [warn_all_init_cout]; split_ifs <;> simp

/-- Duplicate detection on a reference file given as its terminated lines `rl` and its
unterminated rest `t`: the first pass leaves through the duplicate exit exactly when two
headers of `rl` have the same identifier, and so does the whole run, whatever the
second file is; the report names the identifier of the earliest header that repeats an
earlier one. -/
theorem duplicate_detection_lines (argv1 argv2 argv3 : Str) (rl : List Str) (t : Str)
    (hrl : ∀ l ∈ rl, IsLine l) (ht : IsLine t) (aligned : Option Str) (writable : Bool) :
    ((∃ b, build_index argv1 (unlines rl ++ t) = some (.error b))
      ↔ ¬ ((ref_headers rl).map identifier).Nodup) ∧
    ∃ r, main argv1 argv2 argv3 (some (unlines rl ++ t)) aligned writable = some r ∧
      ((r.status = 1 ∧ ∃ w, Msg.duplicate w argv1 ∈ r.cout)
        ↔ ¬ ((ref_headers rl).map identifier).Nodup) ∧
      ∀ pre w post, (ref_headers rl).map identifier = pre ++ w :: post → pre.Nodup → w ∈ pre →
        r.status = 1 ∧ r.cout.getLast? = some (Msg.duplicate w argv1) ∧ r.f_out = none := by
  have hb := build_index_lines argv1 rl t hrl ht
  by_cases hnd : ((ref_headers rl).map identifier).Nodup
  · -- no repetition: the first pass ends normally
    refine ⟨⟨?_, fun h => absurd hnd h⟩, ?_⟩
    · rintro ⟨b, hbe⟩
      rw [hbe, index_headers_init argv1 _ hnd] at hb
      simp [Except.map] at hb
    · obtain ⟨p2, rfl, h2⟩ := exists_file_text aligned
      have hm := main_nodup argv1 argv2 argv3 rl t hrl ht hnd p2 writable h2
      refine ⟨_, hm, ⟨?_, fun h => absurd hnd h⟩, ?_⟩
      · rintro ⟨_, w, hw⟩
        exact absurd hw (finish_headers_no_duplicate _ _ _ _ _ _ _ _
          (warn_all_no_duplicate _ _ _))
      · intro pre w post hsplit hpre hw
        exfalso
        rw [hsplit] at hnd
        have := List.nodup_append.1 hnd
        exact this.2.2 hw (by simp)
  · -- a repetition: the first pass stops at the first one
    obtain ⟨hs1, h, hs2, hsplit, h1, h2⟩ := exists_first_dup identifier (ref_headers rl) hnd
    refine ⟨⟨fun _ => hnd, fun _ => ?_⟩, ?_⟩
    · rw [hsplit, index_headers_init_dup argv1 hs1 h hs2 h1 h2] at hb
      cases hbi : build_index argv1 (unlines rl ++ t) with
      | none => rw [hbi] at hb; exact Option.noConfusion hb
      | some e =>
        cases e with
        | error b => exact ⟨b, rfl⟩
        | ok q => rw [hbi] at hb; simp [Except.map] at hb
    · have hm := main_dup argv1 argv2 argv3 rl t hrl ht hs1 h hs2 hsplit h1 h2
        aligned writable
      refine ⟨_, hm, ⟨fun _ => hnd, fun _ => ⟨rfl, identifier h, by simp⟩⟩, ?_⟩
      intro pre w post hids hpre hw
      -- the two splittings at the first repetition agree
      obtain ⟨hs1', h', hs2', hsplit', e1, e2, _⟩ :=
        map_eq_append_cons identifier pre w post (ref_headers rl) hids
      have hm' := main_dup argv1 argv2 argv3 rl t hrl ht hs1' h' hs2' hsplit'
        (by rw [e1]; exact hpre) (by rw [e1, e2]; exact hw) aligned writable
      rw [hm] at hm'
      simp only [Option.some.injEq] at hm'
      rw [hm']
      refine ⟨rfl, ?_, rfl⟩
      simp [e2]

theorem find_numbered_none (ids : List Str) (k : Str) (start : Nat) :
    UMap.find (numbered start ids) k = none ↔ k ∉ ids := by
  rw [find_numbered]; by_cases h : k ∈ ids <;> simp [h]

/-- C5, as stated, fails: the first duplicate stands at record 2 in one reference file and
at record 3 in the other (the counter is 2 and 3 at the exit), yet both runs write the
very same error report, which holds no record count. -/
theorem duplicate_report_position_counterexample :
    ∃ r1 r2,
      main "ref.fastq".toList "new.fasta".toList "order.txt".toList
        (some (unlines sample_duplicate)) (some (unlines sample_second)) true = some r1 ∧
      main "ref.fastq".toList "new.fasta".toList "order.txt".toList
        (some (unlines sample_duplicate_late)) (some (unlines sample_second)) true = some r2 ∧
      r1.num_reads = 2 ∧ r2.num_reads = 3 ∧
      r1.cout.map Msg.text = ["\nERROR: r1 exists multiple times in ref.fastq\n\n".toList] ∧
      r2.cout.map Msg.text = r1.cout.map Msg.text :=
  ⟨⟨1, [Msg.duplicate "r1".toList "ref.fastq".toList], none, [("r1".toList, 1)], 2⟩,
   ⟨1, [Msg.duplicate "r1".toList "ref.fastq".toList], none,
     [("r0".toList, 1), ("r1".toList, 2)], 3⟩,
   by decide, by decide, rfl, rfl, by decide, by decide⟩

/-- C5, amended. For a reference file of newline-terminated lines in which `w` is the
identifier of the earliest header that repeats an earlier one, `pre` being the identifiers
before it: the run ends with status 1, its last message is the duplicate report, whose
text is made of the identifier `w` and the path `argv1` only, and the record counter,
incremented before the test, is `pre.length + 1` at the exit without being written. -/
theorem duplicate_report (argv1 argv2 argv3 : Str) (rl : List Str)
    (hrl : ∀ l ∈ rl, IsLine l) (aligned : Option Str) (writable : Bool)
    (pre : List Str) (w : Str) (post : List Str)
    (hids : (ref_headers rl).map identifier = pre ++ w :: post)
    (hpre : pre.Nodup) (hw : w ∈ pre) :
    ∃ r, main argv1 argv2 argv3 (some (unlines rl)) aligned writable = some r ∧
      r.status = 1 ∧ r.num_reads = pre.length + 1 ∧
      r.cout.getLast? = some (Msg.duplicate w argv1) ∧
      (r.cout.filter (fun m => decide (m ≠ Msg.warning))).map Msg.text
        = ["\nERROR: ".toList ++ w ++ " exists multiple times in ".toList ++ argv1
            ++ "\n\n".toList] := by
  obtain ⟨hs1, h, hs2, hsplit, e1, e2, _⟩ :=
    map_eq_append_cons identifier pre w post (ref_headers rl) hids
  have hm := main_dup argv1 argv2 argv3 rl [] hrl isLine_nil hs1 h hs2 hsplit
    (by rw [e1]; exact hpre) (by rw [e1, e2]; exact hw) aligned writable
  rw [List.append_nil] at hm
  refine ⟨_, hm, rfl, ?_, ?_, ?_⟩
  · simp [← e1]
  · simp [e2]
  · simp only [warn_all_init_cout]
    split_ifs <;> simp [List.filter, Msg.text, e2]

/-- The reference file whose third header repeats the second: the report names r1 and
the path, and the counter is 3. -/
theorem duplicate_report_witness :
    ((∀ l ∈ sample_duplicate_late, IsLine l) ∧
      (ref_headers sample_duplicate_late).map identifier
        = ["r0".toList, "r1".toList] ++ "r1".toList :: [] ∧
      ["r0".toList, "r1".toList].Nodup ∧ "r1".toList ∈ ["r0".toList, "r1".toList]) ∧
    ∃ r, main "ref.fastq".toList "new.fasta".toList "order.txt".toList
        (some (unlines sample_duplicate_late)) (some (unlines sample_second)) true = some r ∧
      r.status = 1 ∧ r.num_reads = ["r0".toList, "r1".toList].length + 1 ∧
      r.cout.getLast? = some (Msg.duplicate "r1".toList "ref.fastq".toList) ∧
      (r.cout.filter (fun m => decide (m ≠ Msg.warning))).map Msg.text
        = ["\nERROR: ".toList ++ "r1".toList ++ " exists multiple times in ".toList
            ++ "ref.fastq".toList ++ "\n\n".toList] :=
  ⟨⟨by decide, by decide, by decide, by decide⟩,
   duplicate_report _ _ _ sample_duplicate_late (by decide) _ _
     ["r0".toList, "r1".toList] "r1".toList [] (by decide) (by decide) (by decide)⟩

/-! ## Extraction of the identifier -/

theorem dropWhile_isspace_pad (pad x : Str) (hpad : ∀ c ∈ pad, isspace c = true) :
    (pad ++ x).dropWhile isspace = x.dropWhile isspace := by
  induction pad with
  | nil => rfl
  | cons a pad ih =>
    have ha : isspace a = true := hpad a (by simp)
    rw [List.cons_append, List.dropWhile_cons, if_pos ha]
    exact ih (fun c hc => hpad c (by simp [hc]))

theorem takeWhile_word (tok rest : Str) (htok : ∀ c ∈ tok, isspace c = false)
    (hrest : rest = [] ∨ ∃ c r, rest = c :: r ∧ isspace c = true) :
    (tok ++ rest).takeWhile (fun x => !isspace x) = tok := by
  induction tok with
  | nil =>
    rcases hrest with rfl | ⟨c, r, rfl, hc⟩
    · rfl
    · simp [List.takeWhile_cons, hc]
  | cons a tok ih =>
    have ha : isspace a = false := htok a (by simp)
    rw [List.cons_append, List.takeWhile_cons]
    simp only [ha, Bool.not_false, if_true]
    rw [ih (fun c hc => htok c (by simp [hc]))]

/-- The first word of a line made of whitespace, a non-empty word and a rest that is
empty or starts with whitespace. -/
theorem first_word_eq (pad : Str) (a : Char) (tok rest : Str)
    (hpad : ∀ c ∈ pad, isspace c = true) (ha : isspace a = false)
    (htok : ∀ c ∈ tok, isspace c = false)
    (hrest : rest = [] ∨ ∃ c r, rest = c :: r ∧ isspace c = true) :
    first_word (pad ++ a :: tok ++ rest) = a :: tok := by
  have hd : (pad ++ a :: tok ++ rest).dropWhile isspace = a :: (tok ++ rest) := by
    rw [List.append_assoc, dropWhile_isspace_pad _ _ hpad, List.cons_append,
      List.dropWhile_cons, if_neg (by simp [ha])]
  have ht : (a :: (tok ++ rest)).takeWhile (fun x => !isspace x) = a :: tok := by
    have := takeWhile_word (a :: tok) rest
      (fun c hc => by
        rcases List.mem_cons.1 hc with rfl | hc
        · exact ha
        · exact htok c hc) hrest
    simpa using this
  simp only [first_word, extract_string, IStream.mk_open, IStream.good]
  simp only [Bool.not_false, Bool.and_self, Bool.true_eq_false, if_false, hd, ht]

theorem identifier_eq (pad : Str) (a : Char) (tok rest : Str)
    (hpad : ∀ c ∈ pad, isspace c = true) (ha : isspace a = false)
    (htok : ∀ c ∈ tok, isspace c = false)
    (hrest : rest = [] ∨ ∃ c r, rest = c :: r ∧ isspace c = true) :
    identifier (pad ++ a :: tok ++ rest) = tok := by
  unfold identifier
  rw [first_word_eq pad a tok rest hpad ha htok hrest]
  simp [erase]

/-- C6 (identifier extraction and marker stripping). For a header made of leading
whitespace `pad`, the marker `@`, a string `s` without whitespace (possibly empty,
possibly holding or starting with `@`) and a rest that is empty or starts with
whitespace, the first word is `@` followed by `s` and the identifier is exactly `s`.
Both passes use it: the first pass stores `s` as the key of the header, the second
pass looks `s` up. -/
theorem identifier_extraction (pad s rest : Str)
    (hpad : ∀ c ∈ pad, isspace c = true) (hs : ∀ c ∈ s, isspace c = false)
    (hrest : rest = [] ∨ ∃ c r, rest = c :: r ∧ isspace c = true) :
    first_word (pad ++ '@' :: s ++ rest) = '@' :: s ∧
    identifier (pad ++ '@' :: s ++ rest) = s ∧
    (∀ (argv1 : Str) (b : Builder), b.map_read_order.find s = none →
      ∃ b', index_record argv1 (pad ++ '@' :: s ++ rest) b = .ok b' ∧
        b'.map_read_order = b.map_read_order ++ [(s, b.num_reads + 1)]) ∧
    (∀ (argv1 : Str) (b : Builder) (v : Nat), b.map_read_order.find s = some v →
      ∃ b', index_record argv1 (pad ++ '@' :: s ++ rest) b = .error b' ∧
        b'.cout.getLast? = some (Msg.duplicate s argv1)) ∧
    (∀ (argv1 : Str) (r : Resolver) (v : Nat), r.map_read_order.find s = some v →
      resolve_record argv1 (pad ++ '@' :: s ++ rest) r
        = .ok { r with f_out := r.f_out ++ (Nat.toDigits 10 v ++ ['\n']) }) ∧
    (∀ (argv1 : Str) (r : Resolver), r.map_read_order.find s = none →
      resolve_record argv1 (pad ++ '@' :: s ++ rest) r
        = .error { r with cout := r.cout ++ [Msg.unknown s argv1] }) := by
  have hat : isspace '@' = false := by decide
  have hid := identifier_eq pad '@' s rest hpad hat hs hrest
  refine ⟨first_word_eq pad '@' s rest hpad hat hs hrest, hid, ?_, ?_, ?_, ?_⟩
  · intro argv1 b hf
    have e : index_record argv1 (pad ++ '@' :: s ++ rest) b = .ok
        { warn_once (pad ++ '@' :: s ++ rest) b with
          num_reads := b.num_reads + 1,
          map_read_order := b.map_read_order.assign s (b.num_reads + 1) } := by
      simp only [index_record, hid, warn_once_map, warn_once_num_reads, hf, Option.isSome_none,
        Bool.false_eq_true, if_false]
    exact ⟨_, e, by simp [assign_absent _ _ _ hf]⟩
  · intro argv1 b v hf
    have e : index_record argv1 (pad ++ '@' :: s ++ rest) b = .error
        { warn_once (pad ++ '@' :: s ++ rest) b with
          num_reads := b.num_reads + 1,
          cout := (warn_once (pad ++ '@' :: s ++ rest) b).cout ++ [Msg.duplicate s argv1] } := by
      simp only [index_record, hid, warn_once_map, warn_once_num_reads, hf, Option.isSome_some,
        if_true]
    exact ⟨_, e, by simp⟩
  · intro argv1 r v hf
    have := resolve_record_found argv1 (pad ++ '@' :: s ++ rest) r v (by rw [hid]; exact hf)
    exact this
  · intro argv1 r hf
    have := resolve_record_missing argv1 (pad ++ '@' :: s ++ rest) r (by rw [hid]; exact hf)
    rw [hid] at this
    exact this

/-- The two headers of the claim: `@@r1 extra` gives `@r1` and `@a@b` gives `a@b`. -/
theorem identifier_extraction_witness :
    ((∀ c ∈ ([] : Str), isspace c = true) ∧ (∀ c ∈ "@r1".toList, isspace c = false) ∧
      (" extra".toList = [] ∨ ∃ c r, " extra".toList = c :: r ∧ isspace c = true)) ∧
    (first_word ([] ++ '@' :: "@r1".toList ++ " extra".toList) = '@' :: "@r1".toList ∧
      identifier ([] ++ '@' :: "@r1".toList ++ " extra".toList) = "@r1".toList ∧
      (∀ (argv1 : Str) (b : Builder), b.map_read_order.find "@r1".toList = none →
        ∃ b', index_record argv1 ([] ++ '@' :: "@r1".toList ++ " extra".toList) b = .ok b' ∧
          b'.map_read_order = b.map_read_order ++ [("@r1".toList, b.num_reads + 1)]) ∧
      (∀ (argv1 : Str) (b : Builder) (v : Nat), b.map_read_order.find "@r1".toList = some v →
        ∃ b', index_record argv1 ([] ++ '@' :: "@r1".toList ++ " extra".toList) b = .error b' ∧
          b'.cout.getLast? = some (Msg.duplicate "@r1".toList argv1)) ∧
      (∀ (argv1 : Str) (r : Resolver) (v : Nat), r.map_read_order.find "@r1".toList = some v →
        resolve_record argv1 ([] ++ '@' :: "@r1".toList ++ " extra".toList) r
          = .ok { r with f_out := r.f_out ++ (Nat.toDigits 10 v ++ ['\n']) }) ∧
      (∀ (argv1 : Str) (r : Resolver), r.map_read_order.find "@r1".toList = none →
        resolve_record argv1 ([] ++ '@' :: "@r1".toList ++ " extra".toList) r
          = .error { r with cout := r.cout ++ [Msg.unknown "@r1".toList argv1] })) ∧
    identifier "@@r1 extra".toList = "@r1".toList ∧
    identifier "@a@b".toList = "a@b".toList ∧
    identifier "  \t@r7\tlength=4".toList = "r7".toList :=
  ⟨⟨by decide, by decide, Or.inr ⟨' ', "extra".toList, rfl, by decide⟩⟩,
   identifier_extraction [] "@r1".toList " extra".toList (by decide) (by decide)
     (Or.inr ⟨' ', "extra".toList, rfl, by decide⟩),
   by decide, by decide, by decide⟩

/-! ## Shape of the output -/

theorem ite_ne_of {c : Prop} [Decidable c] {a b x : Char} (ha : a ≠ x) (hb : b ≠ x) :
    (if c then a else b) ≠ x := by
  split <;> assumption

theorem digitChar_ne_newline (d : Nat) : Nat.digitChar d ≠ '\n' := by
  unfold Nat.digitChar
  repeat (apply ite_ne_of (by decide))
  decide

theorem toDigitsCore_no_newline (fuel : Nat) : ∀ (n : Nat) (ds : List Char),
    '\n' ∉ ds → '\n' ∉ Nat.toDigitsCore 10 fuel n ds := by
  induction fuel with
  | zero => intro n ds h; simpa [Nat.toDigitsCore] using h
  | succ fuel ih =>
    intro n ds h
    have hd : '\n' ∉ Nat.digitChar (n % 10) :: ds := by
      intro hm
      rcases List.mem_cons.1 hm with e | e
      · exact digitChar_ne_newline _ e.symm
      · exact h e
    simp only [Nat.toDigitsCore]
    split_ifs
    · exact hd
    · exact ih _ _ hd

theorem toDigits_no_newline (v : Nat) : '\n' ∉ Nat.toDigits 10 v :=
  toDigitsCore_no_newline _ _ _ (by simp)

/-- An order file holds as many line terminators as numbers. -/
theorem count_order_lines (vs : List Nat) : (order_lines vs).count '\n' = vs.length := by
  induction vs with
  | nil => rfl
  | cons v vs ih =>
    rw [order_lines_cons, List.count_append, List.count_cons_self, ih,
      List.count_eq_zero_of_not_mem (toDigits_no_newline v)]
    simp

theorem lookup_all_bounds (ids hs : List Str)
    (hall : ∀ h ∈ hs, (UMap.find (numbered 1 ids) (identifier h)).isSome = true) :
    ∀ v ∈ lookup_all (numbered 1 ids) hs, 1 ≤ v ∧ v ≤ (numbered 1 ids).length := by
  have hall' : ∀ h ∈ hs, identifier h ∈ ids :=
    fun h hh => (find_numbered_isSome _ _ _).1 (hall h hh)
  rw [lookup_all_numbered ids hs hall', length_numbered]
  intro v hv
  obtain ⟨h, hh, rfl⟩ := List.mem_map.1 hv
  exact ⟨order_number_pos _ _, order_number_le _ _ (hall' h hh)⟩

/-- Whatever the headers of the two files, every number written lies between 1 and the
size of the table. -/
theorem main_headers_out (argv1 argv2 argv3 : Str) (original aligned : Option (List Str))
    (writable : Bool) (c : Str)
    (hc : (main_headers argv1 argv2 argv3 original aligned writable).f_out = some c) :
    ∃ vs, c = order_lines vs ∧ ∀ v ∈ vs, 1 ≤ v ∧
      v ≤ (main_headers argv1 argv2 argv3 original aligned writable).map_read_order.length := by
  cases original with
  | none => simp [main_headers] at hc
  | some hs =>
    by_cases hnd : (hs.map identifier).Nodup
    · simp only [main_headers, index_headers_init argv1 hs hnd, finish_headers] at hc ⊢
      cases aligned with
      | none => simp at hc
      | some hs2 =>
        cases writable with
        | false => simp at hc
        | true =>
          simp only [Bool.true_eq_false, if_false] at hc ⊢
          rcases resolve_headers_cases argv1 hs2
            ⟨numbered 1 (hs.map identifier), [], (warn_all hs Builder.init).cout⟩
            with ⟨hall, e⟩ | ⟨hs1, h, hs2', hsplit, h1, h2, e⟩
          · rw [e] at hc ⊢
            simp only [List.nil_append, Option.some.injEq] at hc
            exact ⟨_, hc.symm, lookup_all_bounds _ _ hall⟩
          · rw [e] at hc ⊢
            simp only [List.nil_append, Option.some.injEq] at hc
            exact ⟨_, hc.symm, lookup_all_bounds _ _ h1⟩
    · obtain ⟨hs1, h, hs2, rfl, h1, h2⟩ := exists_first_dup identifier hs hnd
      simp [main_headers, index_headers_init_dup argv1 hs1 h hs2 h1 h2] at hc

/-- On a run that ends with status 0 one number is written per second-file header. -/
theorem main_headers_count (argv1 argv2 argv3 : Str) (original : Option (List Str))
    (hs2 : List Str) (writable : Bool)
    (h0 : (main_headers argv1 argv2 argv3 original (some hs2) writable).status = 0) :
    ∃ vs, (main_headers argv1 argv2 argv3 original (some hs2) writable).f_out
        = some (order_lines vs) ∧ vs.length = hs2.length := by
  cases original with
  | none => simp [main_headers] at h0
  | some hs =>
    by_cases hnd : (hs.map identifier).Nodup
    · simp only [main_headers, index_headers_init argv1 hs hnd, finish_headers] at h0 ⊢
      cases writable with
      | false => simp at h0
      | true =>
        simp only [Bool.true_eq_false, if_false] at h0 ⊢
        rcases resolve_headers_cases argv1 hs2
          ⟨numbered 1 (hs.map identifier), [], (warn_all hs Builder.init).cout⟩
          with ⟨hall, e⟩ | ⟨hs1, h, hs2', hsplit, h1, h2, e⟩
        · rw [e]
          exact ⟨lookup_all (numbered 1 (hs.map identifier)) hs2, by simp, by simp [lookup_all]⟩
        · rw [e] at h0
          simp at h0
    · obtain ⟨hs1, h, hs2, rfl, h1, h2⟩ := exists_first_dup identifier hs hnd
      simp [main_headers, index_headers_init_dup argv1 hs1 h hs2 h1 h2] at h0

/-- C7 (output well-formedness). On every run, whatever the two files are, the program
terminates and the content of the output file, when it was opened, is a sequence of
lines each holding the decimal rendering of a number between 1 and the number of
entries of the table. When the run ends with status 0 and the second file is made of the
newline-terminated lines `sl` (followed by an unterminated rest `t`, empty for a file of
newline-terminated lines), the output holds one line per header of `sl`. -/
theorem output_well_formed (argv1 argv2 argv3 : Str) (original aligned : Option Str)
    (writable : Bool) :
    ∃ r, main argv1 argv2 argv3 original aligned writable = some r ∧
      (∀ c, r.f_out = some c →
        ∃ vs, c = order_lines vs ∧ c.count '\n' = vs.length ∧
          ∀ v ∈ vs, 1 ≤ v ∧ v ≤ r.map_read_order.length) ∧
      (∀ sl t, (∀ l ∈ sl, IsLine l) → IsLine t → aligned = some (unlines sl ++ t) →
        r.status = 0 →
        ∃ vs, r.f_out = some (order_lines vs) ∧ vs.length = (sec_headers sl).length ∧
          (order_lines vs).count '\n' = (sec_headers sl).length) := by
  obtain ⟨p1, rfl, h1⟩ := exists_file_text original
  obtain ⟨p2, hp2, h2⟩ := exists_file_text aligned
  have hm := main_lines argv1 argv2 argv3 p1 p2 writable h1 h2
  rw [← hp2] at hm
  refine ⟨_, hm, ?_, ?_⟩
  · intro c hc
    obtain ⟨vs, e, hb⟩ := main_headers_out _ _ _ _ _ _ c hc
    exact ⟨vs, e, by rw [e, count_order_lines], hb⟩
  · intro sl t hsl ht ha h0
    have hm' := main_lines argv1 argv2 argv3 p1 (some (sl, t)) writable h1
      (by rintro p ⟨⟩; exact ⟨hsl, ht⟩)
    simp only [Option.map_some', file_text] at hm'
    rw [← ha, hm] at hm'
    simp only [Option.some.injEq] at hm'
    rw [hm'] at h0 ⊢
    obtain ⟨vs, e, hl⟩ := main_headers_count _ _ _ _ _ _ h0
    exact ⟨vs, e, hl, by rw [count_order_lines, hl]⟩

/-- A run that stops in the middle of the second file and a run that reaches its end:
in both, the output holds numbers between 1 and 3, the size of the table. -/
theorem output_well_formed_witness :
    (∃ r, main "ref.fastq".toList "new.fasta".toList "order.txt".toList
        (some (unlines sample_reference)) (some (unlines sample_unknown)) true = some r ∧
      (∀ c, r.f_out = some c →
        ∃ vs, c = order_lines vs ∧ c.count '\n' = vs.length ∧
          ∀ v ∈ vs, 1 ≤ v ∧ v ≤ r.map_read_order.length) ∧
      (∀ sl t, (∀ l ∈ sl, IsLine l) → IsLine t →
        some (unlines sample_unknown) = some (unlines sl ++ t) →
        r.status = 0 →
        ∃ vs, r.f_out = some (order_lines vs) ∧ vs.length = (sec_headers sl).length ∧
          (order_lines vs).count '\n' = (sec_headers sl).length)) ∧
    (main "ref.fastq".toList "new.fasta".toList "order.txt".toList
        (some (unlines sample_reference)) (some (unlines sample_second)) true).map
      (fun r => (r.status, r.f_out, r.map_read_order.length))
      = some (0, some (order_lines [3, 1]), 3) :=
  ⟨output_well_formed _ _ _ _ _ _, by decide⟩

/-! ## The number of words of a header -/

theorem count_words_dropWhile_space (l : Str) :
    count_words true l = count_words true (l.dropWhile isspace) := by
  induction l with
  | nil => rfl
  | cons c cs ih =>
    by_cases hc : isspace c = true
    · rw [List.dropWhile_cons, if_pos hc, ← ih]
      simp [count_words, hc]
    · rw [List.dropWhile_cons, if_neg hc]

theorem count_words_in_word (cs : Str) :
    count_words false cs = count_words true (cs.dropWhile (fun x => !isspace x)) := by
  induction cs with
  | nil => rfl
  | cons d ds ih =>
    by_cases hd : isspace d = true
    · simp [count_words, hd, List.dropWhile_cons]
    · simp only [Bool.not_eq_true] at hd
      simp [count_words, hd, List.dropWhile_cons, ih]

theorem count_words_word (c : Char) (cs : Str) (hc : isspace c = false) :
    count_words true (c :: cs)
      = 1 + count_words true ((c :: cs).dropWhile (fun x => !isspace x)) := by
  simp [count_words, hc, List.dropWhile_cons, count_words_in_word]

theorem dropWhile_length_le (p : Char → Bool) (l : Str) : (l.dropWhile p).length ≤ l.length := by
  induction l with
  | nil => simp
  | cons a l ih =>
    rw [List.dropWhile_cons]
    split_ifs
    · simp; omega
    · simp

theorem dropWhile_head_not (p : Char → Bool) (l : Str) (c : Char) (cs : Str)
    (h : l.dropWhile p = c :: cs) : p c = false := by
  induction l with
  | nil => simp at h
  | cons a l ih =>
    rw [List.dropWhile_cons] at h
    by_cases ha : p a = true
    · rw [if_pos ha] at h; exact ih h
    · rw [if_neg ha] at h
      simp only [List.cons.injEq] at h
      rw [← h.1]; simpa using ha

/-- With fuel beyond the number of unread characters, the iterator distance is the
number of words left in the stream. -/
theorem istream_distance_eq (fuel : Nat) : ∀ rest : Str, rest.length < fuel →
    istream_distance fuel ⟨rest, rest.isEmpty, false⟩ = count_words true rest := by
  induction fuel with
  | zero => intro rest h; omega
  | succ f ih =>
    intro rest hlen
    cases hrest : rest with
    | nil => simp [istream_distance, extract_string, IStream.good, IStream.fail, count_words]
    | cons a as =>
      rw [← hrest]
      have hne : rest.isEmpty = false := by rw [hrest]; rfl
      rw [count_words_dropWhile_space]
      cases hd : rest.dropWhile isspace with
      | nil =>
        simp [istream_distance, extract_string, IStream.good, IStream.fail, hne, hd, count_words]
      | cons c cs =>
        have hc : isspace c = false := dropWhile_head_not isspace rest c cs hd
        have hl1 : ((c :: cs).dropWhile (fun x => !isspace x)).length < f := by
          have h1 := dropWhile_length_le (fun x => !isspace x) (c :: cs)
          have h2 := dropWhile_length_le isspace rest
          rw [hd] at h2
          have hcs : cs.length + 1 ≤ rest.length := by simpa using h2
          have : ((c :: cs).dropWhile (fun x => !isspace x)).length ≤ cs.length := by
            rw [List.dropWhile_cons]
            simp only [hc, Bool.not_false, if_true]
            exact dropWhile_length_le _ cs
          omega
        rw [count_words_word c cs hc, ← ih _ hl1]
        simp [istream_distance, extract_string, IStream.good, IStream.fail, hne, hd]

/-- The value `num_words` of line 44 is the number of whitespace-delimited words of
the header. -/
theorem num_words_eq (line_header : Str) : num_words line_header = count_words true line_header := by
  unfold num_words
  have hws : ws (IStream.mk_open line_header)
      = ⟨line_header.dropWhile isspace, (line_header.dropWhile isspace).isEmpty, false⟩ := by
    simp only [ws, IStream.mk_open, IStream.good]
    cases hd : line_header.dropWhile isspace <;> simp
  rw [hws, istream_distance_eq _ _
    (by have := dropWhile_length_le isspace line_header; omega),
    ← count_words_dropWhile_space]

/-! ## The warning is given at most once -/

theorem processed_headers_nodup (hs : List Str) : ∀ seen : List Str,
    (∀ h ∈ hs, identifier h ∉ seen) → (hs.map identifier).Nodup →
    processed_headers seen hs = hs := by
  induction hs with
  | nil => intro _ _ _; rfl
  | cons h hs ih =>
    intro seen hseen hnd
    have hh : identifier h ∉ seen := hseen h (by simp)
    have hnd' : identifier h ∉ hs.map identifier ∧ (hs.map identifier).Nodup :=
      List.nodup_cons.1 hnd
    simp only [processed_headers, hh, if_false]
    rw [ih (identifier h :: seen) ?_ hnd'.2]
    intro x hx hm
    rcases List.mem_cons.1 hm with e | e
    · exact hnd'.1 (e ▸ List.mem_map_of_mem identifier hx)
    · exact hseen x (by simp [hx]) e

theorem processed_headers_dup (hs1 : List Str) (h : Str) (hs2 : List Str) :
    ∀ seen : List Str,
    (∀ x ∈ hs1, identifier x ∉ seen) → (hs1.map identifier).Nodup →
    (identifier h ∈ seen ∨ identifier h ∈ hs1.map identifier) →
    processed_headers seen (hs1 ++ h :: hs2) = hs1 ++ [h] := by
  induction hs1 with
  | nil =>
    intro seen _ _ hmem
    have : identifier h ∈ seen := by simpa using hmem
    simp [processed_headers, this]
  | cons x hs1 ih =>
    intro seen hseen hnd hmem
    have hx : identifier x ∉ seen := hseen x (by simp)
    have hnd' : identifier x ∉ hs1.map identifier ∧ (hs1.map identifier).Nodup :=
      List.nodup_cons.1 hnd
    show processed_headers seen (x :: (hs1 ++ h :: hs2)) = x :: (hs1 ++ [h])
    simp only [processed_headers, hx, if_false]
    rw [ih (identifier x :: seen) ?_ hnd'.2 ?_]
    · intro y hy hm
      rcases List.mem_cons.1 hm with e | e
      · exact hnd'.1 (e ▸ List.mem_map_of_mem identifier hy)
      · exact hseen y (by simp [hy]) e
    · rcases hmem with hm | hm
      · exact Or.inl (List.mem_cons_of_mem _ hm)
      · have hm' : identifier h ∈ identifier x :: hs1.map identifier := hm
        rcases List.mem_cons.1 hm' with e | e
        · exact Or.inl (by simp [e])
        · exact Or.inr e

theorem count_warning_ite (hs : List Str) :
    (if hs.any (fun h => decide (1 < num_words h)) = true then [Msg.warning] else []).count
        Msg.warning
      = if ∃ h ∈ hs, 1 < num_words h then 1 else 0 := by
  by_cases hex : ∃ h ∈ hs, 1 < num_words h
  · have : hs.any (fun h => decide (1 < num_words h)) = true := by
      simpa [List.any_eq_true] using hex
    simp [this, hex]
  · have : ¬ hs.any (fun h => decide (1 < num_words h)) = true := by
      simpa [List.any_eq_true] using hex
    simp [this, hex]

/-- The steps of `main` after the first pass add at most one message, which is not
the warning. -/
theorem finish_headers_count_warning (argv1 argv2 argv3 : Str) (b : Builder)
    (aligned : Option (List Str)) (writable : Bool) :
    (finish_headers argv1 argv2 argv3 b aligned writable).cout.count Msg.warning
      = b.cout.count Msg.warning := by
  unfold finish_headers
  cases aligned with
  | none => simp [List.count_append]
  | some hs =>
    cases writable with
    | false => simp [List.count_append]
    | true =>
      simp only [Bool.true_eq_false, if_false]
      rcases resolve_headers_cases argv1 hs ⟨b.map_read_order, [], b.cout⟩
        with ⟨_, e⟩ | ⟨_, _, _, _, _, _, e⟩
      · rw [e]
      · rw [e]; simp [List.count_append]

/-- The second pass leaves the number of warnings on `std::cout` as it found it. -/
theorem resolve_order_count_warning (argv1 content line_header : Str) (r0 : Resolver) :
    ∃ e, resolve_order argv1 content line_header r0 = some e ∧
      ∀ r', (e = .ok r' ∨ e = .error r') →
        r'.cout.count Msg.warning = r0.cout.count Msg.warning := by
  obtain ⟨ls, t, hls, ht, rfl⟩ := exists_lines content
  refine ⟨_, resolve_order_lines argv1 ls t line_header r0 hls ht, ?_⟩
  intro r' hr'
  rcases resolve_headers_cases argv1 (sec_headers ls) r0
    with ⟨_, e⟩ | ⟨_, _, _, _, _, _, e⟩
  · rw [e] at hr'
    rcases hr' with h | h
    · cases h; rfl
    · cases h
  · rw [e] at hr'
    rcases hr' with h | h
    · cases h
    · cases h; simp [List.count_append]

/-- C8 (the warning is given at most once). For a reference file made of the
newline-terminated lines `rl` (followed by an unterminated rest `t`), whatever the second
file is, the run writes the multi-word warning once when one of the headers handled by
the first pass (all headers up to and including the first one that repeats an identifier)
has more than one whitespace-delimited word (`count_words`, which `num_words_eq` shows to
be the value `num_words` of the program), and never otherwise. In particular a reference file with at
least one record whose headers all have several words gives exactly one warning, and
the second pass never adds a warning. -/
theorem warning_once (argv1 argv2 argv3 : Str) (rl : List Str) (t : Str)
    (hrl : ∀ l ∈ rl, IsLine l) (ht : IsLine t) (aligned : Option Str) (writable : Bool) :
    ∃ r, main argv1 argv2 argv3 (some (unlines rl ++ t)) aligned writable = some r ∧
      r.cout.count Msg.warning
        = (if ∃ h ∈ processed_headers [] (ref_headers rl), 1 < count_words true h then 1 else 0) ∧
      (ref_headers rl ≠ [] → (∀ h ∈ ref_headers rl, 1 < count_words true h) →
        r.cout.count Msg.warning = 1) ∧
      (∀ (content line_header : Str) (r0 : Resolver),
        ∃ e, resolve_order argv1 content line_header r0 = some e ∧
          ∀ r', (e = .ok r' ∨ e = .error r') →
            r'.cout.count Msg.warning = r0.cout.count Msg.warning) := by
  simp only [← num_words_eq]
  have key : ∃ r, main argv1 argv2 argv3 (some (unlines rl ++ t)) aligned writable = some r ∧
      r.cout.count Msg.warning
        = (if ∃ h ∈ processed_headers [] (ref_headers rl), 1 < num_words h then 1 else 0) := by
    by_cases hnd : ((ref_headers rl).map identifier).Nodup
    · obtain ⟨p2, rfl, h2⟩ := exists_file_text aligned
      refine ⟨_, main_nodup argv1 argv2 argv3 rl t hrl ht hnd p2 writable h2, ?_⟩
      rw [finish_headers_count_warning, processed_headers_nodup _ [] (by simp) hnd]
      simp only [warn_all_init_cout, count_warning_ite]
    · obtain ⟨hs1, h, hs2, hsplit, h1, h2⟩ := exists_first_dup identifier (ref_headers rl) hnd
      refine ⟨_, main_dup argv1 argv2 argv3 rl t hrl ht hs1 h hs2 hsplit h1 h2 aligned writable,
        ?_⟩
      rw [hsplit, processed_headers_dup hs1 h hs2 [] (by simp) h1 (Or.inr h2)]
      simp only [warn_all_init_cout, List.count_append, count_warning_ite]
      simp
  obtain ⟨r, hr, hcount⟩ := key
  refine ⟨r, hr, hcount, ?_, fun c lh r0 => resolve_order_count_warning argv1 c lh r0⟩
  intro hne hall
  rw [hcount, if_pos]
  cases hhs : ref_headers rl with
  | nil => exact absurd hhs hne
  | cons h hs =>
    refine ⟨h, ?_, hall h (by rw [hhs]; simp)⟩
    simp only [processed_headers, List.not_mem_nil, if_false]
    simp

/-- A reference file in which both headers have two words: one warning. -/
theorem warning_once_witness :
    ((∀ l ∈ sample_multiword, IsLine l) ∧ IsLine []) ∧
    (∃ r, main "ref.fastq".toList "new.fasta".toList "order.txt".toList
        (some (unlines sample_multiword ++ [])) (some (unlines sample_second)) true = some r ∧
      r.cout.count Msg.warning
        = (if ∃ h ∈ processed_headers [] (ref_headers sample_multiword), 1 < count_words true h
            then 1 else 0) ∧
      (ref_headers sample_multiword ≠ [] →
        (∀ h ∈ ref_headers sample_multiword, 1 < count_words true h) →
        r.cout.count Msg.warning = 1) ∧
      (∀ (content line_header : Str) (r0 : Resolver),
        ∃ e, resolve_order "ref.fastq".toList content line_header r0 = some e ∧
          ∀ r', (e = .ok r' ∨ e = .error r') →
            r'.cout.count Msg.warning = r0.cout.count Msg.warning)) ∧
    (ref_headers sample_multiword ≠ [] ∧
      ∀ h ∈ ref_headers sample_multiword, 1 < count_words true h) ∧
    (main "ref.fastq".toList "new.fasta".toList "order.txt".toList
        (some (unlines sample_multiword ++ [])) (some (unlines sample_second)) true).map
      (fun r => r.cout) = some [Msg.warning, Msg.unknown "r3".toList "ref.fastq".toList] :=
  ⟨⟨by decide, by decide⟩,
   warning_once _ _ _ sample_multiword [] (by decide) (by decide) _ _,
   ⟨by decide, by decide⟩,
   by decide⟩

/-! ## Only the first word of each header matters -/

/-- The headers of a reference file are its lines at the positions 0, 4, 8, ... -/
theorem ref_headers_getElem? (ls : List Str) : ∀ i : Nat, (ref_headers ls)[i]? = ls[4 * i]? := by
  induction ls using ref_headers.induct with
  | case1 => intro i; simp [ref_headers]
  | case2 h =>
    intro i
    cases i with
    | zero => simp [ref_headers]
    | succ j => simp [ref_headers, Nat.mul_succ]
  | case3 h x =>
    intro i
    cases i with
    | zero => simp [ref_headers]
    | succ j =>
      have : [h, x][4 * (j + 1)]? = none := List.getElem?_eq_none (by simp; omega)
      simp [ref_headers, this]
  | case4 h x y =>
    intro i
    cases i with
    | zero => simp [ref_headers]
    | succ j =>
      have : [h, x, y][4 * (j + 1)]? = none := List.getElem?_eq_none (by simp; omega)
      simp [ref_headers, this]
  | case5 h x y z rest ih =>
    intro i
    cases i with
    | zero => simp [ref_headers]
    | succ j =>
      have e : 4 * (j + 1) = 4 * j + 1 + 1 + 1 + 1 := by omega
      rw [e]
      simp only [ref_headers, List.getElem?_cons_succ, ih j]

/-- The headers of a second file are its lines at the positions 0, 2, 4, ... -/
theorem sec_headers_getElem? (ls : List Str) : ∀ i : Nat, (sec_headers ls)[i]? = ls[2 * i]? := by
  induction ls using sec_headers.induct with
  | case1 => intro i; simp [sec_headers]
  | case2 h =>
    intro i
    cases i with
    | zero => simp [sec_headers]
    | succ j => simp [sec_headers, Nat.mul_succ]
  | case3 h x rest ih =>
    intro i
    cases i with
    | zero => simp [sec_headers]
    | succ j =>
      have e : 2 * (j + 1) = 2 * j + 1 + 1 := by omega
      rw [e]
      simp only [sec_headers, List.getElem?_cons_succ, ih j]

theorem getElem?_map_congr (f : Str → Str) (l1 l2 : List Str) (k : Nat)
    (hlen : l1.length = l2.length)
    (h : ∀ (h1 : k < l1.length) (h2 : k < l2.length), f (l1.get ⟨k, h1⟩) = f (l2.get ⟨k, h2⟩)) :
    (l1[k]?).map f = (l2[k]?).map f := by
  by_cases hk : k < l1.length
  · have hk2 : k < l2.length := hlen ▸ hk
    rw [List.getElem?_eq_getElem hk, List.getElem?_eq_getElem hk2]
    simp only [Option.map_some', Option.some.injEq]
    exact h hk hk2
  · have hk2 : ¬ k < l2.length := hlen ▸ hk
    rw [List.getElem?_eq_none (by omega), List.getElem?_eq_none (by omega)]

theorem identifier_of_first_word (hs hs' : List Str)
    (h : hs.map first_word = hs'.map first_word) :
    hs.map identifier = hs'.map identifier := by
  have : ∀ l : List Str, l.map identifier = (l.map first_word).map (fun w => erase w 0 1) := by
    intro l; simp [identifier, Function.comp_def]
  rw [this hs, this hs', h]

theorem lookup_all_congr (m : UMap) (hs hs' : List Str)
    (h : hs.map identifier = hs'.map identifier) : lookup_all m hs = lookup_all m hs' := by
  have : ∀ l : List Str,
      lookup_all m l = (l.map identifier).map (fun k => (m.find k).getD 0) := by
    intro l; simp [lookup_all, Function.comp_def]
  rw [this hs, this hs', h]

theorem no_warning_warn_all (hs : List Str) (tail : List Msg) :
    no_warning ((warn_all hs Builder.init).cout ++ tail) = no_warning tail := by
  rw [warn_all_init_cout]
  split_ifs <;> simp [no_warning]

theorem no_warning_warn_all_nil (hs : List Str) :
    no_warning (warn_all hs Builder.init).cout = [] := by
  rw [warn_all_init_cout]
  split_ifs <;> simp [no_warning]

/-- Two runs on headers with the same identifiers differ at most by the warning. -/
theorem main_headers_congr (argv1 argv2 argv3 : Str) (hs hs' sec sec' : List Str)
    (writable : Bool)
    (hids : hs.map identifier = hs'.map identifier)
    (hsec : sec.map identifier = sec'.map identifier) :
    (main_headers argv1 argv2 argv3 (some hs) (some sec) writable).map_read_order
      = (main_headers argv1 argv2 argv3 (some hs') (some sec') writable).map_read_order ∧
    (main_headers argv1 argv2 argv3 (some hs) (some sec) writable).f_out
      = (main_headers argv1 argv2 argv3 (some hs') (some sec') writable).f_out ∧
    (main_headers argv1 argv2 argv3 (some hs) (some sec) writable).status
      = (main_headers argv1 argv2 argv3 (some hs') (some sec') writable).status ∧
    (main_headers argv1 argv2 argv3 (some hs) (some sec) writable).num_reads
      = (main_headers argv1 argv2 argv3 (some hs') (some sec') writable).num_reads ∧
    no_warning (main_headers argv1 argv2 argv3 (some hs) (some sec) writable).cout
      = no_warning (main_headers argv1 argv2 argv3 (some hs') (some sec') writable).cout := by
  have hlen : hs.length = hs'.length := by
    have := congrArg List.length hids
    simpa using this
  by_cases hnd : (hs.map identifier).Nodup
  · have hnd' : (hs'.map identifier).Nodup := hids ▸ hnd
    simp only [main_headers, index_headers_init argv1 hs hnd, index_headers_init argv1 hs' hnd',
      finish_headers]
    cases writable with
    | false => simp [hids, hlen, no_warning_warn_all]
    | true =>
      simp only [Bool.true_eq_false, if_false]
      rcases resolve_headers_cases argv1 sec
        ⟨numbered 1 (hs.map identifier), [], (warn_all hs Builder.init).cout⟩
        with ⟨hall, e⟩ | ⟨s1, x, s2, hsplit, h1, h2, e⟩
      · have hall' : ∀ h ∈ sec',
            (UMap.find (numbered 1 (hs'.map identifier)) (identifier h)).isSome = true := by
          intro h hh
          have hm : identifier h ∈ sec.map identifier := by
            rw [hsec]; exact List.mem_map_of_mem identifier hh
          obtain ⟨g, hg, hge⟩ := List.mem_map.1 hm
          have := hall g hg
          rw [hge] at this
          rw [← hids]; exact this
        rw [e, resolve_headers_found argv1 sec' _ hall']
        simp only [List.nil_append]
        rw [← hids, lookup_all_congr _ sec sec' hsec, hlen]
        simp [no_warning_warn_all_nil]
      · obtain ⟨s1', x', s2', hsplit', e1, e2, _⟩ :=
          map_eq_append_cons identifier (s1.map identifier) (identifier x) (s2.map identifier)
            sec' (by rw [← hsec, hsplit]; simp)
        have h1' : ∀ y ∈ s1',
            (UMap.find (numbered 1 (hs'.map identifier)) (identifier y)).isSome = true := by
          intro y hy
          have hm : identifier y ∈ s1.map identifier := by
            rw [← e1]; exact List.mem_map_of_mem identifier hy
          obtain ⟨g, hg, hge⟩ := List.mem_map.1 hm
          have := h1 g hg
          rw [hge] at this
          rw [← hids]; exact this
        have h2' : UMap.find (numbered 1 (hs'.map identifier)) (identifier x') = none := by
          rw [e2, ← hids]; exact h2
        rw [e, hsplit', resolve_headers_missing argv1 s1' x' s2' _ h1' h2']
        simp only [List.nil_append]
        rw [← hids, lookup_all_congr _ s1' s1 e1, hlen, e2]
        simp [no_warning_warn_all]
  · have hnd' : ¬ (hs'.map identifier).Nodup := hids ▸ hnd
    obtain ⟨hs1, h, hs2, rfl, h1, h2⟩ := exists_first_dup identifier hs hnd
    obtain ⟨hs1', h', hs2', rfl, e1, e2, _⟩ :=
      map_eq_append_cons identifier (hs1.map identifier) (identifier h) (hs2.map identifier)
        hs' (by rw [← hids]; simp)
    have hlen1 : hs1.length = hs1'.length := by
      have := congrArg List.length e1
      simpa using this.symm
    simp only [main_headers, index_headers_init_dup argv1 hs1 h hs2 h1 h2,
      index_headers_init_dup argv1 hs1' h' hs2' (e1 ▸ h1) (by rw [e1, e2]; exact h2)]
    simp [e1, e2, hlen1, no_warning_warn_all]

/-- C9 (payload and extra header words do not matter). Two reference files with the same
number of newline-terminated lines whose lines at the positions 0, 4, 8, ... have the
same first word, and two second files with the same number of newline-terminated lines
whose lines at the positions 0, 2, 4, ... have the same first word, give (under the same
command line) the same table, the same output file, the same exit status, the same
record count and the same messages apart from the warning. -/
theorem payload_irrelevant (argv1 argv2 argv3 : Str) (rl1 rl2 sl1 sl2 : List Str)
    (writable : Bool)
    (hrl1 : ∀ l ∈ rl1, IsLine l) (hrl2 : ∀ l ∈ rl2, IsLine l)
    (hsl1 : ∀ l ∈ sl1, IsLine l) (hsl2 : ∀ l ∈ sl2, IsLine l)
    (hrlen : rl1.length = rl2.length)
    (hrword : ∀ (i : Nat) (h1 : i < rl1.length) (h2 : i < rl2.length), i % 4 = 0 →
      first_word (rl1.get ⟨i, h1⟩) = first_word (rl2.get ⟨i, h2⟩))
    (hslen : sl1.length = sl2.length)
    (hsword : ∀ (i : Nat) (h1 : i < sl1.length) (h2 : i < sl2.length), i % 2 = 0 →
      first_word (sl1.get ⟨i, h1⟩) = first_word (sl2.get ⟨i, h2⟩)) :
    ∃ r1 r2,
      main argv1 argv2 argv3 (some (unlines rl1)) (some (unlines sl1)) writable = some r1 ∧
      main argv1 argv2 argv3 (some (unlines rl2)) (some (unlines sl2)) writable = some r2 ∧
      r1.map_read_order = r2.map_read_order ∧ r1.f_out = r2.f_out ∧
      r1.status = r2.status ∧ r1.num_reads = r2.num_reads ∧
      no_warning r1.cout = no_warning r2.cout := by
  have hm1 := main_of_lines argv1 argv2 argv3 rl1 sl1 [] [] writable hrl1 hsl1 isLine_nil
    isLine_nil
  have hm2 := main_of_lines argv1 argv2 argv3 rl2 sl2 [] [] writable hrl2 hsl2 isLine_nil
    isLine_nil
  simp only [List.append_nil] at hm1 hm2
  have hids : (ref_headers rl1).map identifier = (ref_headers rl2).map identifier := by
    apply identifier_of_first_word
    apply List.ext_getElem?
    intro i
    simp only [List.getElem?_map, ref_headers_getElem?]
    exact getElem?_map_congr first_word rl1 rl2 (4 * i) hrlen
      (fun h1 h2 => hrword (4 * i) h1 h2 (by omega))
  have hsec : (sec_headers sl1).map identifier = (sec_headers sl2).map identifier := by
    apply identifier_of_first_word
    apply List.ext_getElem?
    intro i
    simp only [List.getElem?_map, sec_headers_getElem?]
    exact getElem?_map_congr first_word sl1 sl2 (2 * i) hslen
      (fun h1 h2 => hsword (2 * i) h1 h2 (by omega))
  exact ⟨_, _, hm1, hm2, main_headers_congr argv1 argv2 argv3 _ _ _ _ writable hids hsec⟩

/-- The sample files against variants with other payload lines, extra header words and
leading blanks: same table, same output, same status. -/
theorem payload_irrelevant_witness :
    ((∀ l ∈ sample_reference, IsLine l) ∧ (∀ l ∈ sample_reference_variant, IsLine l) ∧
      (∀ l ∈ sample_second, IsLine l) ∧ (∀ l ∈ sample_second_variant, IsLine l) ∧
      sample_reference.length = sample_reference_variant.length ∧
      (∀ (i : Nat) (h1 : i < sample_reference.length)
        (h2 : i < sample_reference_variant.length), i % 4 = 0 →
        first_word (sample_reference.get ⟨i, h1⟩)
          = first_word (sample_reference_variant.get ⟨i, h2⟩)) ∧
      sample_second.length = sample_second_variant.length ∧
      (∀ (i : Nat) (h1 : i < sample_second.length)
        (h2 : i < sample_second_variant.length), i % 2 = 0 →
        first_word (sample_second.get ⟨i, h1⟩)
          = first_word (sample_second_variant.get ⟨i, h2⟩))) ∧
    (∃ r1 r2,
      main "ref.fastq".toList "new.fasta".toList "order.txt".toList
        (some (unlines sample_reference)) (some (unlines sample_second)) true = some r1 ∧
      main "ref.fastq".toList "new.fasta".toList "order.txt".toList
        (some (unlines sample_reference_variant)) (some (unlines sample_second_variant)) true
        = some r2 ∧
      r1.map_read_order = r2.map_read_order ∧ r1.f_out = r2.f_out ∧
      r1.status = r2.status ∧ r1.num_reads = r2.num_reads ∧
      no_warning r1.cout = no_warning r2.cout) ∧
    main "ref.fastq".toList "new.fasta".toList "order.txt".toList
        (some (unlines sample_reference_variant)) (some (unlines sample_second_variant)) true
      = some ⟨0, [Msg.warning], some "3\n1\n".toList,
          [("r1".toList, 1), ("r2".toList, 2), ("r3".toList, 3)], 3⟩ :=
  ⟨⟨by decide, by decide, by decide, by decide, by decide, by decide, by decide, by decide⟩,
   payload_irrelevant _ _ _ sample_reference sample_reference_variant sample_second
     sample_second_variant true (by decide) (by decide) (by decide) (by decide) (by decide)
     (by decide) (by decide) (by decide),
   by decide⟩

/-! ## The table while it is being built -/

theorem build_iterate_one (argv1 : Str) (f : IStream) (lh : Str) (b : Builder) :
    build_iterate argv1 1 (f, lh, b)
      = if f.eof then none
        else match index_record argv1 lh b with
          | .error _ => none
          | .ok b' => some ((next_record4 f lh).1, (next_record4 f lh).2, b') := by
  rw [build_iterate]
  by_cases hf : f.eof = true
  · simp [hf]
  · simp only [hf, if_false]
    cases index_record argv1 lh b <;> rfl

/-- One more iteration is an iteration after the others. -/
theorem build_iterate_succ (argv1 : Str) (k : Nat) : ∀ s : IStream × Str × Builder,
    build_iterate argv1 (k + 1) s = (build_iterate argv1 k s).bind (build_iterate argv1 1) := by
  induction k with
  | zero => intro s; simp [build_iterate]
  | succ k ih =>
    intro s
    obtain ⟨f, lh, b⟩ := s
    rw [build_iterate]
    conv_rhs => rw [build_iterate]
    split_ifs
    · rfl
    · cases index_record argv1 lh b with
      | error b' => rfl
      | ok b' => exact ih _

/-- The states of `build_iterate` are the states the loop of the first pass goes
through. -/
theorem build_loop_iterate (argv1 : Str) (k : Nat) : ∀ (fuel : Nat) (f : IStream) (lh : Str)
    (b : Builder) (f' : IStream) (lh' : Str) (b' : Builder),
    build_iterate argv1 k (f, lh, b) = some (f', lh', b') →
    build_loop argv1 (fuel + k) f lh b = build_loop argv1 fuel f' lh' b' := by
  induction k with
  | zero =>
    intro fuel f lh b f' lh' b' h
    simp only [build_iterate, Option.some.injEq, Prod.mk.injEq] at h
    obtain ⟨rfl, rfl, rfl⟩ := h
    rfl
  | succ k ih =>
    intro fuel f lh b f' lh' b' h
    rw [build_iterate] at h
    rw [← Nat.add_assoc, build_loop]
    by_cases hf : f.eof = true
    · simp [hf] at h
    · simp only [hf, if_false] at h ⊢
      cases hrec : index_record argv1 lh b with
      | error e => rw [hrec] at h; simp at h
      | ok e =>
        rw [hrec] at h
        exact ih fuel _ _ _ _ _ _ h

theorem find_append_left (m : UMap) (k : Str) (v : Nat) (e : Str × Nat)
    (h : m.find k = some v) : UMap.find (m ++ [e]) k = some v := by
  induction m with
  | nil => simp [UMap.find] at h
  | cons x m ih =>
    obtain ⟨k', v'⟩ := x
    by_cases hk : k' = k
    · simp only [UMap.find, hk, if_true] at h
      simp [UMap.find, hk, h]
    · simp only [UMap.find, hk, if_false] at h
      simp [UMap.find, hk, ih h]

/-- From a state whose table numbers pairwise distinct identifiers, a successful
iteration appends the identifier of the header with the next number. -/
theorem build_iterate_one_inv (argv1 : Str) (f : IStream) (lh : Str) (b : Builder)
    (f' : IStream) (lh' : Str) (b' : Builder) (pre : List Str)
    (hpre : pre.Nodup) (hm : b.map_read_order = numbered 1 pre) (hn : b.num_reads = pre.length)
    (h : build_iterate argv1 1 (f, lh, b) = some (f', lh', b')) :
    (pre ++ [identifier lh]).Nodup ∧
    b'.map_read_order = numbered 1 (pre ++ [identifier lh]) ∧
    b'.num_reads = pre.length + 1 := by
  rw [build_iterate_one] at h
  by_cases hf : f.eof = true
  · simp [hf] at h
  · simp only [hf, if_false] at h
    by_cases hid : identifier lh ∈ pre
    · rw [index_record_dup argv1 lh b pre hm hn hid] at h
      simp at h
    · rw [index_record_fresh argv1 lh b pre hm hn hid] at h
      simp only [Option.some.injEq, Prod.mk.injEq] at h
      obtain ⟨_, _, rfl⟩ := h
      refine ⟨?_, rfl, rfl⟩
      rw [List.nodup_append]
      refine ⟨hpre, by simp, ?_⟩
      intro a ha hb
      simp at hb
      subst hb
      exact hid ha

/-- After `k` successful iterations the table numbers `k` pairwise distinct
identifiers from 1 to `k` and the counter is `k`. -/
theorem build_iterate_inv (argv1 content : Str) (k : Nat) :
    ∀ (f : IStream) (lh : Str) (b : Builder),
    build_iterate argv1 k (build_start content) = some (f, lh, b) →
    ∃ pre : List Str, pre.length = k ∧ pre.Nodup ∧
      b.map_read_order = numbered 1 pre ∧ b.num_reads = k := by
  induction k with
  | zero =>
    intro f lh b h
    simp only [build_iterate, build_start, Option.some.injEq, Prod.mk.injEq] at h
    obtain ⟨_, _, rfl⟩ := h
    exact ⟨[], rfl, List.nodup_nil, rfl, rfl⟩
  | succ k ih =>
    intro f lh b h
    rw [build_iterate_succ] at h
    cases hk : build_iterate argv1 k (build_start content) with
    | none => rw [hk] at h; simp at h
    | some s =>
      obtain ⟨f0, lh0, b0⟩ := s
      rw [hk] at h
      simp only [Option.some_bind] at h
      obtain ⟨pre, hlen, hnd, hm, hn⟩ := ih f0 lh0 b0 hk
      obtain ⟨h1, h2, h3⟩ :=
        build_iterate_one_inv argv1 f0 lh0 b0 f lh b pre hnd hm (by rw [hn, hlen]) h
      exact ⟨pre ++ [identifier lh0], by simp [hlen], h1, h2, by rw [h3, hlen]⟩

theorem find_numbered_some (pre : List Str) (key : Str) (v : Nat)
    (h : UMap.find (numbered 1 pre) key = some v) : key ∈ pre ∧ v = order_number pre key := by
  rw [find_numbered] at h
  by_cases hk : key ∈ pre
  · simp only [hk, if_true, Option.some.injEq] at h
    have := order_number_pos pre key
    exact ⟨hk, by omega⟩
  · simp [hk] at h

/-- C10 (index invariant during construction). After every iteration of the loop of the
first pass that does not fail, here the iteration number `k + 1`, on any file: the
record counter is `n = k + 1`; the table has `n` entries with pairwise distinct keys;
its values are exactly the numbers 1, ..., n; two keys with the same value are equal;
and the table is the table before the iteration followed by one new entry, so that
every entry present before is still present with the same value. -/
theorem index_invariant (argv1 content : Str) (k : Nat) (f : IStream) (line_header : Str)
    (b : Builder)
    (h : build_iterate argv1 (k + 1) (build_start content) = some (f, line_header, b)) :
    b.num_reads = k + 1 ∧
    b.map_read_order.length = b.num_reads ∧
    (b.map_read_order.map Prod.fst).Nodup ∧
    (∀ v, v ∈ b.map_read_order.map Prod.snd ↔ 1 ≤ v ∧ v ≤ b.num_reads) ∧
    (∀ k1 k2 v, b.map_read_order.find k1 = some v → b.map_read_order.find k2 = some v →
      k1 = k2) ∧
    ∃ f0 lh0 b0, build_iterate argv1 k (build_start content) = some (f0, lh0, b0) ∧
      b.map_read_order = b0.map_read_order ++ [(identifier lh0, k + 1)] ∧
      (∀ key v, b0.map_read_order.find key = some v → b.map_read_order.find key = some v) := by
  obtain ⟨pre, hlen, hnd, hm, hn⟩ := build_iterate_inv argv1 content (k + 1) f line_header b h
  refine ⟨hn, ?_, ?_, ?_, ?_, ?_⟩
  · rw [hm, hn, length_numbered, hlen]
  · rw [hm, keys_numbered]; exact hnd
  · intro v
    rw [hm, hn, values_numbered, hlen, List.mem_range'_1]
    omega
  · intro k1 k2 v h1 h2
    rw [hm] at h1 h2
    obtain ⟨m1, e1⟩ := find_numbered_some pre k1 v h1
    obtain ⟨m2, e2⟩ := find_numbered_some pre k2 v h2
    have g1 := order_number_get pre k1 m1
    have g2 := order_number_get pre k2 m2
    rw [← e1] at g1
    rw [← e2, g1] at g2
    exact Option.some.inj g2
  · rw [build_iterate_succ] at h
    cases hk : build_iterate argv1 k (build_start content) with
    | none => rw [hk] at h; simp at h
    | some s =>
      obtain ⟨f0, lh0, b0⟩ := s
      rw [hk] at h
      simp only [Option.some_bind] at h
      obtain ⟨pre0, hlen0, hnd0, hm0, hn0⟩ := build_iterate_inv argv1 content k f0 lh0 b0 hk
      obtain ⟨_, h2, _⟩ :=
        build_iterate_one_inv argv1 f0 lh0 b0 f line_header b pre0 hnd0 hm0
          (by rw [hn0, hlen0]) h
      have happ : b.map_read_order = b0.map_read_order ++ [(identifier lh0, k + 1)] := by
        rw [h2, hm0, numbered_append, hlen0]
        simp [numbered, Nat.add_comm]
      refine ⟨f0, lh0, b0, rfl, happ, ?_⟩
      intro key v hv
      rw [happ]
      exact find_append_left _ _ _ _ hv

/-- The second iteration on the sample reference file: the table r1:1 grows into
r1:1, r2:2. -/
theorem index_invariant_witness :
    build_iterate "ref.fastq".toList (1 + 1) (build_start (unlines sample_reference))
      = some (⟨"TTAC\n+\nIIII\n".toList, false, false⟩, "@r3".toList,
          ⟨[("r1".toList, 1), ("r2".toList, 2)], 2, false, []⟩) ∧
    ((2 : Nat) = 1 + 1 ∧
      ([("r1".toList, 1), ("r2".toList, 2)] : UMap).length = 2 ∧
      (([("r1".toList, 1), ("r2".toList, 2)] : UMap).map Prod.fst).Nodup ∧
      (∀ v, v ∈ ([("r1".toList, 1), ("r2".toList, 2)] : UMap).map Prod.snd ↔ 1 ≤ v ∧ v ≤ 2) ∧
      (∀ k1 k2 v, UMap.find [("r1".toList, 1), ("r2".toList, 2)] k1 = some v →
        UMap.find [("r1".toList, 1), ("r2".toList, 2)] k2 = some v → k1 = k2) ∧
      ∃ f0 lh0 b0,
        build_iterate "ref.fastq".toList 1 (build_start (unlines sample_reference))
          = some (f0, lh0, b0) ∧
        ([("r1".toList, 1), ("r2".toList, 2)] : UMap)
          = b0.map_read_order ++ [(identifier lh0, 1 + 1)] ∧
        (∀ key v, b0.map_read_order.find key = some v →
          UMap.find [("r1".toList, 1), ("r2".toList, 2)] key = some v)) :=
  ⟨by decide,
   index_invariant "ref.fastq".toList (unlines sample_reference) 1
     ⟨"TTAC\n+\nIIII\n".toList, false, false⟩ "@r3".toList
     ⟨[("r1".toList, 1), ("r2".toList, 2)], 2, false, []⟩ (by decide)⟩

/-! ## The two passes read records of different lengths -/

theorem sec_headers_plus (h s sep : Str) (rest : List Str) :
    ∃ tl, sec_headers (h :: s :: sep :: rest) = [h] ++ sep :: tl := by
  cases rest with
  | nil => exact ⟨[], by simp [sec_headers]⟩
  | cons q more => exact ⟨sec_headers more, by simp [sec_headers]⟩

/-- C11 (record-cadence asymmetry). The first pass handles the lines at the positions
0, 4, 8, ... of the reference file (it is `index_headers`, the loop body folded over
`ref_headers`), the second pass the lines at the positions 0, 2, 4, ... of the second file
(`resolve_headers` over `sec_headers`). Hence, for a second file whose lines start with a
header of known identifier, a sequence line and the separator line `+`: the separator
is the second header, its identifier is empty, and when the empty string is not a key
of the index the run fails with the unknown-identifier error for the empty identifier
after writing exactly one line, the number of the first header. -/
theorem cadence_asymmetry (argv1 argv2 argv3 : Str) (rl : List Str) (h s : Str)
    (rest : List Str)
    (hrl : ∀ l ∈ rl, IsLine l) (hh : IsLine h) (hs : IsLine s) (hrest : ∀ l ∈ rest, IsLine l)
    (hnd : ((ref_headers rl).map identifier).Nodup)
    (hknown : identifier h ∈ (ref_headers rl).map identifier)
    (hempty : [] ∉ (ref_headers rl).map identifier) :
    ((build_index argv1 (unlines rl)).map (Except.map Prod.snd)
        = some (index_headers argv1 (ref_headers rl) Builder.init) ∧
      ∀ i : Nat, (ref_headers rl)[i]? = rl[4 * i]?) ∧
    ((∀ (line_header : Str) (r0 : Resolver),
        resolve_order argv1 (unlines (h :: s :: "+".toList :: rest)) line_header r0
          = some (resolve_headers argv1 (sec_headers (h :: s :: "+".toList :: rest)) r0)) ∧
      ∀ i : Nat, (sec_headers (h :: s :: "+".toList :: rest))[i]?
        = (h :: s :: "+".toList :: rest)[2 * i]?) ∧
    (sec_headers (h :: s :: "+".toList :: rest))[1]? = some "+".toList ∧
    identifier "+".toList = [] ∧
    ∃ r, main argv1 argv2 argv3 (some (unlines rl))
        (some (unlines (h :: s :: "+".toList :: rest))) true = some r ∧
      r.status = 1 ∧ r.cout.getLast? = some (Msg.unknown [] argv1) ∧
      r.f_out = some (order_lines [order_number ((ref_headers rl).map identifier)
        (identifier h)]) ∧
      (order_lines [order_number ((ref_headers rl).map identifier) (identifier h)]).count '\n'
        = 1 := by
  have hsl : ∀ l ∈ h :: s :: "+".toList :: rest, IsLine l := by
    intro l hl
    simp only [List.mem_cons] at hl
    rcases hl with rfl | rfl | rfl | hl
    · exact hh
    · exact hs
    · decide
    · exact hrest l hl
  have hid : identifier "+".toList = [] := by decide
  refine ⟨⟨?_, ref_headers_getElem? rl⟩, ⟨?_, sec_headers_getElem? _⟩, ?_, hid, ?_⟩
  · have := build_index_lines argv1 rl [] hrl isLine_nil
    rwa [List.append_nil] at this
  · intro lh r0
    have := resolve_order_lines argv1 _ [] lh r0 hsl isLine_nil
    rwa [List.append_nil] at this
  · rw [sec_headers_getElem?]; simp
  · obtain ⟨tl, htl⟩ := sec_headers_plus h s "+".toList rest
    have hm := main_nodup argv1 argv2 argv3 rl [] hrl isLine_nil hnd
      (some (h :: s :: "+".toList :: rest, [])) true (by rintro p ⟨⟩; exact ⟨hsl, isLine_nil⟩)
    simp only [List.append_nil, Option.map_some', file_text] at hm
    refine ⟨_, hm, ?_⟩
    simp only [finish_headers, Bool.true_eq_false, if_false, htl]
    rw [resolve_headers_missing argv1 [h] "+".toList tl _
      (by
        intro x hx
        simp only [List.mem_singleton] at hx
        subst hx
        exact (find_numbered_isSome _ _ _).2 hknown)
      (by
        rw [hid]
        exact (find_numbered_none _ _ _).2 hempty)]
    rw [hid]
    refine ⟨rfl, by simp, ?_, count_order_lines _⟩
    simp only [List.nil_append]
    rw [lookup_all_numbered _ [h] (by
      intro x hx
      simp only [List.mem_singleton] at hx
      subst hx
      exact hknown)]
    simp

/-- The sample reference file and a second file in the 4-line format: the line `3` is
written, then the separator is taken for a header and the run fails. -/
theorem cadence_asymmetry_witness :
    ((∀ l ∈ sample_reference, IsLine l) ∧ IsLine "@r3".toList ∧ IsLine "TTAC".toList ∧
      (∀ l ∈ ["IIII".toList, "@r1".toList, "ACGT".toList, "+".toList, "IIII".toList],
        IsLine l) ∧
      ((ref_headers sample_reference).map identifier).Nodup ∧
      identifier "@r3".toList ∈ (ref_headers sample_reference).map identifier ∧
      [] ∉ (ref_headers sample_reference).map identifier) ∧
    (∃ r, main "ref.fastq".toList "new.fasta".toList "order.txt".toList
        (some (unlines sample_reference)) (some (unlines sample_second_fastq)) true = some r ∧
      r.status = 1 ∧ r.cout.getLast? = some (Msg.unknown [] "ref.fastq".toList) ∧
      r.f_out = some (order_lines [order_number ((ref_headers sample_reference).map identifier)
        (identifier "@r3".toList)]) ∧
      (order_lines [order_number ((ref_headers sample_reference).map identifier)
        (identifier "@r3".toList)]).count '\n' = 1) ∧
    main "ref.fastq".toList "new.fasta".toList "order.txt".toList
        (some (unlines sample_reference)) (some (unlines sample_second_fastq)) true
      = some ⟨1, [Msg.unknown [] "ref.fastq".toList], some "3\n".toList,
          [("r1".toList, 1), ("r2".toList, 2), ("r3".toList, 3)], 3⟩ :=
  ⟨⟨by decide, by decide, by decide, by decide, by decide, by decide, by decide⟩,
   (cadence_asymmetry "ref.fastq".toList "new.fasta".toList "order.txt".toList sample_reference
     "@r3".toList "TTAC".toList
     ["IIII".toList, "@r1".toList, "ACGT".toList, "+".toList, "IIII".toList]
     (by decide) (by decide) (by decide) (by decide) (by decide) (by decide) (by decide)).2.2.2.2,
   by decide⟩

/-! ## Termination and the number of records handled -/

/-- A file of `L` lines has `⌈L / 4⌉` lines at the positions 0, 4, 8, ... -/
theorem length_ref_headers (ls : List Str) : (ref_headers ls).length = (ls.length + 3) / 4 := by
  induction ls using ref_headers.induct with
  | case1 => rfl
  | case2 h => simp [ref_headers]
  | case3 h x => simp [ref_headers]
  | case4 h x y => simp [ref_headers]
  | case5 h x y z rest ih =>
    simp only [ref_headers, List.length_cons, ih]
    omega

/-- A file of `L` lines has `⌈L / 2⌉` lines at the positions 0, 2, 4, ... -/
theorem length_sec_headers (ls : List Str) : (sec_headers ls).length = (ls.length + 1) / 2 := by
  induction ls using sec_headers.induct with
  | case1 => rfl
  | case2 h => simp [sec_headers]
  | case3 h x rest ih =>
    simp only [sec_headers, List.length_cons, ih]
    omega

theorem mem_ref_headers_of_getElem? (ls : List Str) (i : Nat) (h : Str)
    (hi : ls[4 * i]? = some h) : h ∈ ref_headers ls := by
  rw [← ref_headers_getElem?] at hi
  exact List.getElem?_mem hi

/-- The first pass on a file of lines: what it returns, from the headers. -/
theorem build_index_cases (argv1 : Str) (rl : List Str) (t : Str)
    (hrl : ∀ l ∈ rl, IsLine l) (ht : IsLine t) :
    (((ref_headers rl).map identifier).Nodup ∧
      ∃ lh, build_index argv1 (unlines rl ++ t) = some (.ok (lh,
        { warn_all (ref_headers rl) Builder.init with
          map_read_order := numbered 1 ((ref_headers rl).map identifier),
          num_reads := (ref_headers rl).length }))) ∨
    (¬ ((ref_headers rl).map identifier).Nodup ∧
      ∃ hs1 h hs2, ref_headers rl = hs1 ++ h :: hs2 ∧ (hs1.map identifier).Nodup ∧
        identifier h ∈ hs1.map identifier ∧
        build_index argv1 (unlines rl ++ t) = some (.error
          { warn_all (hs1 ++ [h]) Builder.init with
            map_read_order := numbered 1 (hs1.map identifier),
            num_reads := hs1.length + 1,
            cout := (warn_all (hs1 ++ [h]) Builder.init).cout
              ++ [Msg.duplicate (identifier h) argv1] })) := by
  have hb := build_index_lines argv1 rl t hrl ht
  by_cases hnd : ((ref_headers rl).map identifier).Nodup
  · left
    refine ⟨hnd, ?_⟩
    rw [index_headers_init argv1 _ hnd] at hb
    cases hbi : build_index argv1 (unlines rl ++ t) with
    | none => rw [hbi] at hb; exact Option.noConfusion hb
    | some e =>
      rw [hbi] at hb
      cases e with
      | error b => simp [Except.map] at hb
      | ok p =>
        obtain ⟨lh, b⟩ := p
        simp only [Option.map_some', Except.map, Option.some.injEq, Except.ok.injEq] at hb
        subst hb
        exact ⟨lh, rfl⟩
  · right
    obtain ⟨hs1, h, hs2, hsplit, h1, h2⟩ := exists_first_dup identifier (ref_headers rl) hnd
    refine ⟨hnd, hs1, h, hs2, hsplit, h1, h2, ?_⟩
    rw [hsplit, index_headers_init_dup argv1 hs1 h hs2 h1 h2] at hb
    cases hbi : build_index argv1 (unlines rl ++ t) with
    | none => rw [hbi] at hb; exact Option.noConfusion hb
    | some e =>
      rw [hbi] at hb
      cases e with
      | error b =>
        simp only [Option.map_some', Except.map, Option.some.injEq, Except.error.injEq] at hb
        subst hb
        rfl
      | ok p => simp [Except.map] at hb

/-- C12, as stated, fails: a reference file of twelve newline-terminated lines, hence
with three header lines, whose second header repeats the first. The first pass stops at
the second header: the record counter is 2, not 3, and the table has one entry. -/
theorem scan_counts_counterexample :
    (∀ l ∈ sample_duplicate_early, IsLine l) ∧ sample_duplicate_early.length = 12 ∧
    ∃ b, build_index "ref.fastq".toList (unlines sample_duplicate_early) = some (.error b) ∧
      b.num_reads = 2 ∧ b.map_read_order = [("r1".toList, 1)] ∧
      b.num_reads ≠ (sample_duplicate_early.length + 3) / 4 :=
  ⟨by decide, by decide,
   ⟨[("r1".toList, 1)], 2, false, [Msg.duplicate "r1".toList "ref.fastq".toList]⟩,
   rfl, rfl, rfl, by decide⟩

/-- C12, amended. Both loops terminate on every input. For a reference file of `L`
newline-terminated lines the first pass handles `⌈L / 4⌉` headers unless it fails
earlier on a repeated identifier: it ends normally exactly when the identifiers are
pairwise distinct, then the counter is `⌈L / 4⌉` and every header is indexed, also the
header of a final record cut after 1, 2 or 3 lines; when it fails, the counter is the
number of headers up to and including the first repetition, at most `⌈L / 4⌉`. The empty
file gives the empty table without error. For a second file of `L` newline-terminated
lines the second pass writes `⌈L / 2⌉` lines, one per header, unless it fails earlier,
and then it has written fewer. -/
theorem scan_counts (argv1 : Str) (rl sl : List Str)
    (hrl : ∀ l ∈ rl, IsLine l) (hsl : ∀ l ∈ sl, IsLine l) :
    (∀ content : Str, ∃ e, build_index argv1 content = some e) ∧
    (∀ (content line_header : Str) (r0 : Resolver),
      ∃ e, resolve_order argv1 content line_header r0 = some e) ∧
    (∃ e, build_index argv1 (unlines rl) = some e ∧
      ((∃ lh b, e = .ok (lh, b)) ↔ ((ref_headers rl).map identifier).Nodup) ∧
      (∀ lh b, e = .ok (lh, b) →
        b.num_reads = (rl.length + 3) / 4 ∧
        b.map_read_order.map Prod.fst = (ref_headers rl).map identifier) ∧
      (∀ b, e = .error b →
        b.num_reads = (processed_headers [] (ref_headers rl)).length ∧
        b.num_reads ≤ (rl.length + 3) / 4)) ∧
    (∀ (i : Nat) (h : Str), rl[4 * i]? = some h → h ∈ ref_headers rl) ∧
    build_index argv1 [] = some (.ok ([], Builder.init)) ∧
    (∀ (line_header : Str) (r0 : Resolver),
      ∃ e, resolve_order argv1 (unlines sl) line_header r0 = some e ∧
        (∀ r, e = .ok r →
          ∃ vs, r.f_out = r0.f_out ++ order_lines vs ∧ vs.length = (sl.length + 1) / 2) ∧
        (∀ r, e = .error r →
          ∃ vs, r.f_out = r0.f_out ++ order_lines vs ∧ vs.length + 1 ≤ (sl.length + 1) / 2)) := by
  refine ⟨?_, ?_, ?_, mem_ref_headers_of_getElem? rl, rfl, ?_⟩
  · intro content
    cases h : build_index argv1 content with
    | none => exact absurd h (build_index_total argv1 content)
    | some e => exact ⟨e, rfl⟩
  · intro content lh r0
    cases h : resolve_order argv1 content lh r0 with
    | none => exact absurd h (resolve_order_total argv1 content lh r0)
    | some e => exact ⟨e, rfl⟩
  · have hc := build_index_cases argv1 rl [] hrl isLine_nil
    rw [List.append_nil] at hc
    rcases hc with ⟨hnd, lh, e⟩ | ⟨hnd, hs1, h, hs2, hsplit, h1, h2, e⟩
    · refine ⟨_, e, ⟨fun _ => hnd, fun _ => ⟨_, _, rfl⟩⟩, ?_, ?_⟩
      · intro lh' b hb
        simp only [Except.ok.injEq, Prod.mk.injEq] at hb
        rw [← hb.2]
        exact ⟨length_ref_headers rl, keys_numbered _ _⟩
      · intro b hb; cases hb
    · refine ⟨_, e, ⟨?_, fun hn => absurd hn hnd⟩, ?_, ?_⟩
      · rintro ⟨lh, b, hb⟩; cases hb
      · intro lh b hb; cases hb
      · intro b hb
        simp only [Except.error.injEq] at hb
        rw [← hb]
        have hp : processed_headers [] (ref_headers rl) = hs1 ++ [h] := by
          rw [hsplit]
          exact processed_headers_dup hs1 h hs2 [] (by simp) h1 (Or.inr h2)
        have hl := length_ref_headers rl
        rw [hsplit] at hl
        simp only [List.length_append, List.length_cons] at hl
        refine ⟨by simp [hp], ?_⟩
        show hs1.length + 1 ≤ (rl.length + 3) / 4
        omega
  · intro lh r0
    have hr := resolve_order_lines argv1 sl [] lh r0 hsl isLine_nil
    rw [List.append_nil] at hr
    refine ⟨_, hr, ?_, ?_⟩
    · intro r hok
      rcases resolve_headers_cases argv1 (sec_headers sl) r0
        with ⟨_, e⟩ | ⟨_, _, _, _, _, _, e⟩
      · rw [e] at hok
        simp only [Except.ok.injEq] at hok
        rw [← hok]
        exact ⟨_, rfl, by simp [lookup_all, length_sec_headers]⟩
      · rw [e] at hok; cases hok
    · intro r herr
      rcases resolve_headers_cases argv1 (sec_headers sl) r0
        with ⟨_, e⟩ | ⟨hs1, h, hs2, hsplit, _, _, e⟩
      · rw [e] at herr; cases herr
      · rw [e] at herr
        simp only [Except.error.injEq] at herr
        rw [← herr]
        have hl := length_sec_headers sl
        rw [hsplit] at hl
        simp only [List.length_append, List.length_cons] at hl
        refine ⟨_, rfl, ?_⟩
        simp only [lookup_all, List.length_map]
        omega

/-- A reference file whose last record has only two lines: both headers are indexed. -/
theorem scan_counts_witness :
    ((∀ l ∈ sample_truncated, IsLine l) ∧ (∀ l ∈ sample_unknown, IsLine l)) ∧
    (∃ e, build_index "ref.fastq".toList (unlines sample_truncated) = some e ∧
      ((∃ lh b, e = .ok (lh, b)) ↔ ((ref_headers sample_truncated).map identifier).Nodup) ∧
      (∀ lh b, e = .ok (lh, b) →
        b.num_reads = (sample_truncated.length + 3) / 4 ∧
        b.map_read_order.map Prod.fst = (ref_headers sample_truncated).map identifier) ∧
      (∀ b, e = .error b →
        b.num_reads = (processed_headers [] (ref_headers sample_truncated)).length ∧
        b.num_reads ≤ (sample_truncated.length + 3) / 4)) ∧
    build_index "ref.fastq".toList (unlines sample_truncated)
      = some (.ok ([], ⟨[("r1".toList, 1), ("r2".toList, 2)], 2, false, []⟩)) ∧
    (sample_truncated.length + 3) / 4 = 2 :=
  ⟨⟨by decide, by decide⟩,
   (scan_counts "ref.fastq".toList sample_truncated sample_unknown (by decide)
     (by decide)).2.2.1,
   rfl, by decide⟩

/-! ## The second pass leaves the table alone -/

theorem resolve_record_map (argv1 h : Str) (r r' : Resolver)
    (hr : resolve_record argv1 h r = .ok r' ∨ resolve_record argv1 h r = .error r') :
    r'.map_read_order = r.map_read_order := by
  cases hf : r.map_read_order.find (identifier h) with
  | none =>
    rw [resolve_record_missing argv1 h r hf] at hr
    rcases hr with e | e
    · cases e
    · cases e; rfl
  | some v =>
    rw [resolve_record_found argv1 h r v hf] at hr
    rcases hr with e | e
    · cases e; rfl
    · cases e

/-- C13 (the second pass does not modify the index). For every table, in particular
every index built by the first pass, and every second file: the second pass terminates
and, whether it ends normally or by the unknown-identifier exit, the table it leaves has
the same entries as the table it was given. One header never changes the table either:
an absent identifier leads to the exit without being inserted, although `operator[]`
alone would insert it. The table at the end of a run of `main` is the table the first
pass built. -/
theorem index_read_only (argv1 argv2 argv3 : Str) (content line_header : Str) (r0 : Resolver) :
    (∃ e, resolve_order argv1 content line_header r0 = some e ∧
      ∀ r, (e = .ok r ∨ e = .error r) → r.map_read_order = r0.map_read_order) ∧
    (∀ (h : Str) (r r' : Resolver),
      (resolve_record argv1 h r = .ok r' ∨ resolve_record argv1 h r = .error r') →
      r'.map_read_order = r.map_read_order) ∧
    (∀ (h : Str) (r : Resolver), r.map_read_order.find (identifier h) = none →
      resolve_record argv1 h r
        = .error { r with cout := r.cout ++ [Msg.unknown (identifier h) argv1] } ∧
      (r.map_read_order.subscript (identifier h)).1
        = r.map_read_order ++ [(identifier h, 0)]) ∧
    (∀ (original : Str) (aligned : Option Str) (writable : Bool) (lh : Str) (b : Builder),
      build_index argv1 original = some (.ok (lh, b)) →
      ∃ r, main argv1 argv2 argv3 (some original) aligned writable = some r ∧
        r.map_read_order = b.map_read_order) := by
  refine ⟨?_, resolve_record_map argv1, ?_, ?_⟩
  · obtain ⟨ls, t, hls, ht, rfl⟩ := exists_lines content
    refine ⟨_, resolve_order_lines argv1 ls t line_header r0 hls ht, ?_⟩
    intro r hr
    rcases resolve_headers_cases argv1 (sec_headers ls) r0
      with ⟨_, e⟩ | ⟨_, _, _, _, _, _, e⟩
    · rw [e] at hr
      rcases hr with h | h
      · cases h; rfl
      · cases h
    · rw [e] at hr
      rcases hr with h | h
      · cases h
      · cases h; rfl
  · intro h r hf
    exact ⟨resolve_record_missing argv1 h r hf, by simp [UMap.subscript, hf]⟩
  · intro original aligned writable lh b hb
    cases aligned with
    | none => exact ⟨_, (by simp only [main, hb]; rfl), rfl⟩
    | some c2 =>
      cases writable with
      | false => exact ⟨_, (by simp only [main, hb, if_true]; rfl), rfl⟩
      | true =>
        obtain ⟨ls, t, hls, ht, rfl⟩ := exists_lines c2
        have hr := resolve_order_lines argv1 ls t lh ⟨b.map_read_order, [], b.cout⟩ hls ht
        rcases resolve_headers_cases argv1 (sec_headers ls) ⟨b.map_read_order, [], b.cout⟩
          with ⟨_, e⟩ | ⟨_, _, _, _, _, _, e⟩
        · rw [e] at hr
          exact ⟨_, (by simp only [main, hb, hr, Bool.true_eq_false, if_false]; rfl), rfl⟩
        · rw [e] at hr
          exact ⟨_, (by simp only [main, hb, hr, Bool.true_eq_false, if_false]; rfl), rfl⟩

/-- The second pass on the sample table and a second file with the unknown header @r9:
the table is unchanged, while a bare `operator[]` on r9 would have added an entry. -/
theorem index_read_only_witness :
    ((∃ e, resolve_order "ref.fastq".toList (unlines sample_unknown) []
          ⟨[("r1".toList, 1), ("r2".toList, 2), ("r3".toList, 3)], [], []⟩ = some e ∧
        ∀ r, (e = .ok r ∨ e = .error r) →
          r.map_read_order
            = (⟨[("r1".toList, 1), ("r2".toList, 2), ("r3".toList, 3)], [], []⟩ :
                Resolver).map_read_order)) ∧
    resolve_order "ref.fastq".toList (unlines sample_unknown) []
        ⟨[("r1".toList, 1), ("r2".toList, 2), ("r3".toList, 3)], [], []⟩
      = some (.error ⟨[("r1".toList, 1), ("r2".toList, 2), ("r3".toList, 3)], "3\n".toList,
          [Msg.unknown "r9".toList "ref.fastq".toList]⟩) ∧
    UMap.subscript [("r1".toList, 1), ("r2".toList, 2), ("r3".toList, 3)] "r9".toList
      = ([("r1".toList, 1), ("r2".toList, 2), ("r3".toList, 3), ("r9".toList, 0)], 0) :=
  ⟨(index_read_only "ref.fastq".toList "new.fasta".toList "order.txt".toList
      (unlines sample_unknown) []
      ⟨[("r1".toList, 1), ("r2".toList, 2), ("r3".toList, 3)], [], []⟩).1,
   rfl, by decide⟩

/-! ## A last header without line terminator -/

/-- C14, as stated, fails. A reference file of two complete records that both carry the
identifier r1, followed by the unterminated header `@r2`: the first pass fails and the
table has one entry, not two. A second file of three complete records whose second
header is unknown, followed by the unterminated header `@r2`: one line is written, not
three. -/
theorem unterminated_header_counterexample :
    ((∀ l ∈ sample_duplicate, IsLine l) ∧ sample_duplicate.length = 4 * 2 ∧
      IsLine "@r2".toList) ∧
    (∃ b, build_index "ref.fastq".toList (unlines sample_duplicate ++ "@r2".toList)
        = some (.error b) ∧
      b.map_read_order = [("r1".toList, 1)] ∧ b.map_read_order.length ≠ 2) ∧
    ((∀ l ∈ sample_unknown, IsLine l) ∧ sample_unknown.length = 2 * 3) ∧
    (∃ r, resolve_order "ref.fastq".toList (unlines sample_unknown ++ "@r2".toList) []
        ⟨[("r1".toList, 1), ("r2".toList, 2), ("r3".toList, 3)], [], []⟩ = some (.error r) ∧
      r.f_out = "3\n".toList ∧ r.f_out.count '\n' ≠ 3) :=
  ⟨⟨by decide, by decide, by decide⟩,
   ⟨⟨[("r1".toList, 1)], 2, false, [Msg.duplicate "r1".toList "ref.fastq".toList]⟩,
     rfl, rfl, by decide⟩,
   ⟨by decide, by decide⟩,
   ⟨⟨[("r1".toList, 1), ("r2".toList, 2), ("r3".toList, 3)], "3\n".toList,
      [Msg.unknown "r9".toList "ref.fastq".toList]⟩, rfl, rfl, by decide⟩⟩

/-- C14, amended. A last line without line terminator is dropped by both passes: the
first pass, the second pass and the whole run give on `k` complete records followed by
an unterminated header line exactly what they give on the complete records alone. Hence,
for a reference file of `k1` complete 4-line records with pairwise distinct identifiers
followed by an unterminated header, the first pass ends normally, the table has exactly
`k1` entries, those of the complete records, and the last header is not indexed (for
`k1 = 0` the table is empty); for a second file of `k2` complete 2-line records whose
identifiers are all keys of the table followed by an unterminated header, the second
pass ends normally, writes exactly `k2` lines and writes no message: the last header is
neither resolved nor reported as unknown. -/
theorem unterminated_header_dropped (argv1 argv2 argv3 : Str) (k1 k2 : Nat)
    (rl sl : List Str) (t1 t2 : Str)
    (hrl : ∀ l ∈ rl, IsLine l) (hsl : ∀ l ∈ sl, IsLine l)
    (ht1 : IsLine t1) (ht2 : IsLine t2)
    (hk1 : rl.length = 4 * k1) (hk2 : sl.length = 2 * k2) :
    ((build_index argv1 (unlines rl ++ t1)).map (Except.map Prod.snd)
        = (build_index argv1 (unlines rl)).map (Except.map Prod.snd) ∧
      (∀ (line_header : Str) (r0 : Resolver),
        resolve_order argv1 (unlines sl ++ t2) line_header r0
          = resolve_order argv1 (unlines sl) line_header r0) ∧
      (∀ writable : Bool,
        main argv1 argv2 argv3 (some (unlines rl ++ t1)) (some (unlines sl ++ t2)) writable
          = main argv1 argv2 argv3 (some (unlines rl)) (some (unlines sl)) writable)) ∧
    (((ref_headers rl).map identifier).Nodup →
      ∃ lh b, build_index argv1 (unlines rl ++ t1) = some (.ok (lh, b)) ∧
        b.map_read_order.length = k1 ∧ b.num_reads = k1 ∧
        b.map_read_order.map Prod.fst = (ref_headers rl).map identifier ∧
        (identifier t1 ∉ (ref_headers rl).map identifier →
          b.map_read_order.find (identifier t1) = none)) ∧
    (∀ (line_header : Str) (r0 : Resolver),
      (∀ h ∈ sec_headers sl, (r0.map_read_order.find (identifier h)).isSome = true) →
      ∃ vs, resolve_order argv1 (unlines sl ++ t2) line_header r0
          = some (.ok { r0 with f_out := r0.f_out ++ order_lines vs }) ∧
        vs.length = k2 ∧ (order_lines vs).count '\n' = k2) := by
  have hlen1 : (ref_headers rl).length = k1 := by rw [length_ref_headers, hk1]; omega
  have hlen2 : (sec_headers sl).length = k2 := by rw [length_sec_headers, hk2]; omega
  refine ⟨⟨?_, ?_, ?_⟩, ?_, ?_⟩
  · have h1 := build_index_lines argv1 rl t1 hrl ht1
    have h2 := build_index_lines argv1 rl [] hrl isLine_nil
    rw [List.append_nil] at h2
    rw [h1, h2]
  · intro lh r0
    have h1 := resolve_order_lines argv1 sl t2 lh r0 hsl ht2
    have h2 := resolve_order_lines argv1 sl [] lh r0 hsl isLine_nil
    rw [List.append_nil] at h2
    rw [h1, h2]
  · intro writable
    have h1 := main_of_lines argv1 argv2 argv3 rl sl t1 t2 writable hrl hsl ht1 ht2
    have h2 := main_of_lines argv1 argv2 argv3 rl sl [] [] writable hrl hsl isLine_nil isLine_nil
    simp only [List.append_nil] at h2
    rw [h1, h2]
  · intro hnd
    rcases build_index_cases argv1 rl t1 hrl ht1 with ⟨_, lh, e⟩ | ⟨hn, _⟩
    · refine ⟨lh, _, e, ?_, hlen1, keys_numbered _ _, ?_⟩
      · simp only [length_numbered, List.length_map, hlen1]
      · intro hni
        exact (find_numbered_none _ _ _).2 hni
    · exact absurd hnd hn
  · intro lh r0 hall
    refine ⟨lookup_all r0.map_read_order (sec_headers sl), ?_, ?_, ?_⟩
    · rw [resolve_order_lines argv1 sl t2 lh r0 hsl ht2,
        resolve_headers_found argv1 _ r0 hall]
    · simp [lookup_all, hlen2]
    · rw [count_order_lines]; simp [lookup_all, hlen2]

/-- The sample files, each followed by an unterminated header: the run is the run on
the sample files, with three table entries and two output lines. -/
theorem unterminated_header_dropped_witness :
    ((∀ l ∈ sample_reference, IsLine l) ∧ (∀ l ∈ sample_second, IsLine l) ∧
      IsLine "@r4".toList ∧ IsLine "@r9".toList ∧
      sample_reference.length = 4 * 3 ∧ sample_second.length = 2 * 2) ∧
    (∀ writable : Bool,
      main "ref.fastq".toList "new.fasta".toList "order.txt".toList
          (some (unlines sample_reference ++ "@r4".toList))
          (some (unlines sample_second ++ "@r9".toList)) writable
        = main "ref.fastq".toList "new.fasta".toList "order.txt".toList
          (some (unlines sample_reference)) (some (unlines sample_second)) writable) ∧
    main "ref.fastq".toList "new.fasta".toList "order.txt".toList
        (some (unlines sample_reference ++ "@r4".toList))
        (some (unlines sample_second ++ "@r9".toList)) true
      = some ⟨0, [], some "3\n1\n".toList,
          [("r1".toList, 1), ("r2".toList, 2), ("r3".toList, 3)], 3⟩ :=
  ⟨⟨by decide, by decide, by decide, by decide, by decide, by decide⟩,
   (unterminated_header_dropped "ref.fastq".toList "new.fasta".toList "order.txt".toList 3 2
     sample_reference sample_second "@r4".toList "@r9".toList
     (by decide) (by decide) (by decide) (by decide) (by decide) (by decide)).1.2.2,
   by decide⟩

/-! ## The first character of the first word is removed whatever it is -/

theorem identifier_eq_drop (line : Str) : identifier line = (first_word line).drop 1 := by
  simp [identifier, erase]

/-- A reference file, given as its terminated lines `rl` and its unterminated rest `t`,
in which two headers of `rl` have the same identifier fails in the first pass, whatever
the second file is; the report names the identifier of the second of the two headers
when nothing repeats before it. -/
theorem main_two_equal (argv1 argv2 argv3 : Str) (rl : List Str) (t : Str)
    (hrl : ∀ l ∈ rl, IsLine l) (ht : IsLine t) (aligned : Option Str) (writable : Bool)
    (hs1 : List Str) (h1 : Str) (hs2 : List Str) (h2 : Str) (hs3 : List Str)
    (hsplit : ref_headers rl = hs1 ++ h1 :: hs2 ++ h2 :: hs3)
    (heq : identifier h1 = identifier h2) :
    ∃ r, main argv1 argv2 argv3 (some (unlines rl ++ t)) aligned writable = some r ∧
      r.status = 1 ∧ r.f_out = none ∧
      (∃ x, r.cout.getLast? = some (Msg.duplicate x argv1)) ∧
      (((hs1 ++ h1 :: hs2).map identifier).Nodup →
        r.cout.getLast? = some (Msg.duplicate (identifier h2) argv1)) := by
  have hmem : identifier h2 ∈ (hs1 ++ h1 :: hs2).map identifier := by
    rw [← heq]; simp
  have hnd : ¬ ((ref_headers rl).map identifier).Nodup := by
    intro hn
    rw [hsplit, List.map_append, List.nodup_append] at hn
    exact hn.2.2 hmem (by simp)
  obtain ⟨p1, x, p2, hsp, hp1, hp2⟩ := exists_first_dup identifier (ref_headers rl) hnd
  have hm := main_dup argv1 argv2 argv3 rl t hrl ht p1 x p2 hsp hp1 hp2 aligned writable
  refine ⟨_, hm, rfl, rfl, ⟨identifier x, by simp⟩, ?_⟩
  intro hpre
  have hm' := main_dup argv1 argv2 argv3 rl t hrl ht (hs1 ++ h1 :: hs2) h2 hs3 hsplit
    hpre hmem aligned writable
  rw [hm] at hm'
  simp only [Option.some.injEq] at hm'
  rw [hm']
  simp

/-! ## Blank headers -/

theorem dropWhile_all (p : Char → Bool) (l : Str) (h : ∀ c ∈ l, p c = true) :
    l.dropWhile p = [] := by
  induction l with
  | nil => rfl
  | cons a l ih =>
    rw [List.dropWhile_cons, if_pos (h a (by simp))]
    exact ih (fun c hc => h c (by simp [hc]))

/-- A line without any word has the empty first word and the empty identifier. -/
theorem identifier_blank (line : Str) (h : ∀ c ∈ line, isspace c = true) :
    first_word line = [] ∧ identifier line = [] := by
  have hf : first_word line = [] := by
    simp [first_word, extract_string, IStream.mk_open, IStream.good, dropWhile_all isspace line h]
  exact ⟨hf, by rw [identifier_eq_drop, hf]; rfl⟩

theorem ref_headers_append (N : Nat) : ∀ (rl x : List Str), rl.length = 4 * N →
    ref_headers (rl ++ x) = ref_headers rl ++ ref_headers x := by
  induction N with
  | zero =>
    intro rl x h
    have : rl = [] := List.length_eq_zero.1 (by omega)
    subst this
    rfl
  | succ N ih =>
    intro rl x h
    match rl, h with
    | a :: b :: c :: d :: rl', h =>
      have h' : rl'.length = 4 * N := by simp at h; omega
      show ref_headers (a :: b :: c :: d :: (rl' ++ x)) = _
      simp only [ref_headers, ih rl' x h', List.cons_append]
    | [], h => simp at h
    | [_], h => simp at h; omega
    | [_, _], h => simp at h; omega
    | [_, _, _], h => simp at h; omega

theorem find_append_right (m : UMap) (k : Str) (v : Nat) (h : m.find k = none) :
    UMap.find (m ++ [(k, v)]) k = some v := by
  induction m with
  | nil => simp [UMap.find]
  | cons x m ih =>
    obtain ⟨k', v'⟩ := x
    by_cases hk : k' = k
    · simp [UMap.find, hk] at h
    · simp only [UMap.find, hk, if_false] at h
      simp [UMap.find, hk, ih h]

/-! ## Files of any shape: terminated lines and the unterminated rest -/

/-- Every text is its terminated lines followed by its unterminated rest. -/
theorem split_lines_spec (c : Str) :
    c = unlines (terminated_lines c) ++ unterminated_rest c ∧
    (∀ l ∈ terminated_lines c, IsLine l) ∧ IsLine (unterminated_rest c) := by
  induction c with
  | nil => exact ⟨rfl, by simp [terminated_lines, split_lines], by
      simp [unterminated_rest, split_lines, IsLine]⟩
  | cons a c ih =>
    obtain ⟨hc, hls, ht⟩ := ih
    simp only [terminated_lines, unterminated_rest] at hc hls ht ⊢
    by_cases ha : a = '\n'
    · subst ha
      simp only [split_lines, if_true]
      refine ⟨by rw [unlines_cons]; simp [← hc], ?_, ht⟩
      intro l hl
      rcases List.mem_cons.1 hl with rfl | hl
      · exact isLine_nil
      · exact hls l hl
    · simp only [split_lines, ha, if_false]
      cases hsp : (split_lines c).1 with
      | nil =>
        rw [hsp] at hc
        simp only [unlines_nil, List.nil_append] at hc
        refine ⟨by simp [unlines_nil, ← hc], by simp, ?_⟩
        intro hm
        rcases List.mem_cons.1 hm with e | e
        · exact ha e.symm
        · exact ht e
      | cons l ls =>
        rw [hsp] at hc hls
        refine ⟨?_, ?_, ht⟩
        · rw [unlines_cons] at hc ⊢
          simp only [List.cons_append]
          rw [← hc]
        · intro x hx
          rcases List.mem_cons.1 hx with rfl | hx
          · intro hm
            rcases List.mem_cons.1 hm with e | e
            · exact ha e.symm
            · exact hls l (List.mem_cons_self _ _) e
          · exact hls x (List.mem_cons_of_mem _ hx)

/-- The terminated lines and the rest of a text built from lines are these lines and
this rest. -/
theorem split_lines_unlines (ls : List Str) (t : Str) (hls : ∀ l ∈ ls, IsLine l)
    (ht : IsLine t) : split_lines (unlines ls ++ t) = (ls, t) := by
  have hrest : ∀ t : Str, IsLine t → split_lines t = ([], t) := by
    intro t ht
    induction t with
    | nil => rfl
    | cons a t ih =>
      have ha : a ≠ '\n' := fun e => ht (by simp [e])
      have := ih (fun e => ht (List.mem_cons_of_mem _ e))
      simp [split_lines, ha, this]
  have hline : ∀ (l : Str) (tail : Str) (ls' : List Str) (t' : Str), IsLine l →
      split_lines tail = (ls', t') → split_lines (l ++ '\n' :: tail) = (l :: ls', t') := by
    intro l tail ls' t' hl htail
    induction l with
    | nil => simp [split_lines, htail]
    | cons a l ih =>
      have ha : a ≠ '\n' := fun e => hl (by simp [e])
      have := ih (fun e => hl (List.mem_cons_of_mem _ e))
      simp [split_lines, ha, this]
  induction ls with
  | nil => simpa [unlines_nil] using hrest t ht
  | cons l ls ih =>
    rw [unlines_cons, List.append_assoc, List.cons_append]
    exact hline l _ ls t (hls l (by simp)) (ih (fun x hx => hls x (by simp [hx])))

/-! ## Duplicate detection on files of any shape -/

/-- C3, as stated, fails: in the reference file `@r1`, `ACGT`, `+`, `IIII`, `@r1` whose
last line has no line terminator, the header lines at the positions 0 and 4 both have
the identifier r1, yet the first pass ends normally with the single entry r1:1 and the
run ends with status 0 and no message. -/
theorem duplicate_detection_counterexample :
    (ref_headers (all_lines sample_reference_cut)).map identifier
      = ["r1".toList, "r1".toList] ∧
    build_index "ref.fastq".toList sample_reference_cut
      = some (.ok ("@r1".toList, ⟨[("r1".toList, 1)], 1, false, []⟩)) ∧
    main "ref.fastq".toList "new.fasta".toList "order.txt".toList
        (some sample_reference_cut) (some "@r1\nACGT\n".toList) true
      = some ⟨0, [], some "1\n".toList, [("r1".toList, 1)], 1⟩ :=
  ⟨by decide, rfl, by decide⟩

/-- C3, amended. For every reference file, the headers being the lines at the
positions 0, 4, 8, ... among its newline-terminated lines (a last line without line
terminator is not read as a header): the first pass leaves through the
duplicate-identifier `exit(EXIT_FAILURE)` exactly when two headers have the same
identifier, and so does the whole run (status 1 with a duplicate message), whatever the
second file is. When `w` is the identifier of the earliest header that repeats an
earlier one, the last message names `w` and the path `argv1`, the status is 1 and the
output file is never opened. -/
theorem duplicate_detection (argv1 argv2 argv3 original : Str) (aligned : Option Str)
    (writable : Bool) :
    ((∃ b, build_index argv1 original = some (.error b))
      ↔ ¬ ((ref_headers (terminated_lines original)).map identifier).Nodup) ∧
    ∃ r, main argv1 argv2 argv3 (some original) aligned writable = some r ∧
      ((r.status = 1 ∧ ∃ w, Msg.duplicate w argv1 ∈ r.cout)
        ↔ ¬ ((ref_headers (terminated_lines original)).map identifier).Nodup) ∧
      ∀ pre w post,
        (ref_headers (terminated_lines original)).map identifier = pre ++ w :: post →
        pre.Nodup → w ∈ pre →
        r.status = 1 ∧ r.cout.getLast? = some (Msg.duplicate w argv1) ∧ r.f_out = none := by
  obtain ⟨hc, hls, ht⟩ := split_lines_spec original
  have h := duplicate_detection_lines argv1 argv2 argv3 (terminated_lines original)
    (unterminated_rest original) hls ht aligned writable
  rw [← hc] at h
  exact h

/-- The failure example of the specification: identifiers @r1, @r1 give a failure
that names r1 and the reference path, and no output. -/
theorem duplicate_detection_witness :
    (∃ r, main "ref.fastq".toList "new.fasta".toList "order.txt".toList
        (some (unlines sample_duplicate)) (some (unlines sample_second)) true = some r ∧
      ((r.status = 1 ∧ ∃ w, Msg.duplicate w "ref.fastq".toList ∈ r.cout)
        ↔ ¬ ((ref_headers (terminated_lines (unlines sample_duplicate))).map
              identifier).Nodup) ∧
      ∀ pre w post,
        (ref_headers (terminated_lines (unlines sample_duplicate))).map identifier
          = pre ++ w :: post →
        pre.Nodup → w ∈ pre →
        r.status = 1 ∧ r.cout.getLast? = some (Msg.duplicate w "ref.fastq".toList) ∧
          r.f_out = none) ∧
    (ref_headers (terminated_lines (unlines sample_duplicate))).map identifier
      = ["r1".toList, "r1".toList] ∧
    main "ref.fastq".toList "new.fasta".toList "order.txt".toList
        (some (unlines sample_duplicate)) (some (unlines sample_second)) true
      = some ⟨1, [Msg.duplicate "r1".toList "ref.fastq".toList], none, [("r1".toList, 1)], 2⟩ :=
  ⟨(duplicate_detection "ref.fastq".toList "new.fasta".toList "order.txt".toList
      (unlines sample_duplicate) (some (unlines sample_second)) true).2,
   by decide, by decide⟩

/-! ## Unknown identifiers on files of any shape -/

/-- C4, as stated, fails: with the index r1:1, r2:2, r3:3 and the second file `@r3`,
`TTAC`, `@r1`, `ACGT`, `@r9` whose last line has no line terminator, the header line at
the position 4 has the identifier r9, which is not a key of the index, yet the run ends
with status 0, no message and the two lines 3 and 1. -/
theorem unknown_identifier_counterexample :
    (sec_headers (all_lines sample_second_cut)).map identifier
      = ["r3".toList, "r1".toList, "r9".toList] ∧
    build_index "ref.fastq".toList (unlines sample_reference)
      = some (.ok ([], ⟨[("r1".toList, 1), ("r2".toList, 2), ("r3".toList, 3)], 3, false, []⟩)) ∧
    UMap.find [("r1".toList, 1), ("r2".toList, 2), ("r3".toList, 3)] "r9".toList = none ∧
    main "ref.fastq".toList "new.fasta".toList "order.txt".toList
        (some (unlines sample_reference)) (some sample_second_cut) true
      = some ⟨0, [], some "3\n1\n".toList,
          [("r1".toList, 1), ("r2".toList, 2), ("r3".toList, 3)], 3⟩ :=
  ⟨by decide, rfl, by decide, by decide⟩

/-- C4, amended. Given an index built successfully by the first pass (the table `b`
returned by `build_index`) and any second file, the headers being the lines at the
positions 0, 2, 4, ... among its newline-terminated lines (a last line without line
terminator is not read as a header): the run ends with status 1 and an
unknown-identifier message exactly when some header has an identifier that is not a key
of the index. When the first such header is `h`, preceded by the headers `hs1`, the last
message names the identifier of `h` and the output holds exactly one line per header of
`hs1`, in order, each the value the index gives for that header. The index is
unchanged. -/
theorem unknown_identifier (argv1 argv2 argv3 original aligned line_header : Str)
    (b : Builder) (hb : build_index argv1 original = some (.ok (line_header, b))) :
    ∃ r, main argv1 argv2 argv3 (some original) (some aligned) true = some r ∧
      r.map_read_order = b.map_read_order ∧
      ((r.status = 1 ∧ ∃ w, r.cout.getLast? = some (Msg.unknown w argv1))
        ↔ ∃ h ∈ sec_headers (terminated_lines aligned),
            b.map_read_order.find (identifier h) = none) ∧
      ∀ hs1 h hs2, sec_headers (terminated_lines aligned) = hs1 ++ h :: hs2 →
        (∀ x ∈ hs1, (b.map_read_order.find (identifier x)).isSome = true) →
        b.map_read_order.find (identifier h) = none →
        r.status = 1 ∧ r.cout.getLast? = some (Msg.unknown (identifier h) argv1) ∧
        ∃ vs, r.f_out = some (order_lines vs) ∧ vs.length = hs1.length ∧
          (order_lines vs).count '\n' = hs1.length ∧
          ∀ (k : Nat) (x : Str), hs1[k]? = some x →
            ∃ v, vs[k]? = some v ∧ b.map_read_order.find (identifier x) = some v := by
  obtain ⟨hc, hls, ht⟩ := split_lines_spec aligned
  have hr := resolve_order_lines argv1 (terminated_lines aligned) (unterminated_rest aligned)
    line_header ⟨b.map_read_order, [], b.cout⟩ hls ht
  rw [← hc] at hr
  rcases resolve_headers_cases argv1 (sec_headers (terminated_lines aligned))
    ⟨b.map_read_order, [], b.cout⟩ with ⟨hall, e⟩ | ⟨hs1, h, hs2, hsplit, h1, h2, e⟩
  · -- every header is known
    rw [e] at hr
    refine ⟨_, (by simp only [main, hb, hr, Bool.true_eq_false, if_false]; rfl), rfl,
      ⟨?_, ?_⟩, ?_⟩
    · rintro ⟨h0, _⟩; simp at h0
    · rintro ⟨h, hh, hn⟩
      have := hall h hh
      simp only at this
      rw [hn] at this
      simp at this
    · intro hs1 h hs2 hsplit _ hn
      have := hall h (by rw [hsplit]; simp)
      simp only at this
      rw [hn] at this
      simp at this
  · -- the header `h` is the first unknown one
    rw [e] at hr
    refine ⟨_, (by simp only [main, hb, hr, Bool.true_eq_false, if_false]; rfl), rfl,
      ⟨fun _ => ⟨h, by rw [hsplit]; simp, h2⟩, fun _ => ⟨rfl, identifier h, by simp⟩⟩, ?_⟩
    intro hs1' h' hs2' hsplit' g1 g2
    -- the two splittings at the first unknown header agree
    have e' := resolve_headers_missing argv1 hs1' h' hs2' ⟨b.map_read_order, [], b.cout⟩ g1 g2
    rw [← hsplit', e] at e'
    simp only [Except.error.injEq, Resolver.mk.injEq, List.nil_append, true_and] at e'
    refine ⟨rfl, ?_, lookup_all b.map_read_order hs1', ?_, ?_, ?_, ?_⟩
    · simp only [e'.2]; simp
    · simp only [List.nil_append, e'.1]
    · simp [lookup_all]
    · rw [count_order_lines]; simp [lookup_all]
    · intro k x hk
      have hx : x ∈ hs1' := List.getElem?_mem hk
      obtain ⟨v, hv⟩ := Option.isSome_iff_exists.1 (g1 x hx)
      exact ⟨v, by simp [lookup_all, hk, hv], hv⟩

/-- A run on the sample reference and a second file whose second header is unknown:
one line is written, then the run fails naming r9. -/
theorem unknown_identifier_witness :
    build_index "ref.fastq".toList (unlines sample_reference)
      = some (.ok ([], ⟨[("r1".toList, 1), ("r2".toList, 2), ("r3".toList, 3)], 3, false, []⟩)) ∧
    (∃ r, main "ref.fastq".toList "new.fasta".toList "order.txt".toList
        (some (unlines sample_reference)) (some (unlines sample_unknown)) true = some r ∧
      r.map_read_order = [("r1".toList, 1), ("r2".toList, 2), ("r3".toList, 3)] ∧
      ((r.status = 1 ∧ ∃ w, r.cout.getLast? = some (Msg.unknown w "ref.fastq".toList))
        ↔ ∃ h ∈ sec_headers (terminated_lines (unlines sample_unknown)),
            UMap.find [("r1".toList, 1), ("r2".toList, 2), ("r3".toList, 3)] (identifier h)
              = none)) ∧
    sec_headers (terminated_lines (unlines sample_unknown))
      = ["@r3".toList, "@r9".toList, "@r1".toList] ∧
    main "ref.fastq".toList "new.fasta".toList "order.txt".toList
        (some (unlines sample_reference)) (some (unlines sample_unknown)) true
      = some ⟨1, [Msg.unknown "r9".toList "ref.fastq".toList], some "3\n".toList,
          [("r1".toList, 1), ("r2".toList, 2), ("r3".toList, 3)], 3⟩ :=
  ⟨rfl,
   (let ⟨r, h1, h2, h3, _⟩ :=
      unknown_identifier "ref.fastq".toList "new.fasta".toList "order.txt".toList
        (unlines sample_reference) (unlines sample_unknown) []
        ⟨[("r1".toList, 1), ("r2".toList, 2), ("r3".toList, 3)], 3, false, []⟩ rfl
    ⟨r, h1, h2, h3⟩),
   by decide, by decide⟩

/-! ## Unconditional marker removal and blank headers on files of any shape -/

/-- C15, as stated, fails on two kinds of reference file that hold the headers `@r1`
and `Xr1`, whose first words differ only in their first character. In the first the
identifier `a` repeats before them: the first pass fails naming `a`, and no message
names the common remainder `r1`. In the second the header `Xr1` is the last line and
has no line terminator: it is not read as a header and the run ends with status 0 and
no message. -/
theorem marker_unconditional_counterexample :
    ((∀ l ∈ sample_marker_late, IsLine l) ∧
      "@r1".toList ∈ ref_headers sample_marker_late ∧
      "Xr1".toList ∈ ref_headers sample_marker_late ∧
      first_word "@r1".toList = '@' :: "r1".toList ∧
      first_word "Xr1".toList = 'X' :: "r1".toList) ∧
    (∃ r, main "ref.fastq".toList "new.fasta".toList "order.txt".toList
        (some (unlines sample_marker_late)) (some (unlines sample_second)) true = some r ∧
      r.cout = [Msg.duplicate "a".toList "ref.fastq".toList] ∧
      Msg.duplicate "r1".toList "ref.fastq".toList ∉ r.cout) ∧
    ref_headers (all_lines sample_marker_cut) = ["@r1".toList, "Xr1".toList] ∧
    main "ref.fastq".toList "new.fasta".toList "order.txt".toList
        (some sample_marker_cut) (some "@r1\nACGT\n".toList) true
      = some ⟨0, [], some "1\n".toList, [("r1".toList, 1)], 1⟩ :=
  ⟨⟨by decide, by decide, by decide, by decide, by decide⟩,
   ⟨⟨1, [Msg.duplicate "a".toList "ref.fastq".toList], none, [("a".toList, 1)], 2⟩,
     by decide, rfl, by decide⟩,
   by decide, by decide⟩

/-- C15, amended. The identifier is the first word without its first character,
whatever that character is. Hence, for every reference file in which two headers `h1`
and `h2` (in this order; the headers are the lines at the positions 0, 4, 8, ... among
the newline-terminated lines, a last line without line terminator is not read as a
header) have first words that differ only in their first character, the common
remainder being `w`: both have the identifier `w`, and the run fails in the first pass
with status 1 and a duplicate report, whatever the second file is; the report names `w`
when no identifier repeats among the headers before `h2`. -/
theorem marker_unconditional (argv1 argv2 argv3 original : Str)
    (aligned : Option Str) (writable : Bool)
    (hs1 : List Str) (h1 : Str) (hs2 : List Str) (h2 : Str) (hs3 : List Str)
    (c1 c2 : Char) (w : Str)
    (hsplit : ref_headers (terminated_lines original) = hs1 ++ h1 :: hs2 ++ h2 :: hs3)
    (hw1 : first_word h1 = c1 :: w) (hw2 : first_word h2 = c2 :: w) :
    (∀ line : Str, identifier line = (first_word line).drop 1) ∧
    identifier h1 = w ∧ identifier h2 = w ∧
    ∃ r, main argv1 argv2 argv3 (some original) aligned writable = some r ∧
      r.status = 1 ∧ r.f_out = none ∧
      (∃ x, r.cout.getLast? = some (Msg.duplicate x argv1)) ∧
      (((hs1 ++ h1 :: hs2).map identifier).Nodup →
        r.cout.getLast? = some (Msg.duplicate w argv1)) := by
  have e1 : identifier h1 = w := by rw [identifier_eq_drop, hw1]; rfl
  have e2 : identifier h2 = w := by rw [identifier_eq_drop, hw2]; rfl
  refine ⟨identifier_eq_drop, e1, e2, ?_⟩
  obtain ⟨hc, hls, ht⟩ := split_lines_spec original
  have := main_two_equal argv1 argv2 argv3 (terminated_lines original)
    (unterminated_rest original) hls ht aligned writable hs1 h1 hs2 h2 hs3 hsplit
    (by rw [e1, e2])
  rw [← hc, e2] at this
  exact this

/-- The example of the claim: the headers `@r1` and `Xr1` give a failure naming r1. -/
theorem marker_unconditional_witness :
    (ref_headers (terminated_lines (unlines sample_marker))
        = [] ++ "@r1".toList :: [] ++ "Xr1".toList :: [] ∧
      first_word "@r1".toList = '@' :: "r1".toList ∧
      first_word "Xr1".toList = 'X' :: "r1".toList) ∧
    (∃ r, main "ref.fastq".toList "new.fasta".toList "order.txt".toList
        (some (unlines sample_marker)) (some (unlines sample_second)) true = some r ∧
      r.status = 1 ∧ r.f_out = none ∧
      (∃ x, r.cout.getLast? = some (Msg.duplicate x "ref.fastq".toList)) ∧
      ((([] ++ "@r1".toList :: []).map identifier).Nodup →
        r.cout.getLast? = some (Msg.duplicate "r1".toList "ref.fastq".toList))) ∧
    main "ref.fastq".toList "new.fasta".toList "order.txt".toList
        (some (unlines sample_marker)) (some (unlines sample_second)) true
      = some ⟨1, [Msg.duplicate "r1".toList "ref.fastq".toList], none, [("r1".toList, 1)], 2⟩ :=
  ⟨⟨by decide, by decide, by decide⟩,
   (marker_unconditional "ref.fastq".toList "new.fasta".toList "order.txt".toList
     (unlines sample_marker) (some (unlines sample_second)) true [] "@r1".toList []
     "Xr1".toList [] '@' 'X' "r1".toList (by decide) (by decide) (by decide)).2.2.2,
   by decide⟩

/-- C16, as stated, fails on two kinds of reference file with blank lines at two header
positions. In the first the identifier `a` repeats before them: the first pass fails
naming `a`, and no message names the empty identifier. In the second the blank line at
the position 4 is the last line and has no line terminator: it is not read as a header
and the run ends with status 0 and no message. -/
theorem blank_headers_counterexample :
    ((∀ l ∈ sample_blank_late, IsLine l) ∧
      sample_blank_late[8]? = some [] ∧ sample_blank_late[12]? = some []) ∧
    (∃ r, main "ref.fastq".toList "new.fasta".toList "order.txt".toList
        (some (unlines sample_blank_late)) (some (unlines sample_second)) true = some r ∧
      r.cout = [Msg.duplicate "a".toList "ref.fastq".toList] ∧
      Msg.duplicate [] "ref.fastq".toList ∉ r.cout) ∧
    ((all_lines sample_blank_cut)[0]? = some [] ∧
      (all_lines sample_blank_cut)[4]? = some " \t".toList ∧
      ∀ c ∈ " \t".toList, isspace c = true) ∧
    main "ref.fastq".toList "new.fasta".toList "order.txt".toList
        (some sample_blank_cut) (some []) true
      = some ⟨0, [], some [], [([], 1)], 1⟩ :=
  ⟨⟨by decide, by decide, by decide⟩,
   ⟨⟨1, [Msg.duplicate "a".toList "ref.fastq".toList], none, [("a".toList, 1)], 2⟩,
     by decide, rfl, by decide⟩,
   ⟨by decide, by decide, by decide⟩,
   by decide⟩

/-- C16, amended. Extraction never fails: the range check of `erase(0, 1)` always
passes. A line that is empty or all whitespace, and a line whose first word is a single
character, have the empty identifier, and such a header is handled like any other: it is
inserted under the empty identifier when that is not yet a key. Hence a reference file
of `N` complete 4-line records with pairwise distinct non-empty identifiers followed by
one empty line gives a table of `N + 1` entries in which the empty identifier has the
value `N + 1`. Every reference file with blank lines `h1`, `h2` at two header positions
(the headers are the lines at the positions 0, 4, 8, ... among the newline-terminated
lines, a last line without line terminator is not read as a header) fails in the first
pass with a duplicate report, which names the empty identifier when no identifier
repeats among the headers before `h2`. -/
theorem blank_headers (argv1 argv2 argv3 : Str) (N : Nat) (rl : List Str)
    (hrl : ∀ l ∈ rl, IsLine l) (hN : rl.length = 4 * N)
    (hnd : ((ref_headers rl).map identifier).Nodup)
    (hne : [] ∉ (ref_headers rl).map identifier) :
    (∀ line : Str, erase_checked (first_word line) 0 1 = some (identifier line)) ∧
    (∀ line : Str, (∀ c ∈ line, isspace c = true) → identifier line = []) ∧
    (∀ (pad : Str) (c : Char) (rest : Str), (∀ x ∈ pad, isspace x = true) →
      isspace c = false → (rest = [] ∨ ∃ x r, rest = x :: r ∧ isspace x = true) →
      identifier (pad ++ c :: [] ++ rest) = []) ∧
    (∀ (line : Str) (b : Builder), (∀ c ∈ line, isspace c = true) →
      b.map_read_order.find [] = none →
      ∃ b', index_record argv1 line b = .ok b' ∧
        b'.map_read_order = b.map_read_order ++ [([], b.num_reads + 1)] ∧
        b'.num_reads = b.num_reads + 1) ∧
    (∃ lh b, build_index argv1 (unlines rl ++ ['\n']) = some (.ok (lh, b)) ∧
      b.map_read_order.length = N + 1 ∧
      b.map_read_order.find [] = some (N + 1) ∧
      b.map_read_order.map Prod.fst = (ref_headers rl).map identifier ++ [[]]) ∧
    (∀ (original : Str) (aligned : Option Str) (writable : Bool)
      (hs1 : List Str) (h1 : Str) (hs2 : List Str) (h2 : Str) (hs3 : List Str),
      ref_headers (terminated_lines original) = hs1 ++ h1 :: hs2 ++ h2 :: hs3 →
      (∀ c ∈ h1, isspace c = true) → (∀ c ∈ h2, isspace c = true) →
      ∃ r, main argv1 argv2 argv3 (some original) aligned writable = some r ∧
        r.status = 1 ∧ r.f_out = none ∧
        (∃ x, r.cout.getLast? = some (Msg.duplicate x argv1)) ∧
        (((hs1 ++ h1 :: hs2).map identifier).Nodup →
          r.cout.getLast? = some (Msg.duplicate [] argv1))) := by
  refine ⟨?_, fun line h => (identifier_blank line h).2, ?_, ?_, ?_, ?_⟩
  · intro line
    simp [erase_checked, identifier]
  · intro pad c rest hpad hc hrest
    exact identifier_eq pad c [] rest hpad hc (by simp) hrest
  · intro line b hblank hf
    have hid := (identifier_blank line hblank).2
    have e : index_record argv1 line b = .ok
        { warn_once line b with
          num_reads := b.num_reads + 1,
          map_read_order := b.map_read_order.assign [] (b.num_reads + 1) } := by
      simp only [index_record, hid, warn_once_map, warn_once_num_reads, hf, Option.isSome_none,
        Bool.false_eq_true, if_false]
    exact ⟨_, e, by simp [assign_absent _ _ _ hf], rfl⟩
  · have hcontent : unlines rl ++ ['\n'] = unlines (rl ++ [[]]) ++ [] := by
      simp [unlines]
    have hlines : ∀ l ∈ rl ++ [[]], IsLine l := by
      intro l hl
      rcases List.mem_append.1 hl with h | h
      · exact hrl l h
      · simp only [List.mem_singleton] at h
        subst h
        exact isLine_nil
    have hheads : ref_headers (rl ++ [[]]) = ref_headers rl ++ [[]] := by
      rw [ref_headers_append N rl [[]] hN]; rfl
    have hidnil : identifier [] = [] := by decide
    have hids : (ref_headers (rl ++ [[]])).map identifier
        = (ref_headers rl).map identifier ++ [[]] := by
      rw [hheads, List.map_append]; simp [hidnil]
    have hnd' : ((ref_headers (rl ++ [[]])).map identifier).Nodup := by
      rw [hids, List.nodup_append]
      refine ⟨hnd, by simp, ?_⟩
      intro a ha hb
      simp only [List.mem_singleton] at hb
      subst hb
      exact hne ha
    have hlen : (ref_headers rl).length = N := by rw [length_ref_headers, hN]; omega
    rw [hcontent]
    rcases build_index_cases argv1 (rl ++ [[]]) [] hlines isLine_nil with ⟨_, lh, e⟩ | ⟨hn, _⟩
    · refine ⟨lh, _, e, ?_, ?_, ?_⟩
      · simp only [length_numbered, hids, List.length_append, List.length_map, hlen,
          List.length_singleton]
      · show UMap.find (numbered 1 ((ref_headers (rl ++ [[]])).map identifier)) [] = _
        rw [hids, numbered_append]
        simp only [numbered, List.length_map, hlen]
        rw [Nat.add_comm 1 N]
        exact find_append_right _ _ _ ((find_numbered_none _ _ _).2 hne)
      · show (numbered 1 ((ref_headers (rl ++ [[]])).map identifier)).map Prod.fst = _
        rw [keys_numbered, hids]
    · exact absurd hnd' hn
  · intro original aligned writable hs1 h1 hs2 h2 hs3 hsplit hb1 hb2
    have e1 := (identifier_blank h1 hb1).2
    have e2 := (identifier_blank h2 hb2).2
    obtain ⟨hc, hls, ht⟩ := split_lines_spec original
    have := main_two_equal argv1 argv2 argv3 (terminated_lines original)
      (unterminated_rest original) hls ht aligned writable hs1 h1 hs2 h2 hs3 hsplit
      (by rw [e1, e2])
    rw [← hc, e2] at this
    exact this

/-- The sample reference file followed by one empty line: the table gets a fourth
entry, the empty identifier with the value 4. A reference file with two blank headers
fails naming the empty identifier. -/
theorem blank_headers_witness :
    ((∀ l ∈ sample_reference, IsLine l) ∧ sample_reference.length = 4 * 3 ∧
      ((ref_headers sample_reference).map identifier).Nodup ∧
      [] ∉ (ref_headers sample_reference).map identifier) ∧
    (∃ lh b, build_index "ref.fastq".toList (unlines sample_reference ++ ['\n'])
        = some (.ok (lh, b)) ∧
      b.map_read_order.length = 3 + 1 ∧
      b.map_read_order.find [] = some (3 + 1) ∧
      b.map_read_order.map Prod.fst = (ref_headers sample_reference).map identifier ++ [[]]) ∧
    build_index "ref.fastq".toList (unlines sample_reference ++ ['\n'])
      = some (.ok ([], ⟨[("r1".toList, 1), ("r2".toList, 2), ("r3".toList, 3), ([], 4)], 4,
          false, []⟩)) ∧
    main "ref.fastq".toList "new.fasta".toList "order.txt".toList
        (some (unlines sample_blank)) (some (unlines sample_second)) true
      = some ⟨1, [Msg.duplicate [] "ref.fastq".toList], none, [([], 1)], 2⟩ :=
  ⟨⟨by decide, by decide, by decide, by decide⟩,
   (blank_headers "ref.fastq".toList "new.fasta".toList "order.txt".toList 3 sample_reference
     (by decide) (by decide) (by decide) (by decide)).2.2.2.2.1,
   rfl, by decide⟩

end WriteOrder
